import Mathlib

/-!
# Verification of the grid-pathfinding core (`src/pathfinder`)

A shallow embedding of the repository's pathfinding subsystem:
`Position`, `CellType`, `Grid` and its operations (`src/pathfinder/mod.rs`),
the five search algorithms (`astar.rs`, `dijkstra.rs`, `breadth_first.rs`,
`depth_first.rs`, `greedy_best_first.rs`), the grid generator
(`create_random_obstacles_grid`, `create_simple_connected_grid`,
`create_maze_like_grid`, `is_grid_connected`) and the benchmark coordinator
(`benchmark_algorithm`).

Modelling conventions:
* Rust `usize` becomes `Nat`; the `i32` coordinate arithmetic inside
  `get_neighbors` / `get_eight_directional_neighbors` becomes `Int`.
* The `f64` scores (`g_score`, `f_score`, distances, the Manhattan heuristic)
  are integer-valued at every point of every run of the source (they are sums
  of `1.0` steps and integer heuristic values), so they are embedded as `Nat`;
  `f64::INFINITY` (only compared against) is embedded as the `none` case of an
  `Option Nat` lookup.
* `HashMap` becomes an association list with cons insertion and
  first-match lookup (so a later insert shadows an earlier one, exactly the
  overwrite semantics of `HashMap::insert`); `HashSet` becomes a `List` used
  through membership.
* `BinaryHeap` becomes a list with push-at-end; `pop` removes the first
  element of minimal priority (the source's `Ord` instances order nodes by one
  numeric score only, ties being resolved by unspecified heap internals; the
  spec documents any valid heap behaviour as acceptable, and this model is one
  such behaviour).
* Each `while` loop becomes a fuel-indexed recursion returning `none` when
  the fuel runs out; the driver functions pass enough fuel that the loop's
  natural termination is reached (the loops of the source all terminate).
* `rand::rng()` draws become an explicit list of `(row, col)` draws threaded
  through the generator; theorems quantify over all draw lists.
-/

set_option maxHeartbeats 1000000

namespace Pathfinder

/-- `CellType` from `src/pathfinder/mod.rs`. -/
inductive CellType where
  | Open : CellType
  | Blocked : CellType
  | Start : CellType
  | End : CellType
deriving DecidableEq, Repr

/-- `Position` from `src/pathfinder/mod.rs` (`row`, `col` are `usize`). -/
structure Position where
  row : Nat
  col : Nat
deriving DecidableEq, Repr

/-- `Position::manhattan_distance_to`: `|Δrow| + |Δcol|` computed through
signed arithmetic as in the source. -/
def Position.manhattan_distance_to (a b : Position) : Nat :=
  ((a.row : Int) - (b.row : Int)).natAbs + ((a.col : Int) - (b.col : Int)).natAbs

/-- `Grid` from `src/pathfinder/mod.rs`.  The Rust field `end` is a Lean
keyword, embedded as `endP`. -/
structure Grid where
  width : Nat
  height : Nat
  cells : List (List CellType)
  start : Position
  endP : Position
deriving DecidableEq, Repr

/-- Read a cell matrix at `p`; out-of-range reads (which the source never
performs on the grids it builds: every access is bounds-checked first)
default to `Open`. -/
def cellsAt (cs : List (List CellType)) (p : Position) : CellType :=
  (cs.getD p.row []).getD p.col CellType.Open

/-- Read `cells[r][c]` of a grid. -/
def cellAt (g : Grid) (p : Position) : CellType :=
  cellsAt g.cells p

/-- Write `cells[r][c] = v` (a no-op out of range, like the totalised read). -/
def setCell (cells : List (List CellType)) (r c : Nat) (v : CellType) :
    List (List CellType) :=
  cells.set r ((cells.getD r []).set c v)

/-- `Grid::new`: an all-`Open` matrix with the start and end cells marked when
they are in bounds. -/
def Grid.new (width height : Nat) (start endP : Position) : Grid :=
  let cells := List.replicate height (List.replicate width CellType.Open)
  let cells := if start.row < height ∧ start.col < width then
      setCell cells start.row start.col CellType.Start else cells
  let cells := if endP.row < height ∧ endP.col < width then
      setCell cells endP.row endP.col CellType.End else cells
  { width := width, height := height, cells := cells, start := start, endP := endP }

/-- `Grid::add_obstacle`: bounds-guarded, and a silent no-op on the start or
end position. -/
def add_obstacle (g : Grid) (pos : Position) : Grid :=
  if pos.row < g.height ∧ pos.col < g.width then
    if pos ≠ g.start ∧ pos ≠ g.endP then
      { g with cells := setCell g.cells pos.row pos.col CellType.Blocked }
    else g
  else g

/-- The direction table of `Grid::get_neighbors`: right, left, down, up. -/
def directions : List (Int × Int) := [(0, 1), (0, -1), (1, 0), (-1, 0)]

/-- `Grid::get_neighbors`: the in-bounds, non-`Blocked` 4-neighbours of `pos`,
in the fixed order right, left, down, up. -/
def get_neighbors (g : Grid) (pos : Position) : List Position :=
  directions.filterMap (fun d =>
    let new_row : Int := (pos.row : Int) + d.1
    let new_col : Int := (pos.col : Int) + d.2
    if 0 ≤ new_row ∧ new_row < (g.height : Int) ∧
        0 ≤ new_col ∧ new_col < (g.width : Int) then
      let new_pos : Position := ⟨new_row.toNat, new_col.toNat⟩
      if cellAt g new_pos ≠ CellType.Blocked then some new_pos else none
    else none)

/-- `Grid::is_valid_position`. -/
def is_valid_position (g : Grid) (pos : Position) : Bool :=
  pos.row < g.height && pos.col < g.width &&
    cellAt g pos ≠ CellType.Blocked

/-- `PerformanceCounter` from `src/pathfinder/mod.rs`. -/
structure PerformanceCounter where
  nodes_explored : Nat
  nodes_in_frontier : Nat
  comparisons : Nat
  memory_allocations : Nat
deriving DecidableEq, Repr

/-- `PerformanceCounter::new` (all zeros, as `Default`). -/
def PerformanceCounter.new : PerformanceCounter := ⟨0, 0, 0, 0⟩

/-- `PerformanceCounter::explore_node`. -/
def PerformanceCounter.explore_node (c : PerformanceCounter) : PerformanceCounter :=
  { c with nodes_explored := c.nodes_explored + 1 }

/-- `PerformanceCounter::add_to_frontier`. -/
def PerformanceCounter.add_to_frontier (c : PerformanceCounter) : PerformanceCounter :=
  { c with nodes_in_frontier := c.nodes_in_frontier + 1 }

/-- `PerformanceCounter::compare`. -/
def PerformanceCounter.compare (c : PerformanceCounter) : PerformanceCounter :=
  { c with comparisons := c.comparisons + 1 }

/-- `PerformanceCounter::allocate_memory` (the size argument is ignored by the
source as well). -/
def PerformanceCounter.allocate_memory (c : PerformanceCounter) (_size : Nat) :
    PerformanceCounter :=
  { c with memory_allocations := c.memory_allocations + 1 }

/-- First-match lookup in an association list; the embedding of
`HashMap::get` under cons insertion. -/
def alookup (m : List (Position × Position)) (k : Position) : Option Position :=
  (m.find? (fun e => e.1 = k)).map (·.2)

/-- `Nat`-valued score lookup (`g_score` / `distances` maps); `none` plays the
role of the `f64::INFINITY` default. -/
def nlookup (m : List (Position × Nat)) (k : Position) : Option Nat :=
  (m.find? (fun e => e.1 = k)).map (·.2)

/-- The common `reconstruct_path` of the five algorithm files: walk the parent
map backwards from `cur`.  The source pushes parents into a vector and
reverses at the end; consing onto `acc` builds the same reversed list
directly.  Fuel `|came_from| + 1` is exactly enough whenever the source loop
terminates (an acyclic parent chain visits pairwise-distinct keys). -/
def reconstructAux (cf : List (Position × Position)) :
    Nat → Position → List Position → Option (List Position)
  | 0, _, _ => none
  | fuel + 1, cur, acc =>
    match alookup cf cur with
    | none => some (cur :: acc)
    | some parent => reconstructAux cf fuel parent (cur :: acc)

/-- `reconstruct_path(came_from, current)`. -/
def reconstruct_path (cf : List (Position × Position)) (cur : Position) :
    Option (List Position) :=
  reconstructAux cf (cf.length + 1) cur []

/-- Remove the first element of minimal `f`-value from a list: the embedding
of `BinaryHeap::pop` under the source's score-only `Ord` instances (ties go to
the earliest-pushed element, one of the valid heap behaviours). -/
def extractMin {α : Type} (f : α → Nat) : List α → Option (α × List α)
  | [] => none
  | a :: rest =>
    match extractMin f rest with
    | none => some (a, [])
    | some (b, rem) => if f a ≤ f b then some (a, rest) else some (b, a :: rem)

namespace breadth_first

/-- The loop state of `breadth_first::find_path`: FIFO queue, visited set,
parent map and counter. -/
structure BfsState where
  queue : List Position
  visited : List Position
  came_from : List (Position × Position)
  counter : PerformanceCounter
deriving DecidableEq, Repr

/-- The body of the `for neighbor in grid.get_neighbors(&current)` loop of
`breadth_first::find_path`. -/
def bfsStep (cur : Position) (s : BfsState) (nb : Position) : BfsState :=
  let c := s.counter.compare
  if s.visited.contains nb then { s with counter := c }
  else { queue := s.queue ++ [nb], visited := nb :: s.visited,
         came_from := (nb, cur) :: s.came_from,
         counter := (c.add_to_frontier).allocate_memory 1 }

/-- The `while let Some(current) = queue.pop_front()` loop of
`breadth_first::find_path`. -/
def bfsLoop (g : Grid) : Nat → BfsState → Option (List Position × PerformanceCounter)
  | 0, _ => none
  | fuel + 1, st =>
    match st.queue with
    | [] => some ([], st.counter)
    | cur :: rest =>
      let counter := st.counter.explore_node
      if cur = g.endP then
        (reconstruct_path st.came_from cur).map (fun p => (p, counter))
      else
        let st' := (get_neighbors g cur).foldl (bfsStep cur)
          { st with queue := rest, counter := counter }
        bfsLoop g fuel st'

/-- `breadth_first::find_path`. -/
def find_path (g : Grid) : Option (List Position × PerformanceCounter) :=
  let counter := (PerformanceCounter.new.add_to_frontier).allocate_memory 1
  bfsLoop g (g.width * g.height + 2)
    { queue := [g.start], visited := [g.start], came_from := [], counter := counter }

end breadth_first

namespace dijkstra

/-- The heap `Node` of `dijkstra.rs` (position, accumulated distance). -/
structure Node where
  position : Position
  distance : Nat
deriving DecidableEq, Repr

/-- The loop state of `dijkstra::find_path`.  `popped` is a ghost trace of
every position returned by `pop` (it does not influence control flow). -/
structure DijState where
  heap : List Node
  distances : List (Position × Nat)
  previous : List (Position × Position)
  visited : List Position
  counter : PerformanceCounter
  popped : List Position
deriving DecidableEq, Repr

/-- The body of the neighbour loop of `dijkstra::find_path`
(`current_distance` is `distances[current]`, read before the loop as in the
source; the `none` case is `f64::INFINITY + 1.0`, which never beats any
stored distance). -/
def dijStep (cur : Position) (current_distance : Option Nat) (s : DijState)
    (nb : Position) : DijState :=
  let c := s.counter.compare
  if s.visited.contains nb then { s with counter := c }
  else
    match current_distance with
    | none => { s with counter := c }
    | some cd =>
      let new_distance := cd + 1
      let better := match nlookup s.distances nb with
        | none => true
        | some old => new_distance < old
      if better then
        { s with distances := (nb, new_distance) :: s.distances,
                 previous := (nb, cur) :: s.previous,
                 heap := s.heap ++ [⟨nb, new_distance⟩],
                 counter := (c.add_to_frontier).allocate_memory 1 }
      else { s with counter := c }

/-- The `while let Some(current_node) = priority_queue.pop()` loop of
`dijkstra::find_path`. -/
def dijLoop (g : Grid) : Nat → DijState → Option (DijState × List Position)
  | 0, _ => none
  | fuel + 1, st =>
    match extractMin (fun n => n.distance) st.heap with
    | none => some (st, [])
    | some (node, heap') =>
      let cur := node.position
      let st := { st with heap := heap', popped := st.popped ++ [cur] }
      if st.visited.contains cur then dijLoop g fuel st
      else
        let st := { st with visited := cur :: st.visited,
                            counter := st.counter.explore_node }
        if cur = g.endP then
          (reconstruct_path st.previous cur).map (fun p => (st, p))
        else
          -- current_distance = distances[current] (∞ when absent; ∞ + 1 then
          -- never beats any stored distance, hence the no-push `none` case)
          let current_distance := nlookup st.distances cur
          let st := (get_neighbors g cur).foldl (dijStep cur current_distance) st
          dijLoop g fuel st

/-- The initial state of `dijkstra::find_path`. -/
def initState (g : Grid) : DijState :=
  { heap := [⟨g.start, 0⟩], distances := [(g.start, 0)], previous := [],
    visited := [],
    counter := (PerformanceCounter.new.add_to_frontier).allocate_memory 1,
    popped := [] }

/-- `dijkstra::find_path` (returning the final state as well; the source
returns just the path and counter). -/
def run (g : Grid) : Option (DijState × List Position) :=
  dijLoop g (5 * (g.width * g.height + 2) * (g.width * g.height + 2)) (initState g)

/-- `dijkstra::find_path`. -/
def find_path (g : Grid) : Option (List Position × PerformanceCounter) :=
  (run g).map (fun r => (r.2, r.1.counter))

end dijkstra

namespace astar

/-- `astar::heuristic`: the Manhattan distance (integer-valued, embedded as
`Nat` instead of `f64`). -/
def heuristic (a b : Position) : Nat :=
  ((a.col : Int) - (b.col : Int)).natAbs + ((a.row : Int) - (b.row : Int)).natAbs

/-- The heap `Node` of `astar.rs`. -/
structure Node where
  position : Position
  g_score : Nat
  f_score : Nat
  parent : Option Position
deriving DecidableEq, Repr

/-- The loop state of `astar::find_path`.  `popped` is a ghost trace of every
position returned by `pop` (it does not influence control flow). -/
structure AStarState where
  open_set : List Node
  came_from : List (Position × Position)
  g_score : List (Position × Nat)
  f_score : List (Position × Nat)
  counter : PerformanceCounter
  popped : List Position
deriving DecidableEq, Repr

/-- The body of the neighbour loop of `astar::find_path`.
`tentative_g_score` is `g_score[current] + 1`, read live inside the loop as
in the source (`∞ + 1.0` when absent, which is never `<` any stored or
infinite score, hence the `none` case). -/
def astarStep (g : Grid) (cur : Position) (s : AStarState) (nb : Position) :
    AStarState :=
  let c := s.counter.compare
  match nlookup s.g_score cur with
  | none => { s with counter := c }
  | some gcur =>
    let tentative := gcur + 1
    let better := match nlookup s.g_score nb with
      | none => true
      | some old => tentative < old
    if better then
      let nf := tentative + heuristic nb g.endP
      { s with came_from := (nb, cur) :: s.came_from,
               g_score := (nb, tentative) :: s.g_score,
               f_score := (nb, nf) :: s.f_score,
               open_set := s.open_set ++ [⟨nb, tentative, nf, some cur⟩],
               counter := (c.add_to_frontier).allocate_memory 1 }
    else { s with counter := c }

/-- The `while let Some(current_node) = open_set.pop()` loop of
`astar::find_path`.  Note there is no visited check: every pop runs
`counter.explore_node()`. -/
def astarLoop (g : Grid) : Nat → AStarState → Option (AStarState × List Position)
  | 0, _ => none
  | fuel + 1, st =>
    match extractMin (fun n => n.f_score) st.open_set with
    | none => some (st, [])
    | some (node, heap') =>
      let cur := node.position
      let st := { st with open_set := heap', popped := st.popped ++ [cur],
                          counter := st.counter.explore_node }
      if cur = g.endP then
        (reconstruct_path st.came_from cur).map (fun p => (st, p))
      else
        let st := (get_neighbors g cur).foldl (astarStep g cur) st
        astarLoop g fuel st

/-- The initial state of `astar::find_path`. -/
def initState (g : Grid) : AStarState :=
  { open_set := [⟨g.start, 0, heuristic g.start g.endP, none⟩],
    came_from := [], g_score := [(g.start, 0)],
    f_score := [(g.start, heuristic g.start g.endP)],
    counter := (PerformanceCounter.new.add_to_frontier).allocate_memory 1,
    popped := [] }

/-- `astar::find_path` (returning the final state as well). -/
def run (g : Grid) : Option (AStarState × List Position) :=
  astarLoop g ((g.width * g.height + 2) * (g.width * g.height + 2) * 5) (initState g)

/-- `astar::find_path`. -/
def find_path (g : Grid) : Option (List Position × PerformanceCounter) :=
  (run g).map (fun r => (r.2, r.1.counter))

end astar

namespace greedy_best_first

/-- `greedy_best_first::heuristic` (same Manhattan formula as `astar.rs`). -/
def heuristic (a b : Position) : Nat :=
  ((a.col : Int) - (b.col : Int)).natAbs + ((a.row : Int) - (b.row : Int)).natAbs

/-- The heap `Node` of `greedy_best_first.rs`. -/
structure Node where
  position : Position
  heuristic : Nat
deriving DecidableEq, Repr

/-- The loop state of `greedy_best_first::find_path`, with a ghost `popped`
trace. -/
structure GreedyState where
  open_set : List Node
  came_from : List (Position × Position)
  visited : List Position
  counter : PerformanceCounter
  popped : List Position
deriving DecidableEq, Repr

/-- The body of the neighbour loop of `greedy_best_first::find_path`. -/
def greedyStep (g : Grid) (cur : Position) (s : GreedyState) (nb : Position) :
    GreedyState :=
  let c := s.counter.compare
  if s.visited.contains nb then { s with counter := c }
  else
    { s with came_from := (nb, cur) :: s.came_from,
             open_set := s.open_set ++ [⟨nb, heuristic nb g.endP⟩],
             counter := (c.add_to_frontier).allocate_memory 1 }

/-- The pop loop of `greedy_best_first::find_path`. -/
def greedyLoop (g : Grid) : Nat → GreedyState → Option (GreedyState × List Position)
  | 0, _ => none
  | fuel + 1, st =>
    match extractMin (fun n => n.heuristic) st.open_set with
    | none => some (st, [])
    | some (node, heap') =>
      let cur := node.position
      let st := { st with open_set := heap', popped := st.popped ++ [cur] }
      if st.visited.contains cur then greedyLoop g fuel st
      else
        let st := { st with visited := cur :: st.visited,
                            counter := st.counter.explore_node }
        if cur = g.endP then
          (reconstruct_path st.came_from cur).map (fun p => (st, p))
        else
          let st := (get_neighbors g cur).foldl (greedyStep g cur) st
          greedyLoop g fuel st

/-- The initial state of `greedy_best_first::find_path`. -/
def initState (g : Grid) : GreedyState :=
  { open_set := [⟨g.start, heuristic g.start g.endP⟩],
    came_from := [], visited := [],
    counter := (PerformanceCounter.new.add_to_frontier).allocate_memory 1,
    popped := [] }

/-- `greedy_best_first::find_path` (returning the final state as well). -/
def run (g : Grid) : Option (GreedyState × List Position) :=
  greedyLoop g (5 * (g.width * g.height + 2)) (initState g)

/-- `greedy_best_first::find_path`. -/
def find_path (g : Grid) : Option (List Position × PerformanceCounter) :=
  (run g).map (fun r => (r.2, r.1.counter))

end greedy_best_first

namespace depth_first

/-- One iteration of the `for neighbor in grid.get_neighbors(&current)` loop
inside `dfs_recursive`, threaded through a fold.  `rec` is the recursive call
at the next depth; a `true` accumulator models the source's early `return
true` (the remaining neighbours are skipped untouched), `none` models a
deeper fuel exhaustion. -/
def dfsVisit
    (rec : Position → List Position → List Position → PerformanceCounter →
      Option (Bool × List Position × List Position × PerformanceCounter))
    (acc : Option (Bool × List Position × List Position × PerformanceCounter))
    (nb : Position) :
    Option (Bool × List Position × List Position × PerformanceCounter) :=
  match acc with
  | none => none
  | some (true, v, p, c) => some (true, v, p, c)
  | some (false, v, p, c) =>
    let c := c.compare
    if v.contains nb then some (false, v, p, c)
    else rec nb v p (c.allocate_memory 1)

/-- `depth_first::dfs_recursive`.  Fuel bounds the recursion depth (which the
source bounds by the number of distinct visited cells). -/
def dfs_recursive (g : Grid) (target : Position) :
    Nat → Position → List Position → List Position → PerformanceCounter →
    Option (Bool × List Position × List Position × PerformanceCounter)
  | 0, _, _, _, _ => none
  | fuel + 1, current, visited, path, counter =>
    let counter := counter.explore_node
    let visited := current :: visited
    let path := path ++ [current]
    if current = target then some (true, visited, path, counter)
    else
      match (get_neighbors g current).foldl (dfsVisit (dfs_recursive g target fuel))
          (some (false, visited, path, counter)) with
      | none => none
      | some (true, v, p, c) => some (true, v, p, c)
      | some (false, v, p, c) => some (false, v, p.dropLast, c)

/-- `depth_first::find_path`. -/
def find_path (g : Grid) : Option (List Position × PerformanceCounter) :=
  match dfs_recursive g g.endP (g.width * g.height + 2) g.start [] []
      PerformanceCounter.new with
  | none => none
  | some (true, _, path, counter) => some (path, counter)
  | some (false, _, _, counter) => some ([], counter)

end depth_first

/-! ## The grid generator (`PathfinderCoordinator` in `src/pathfinder/mod.rs`) -/

/-- The eight-direction table of `get_eight_directional_neighbors`. -/
def eightDirections : List (Int × Int) :=
  [(-1, -1), (-1, 0), (-1, 1), (0, -1), (0, 1), (1, -1), (1, 0), (1, 1)]

/-- `PathfinderCoordinator::get_eight_directional_neighbors`. -/
def get_eight_directional_neighbors (pos : Position) (width height : Nat) :
    List Position :=
  eightDirections.filterMap (fun d =>
    let new_row : Int := (pos.row : Int) + d.1
    let new_col : Int := (pos.col : Int) + d.2
    if 0 ≤ new_row ∧ new_row < (height : Int) ∧
        0 ≤ new_col ∧ new_col < (width : Int) then
      some ⟨new_row.toNat, new_col.toNat⟩
    else none)

/-- `PathfinderCoordinator::get_protected_positions` (a `HashSet` in the
source, used only through `contains`; duplicates in the list are harmless). -/
def get_protected_positions (g : Grid) : List Position :=
  (g.start :: get_eight_directional_neighbors g.start g.width g.height) ++
    (g.endP :: get_eight_directional_neighbors g.endP g.width g.height)

/-- The BFS loop of `PathfinderCoordinator::is_grid_connected`. -/
def icLoop (g : Grid) : Nat → List Position → List Position → Option Bool
  | 0, _, _ => none
  | _ + 1, [], _ => some false
  | fuel + 1, cur :: rest, visited =>
    if cur = g.endP then some true
    else
      let s := (get_neighbors g cur).foldl
        (fun (s : List Position × List Position) nb =>
          if s.1.contains nb then s else (nb :: s.1, s.2 ++ [nb]))
        (visited, [])
      icLoop g fuel (rest ++ s.2) s.1

/-- `PathfinderCoordinator::is_grid_connected`: BFS from `start`, true as
soon as `end` is dequeued.  Fuel `width*height + 2` covers the maximal number
of loop iterations (proved below), so the `getD false` default is never the
reason for a `false` answer. -/
def is_grid_connected (g : Grid) : Bool :=
  (icLoop g (g.width * g.height + 2) [g.start] [g.start]).getD false

/-- The `as usize` cast of a (finite) `f64` value: truncation toward zero,
saturating at `0` for negative inputs. -/
def ratToUsize (q : ℚ) : Nat := ⌊q⌋.toNat

/-- Round a rational to the nearest integer, ties to even. -/
def rne (m : ℚ) : ℤ :=
  if m - ⌊m⌋ < 1 / 2 then ⌊m⌋
  else if 1 / 2 < m - ⌊m⌋ then ⌊m⌋ + 1
  else if 2 ∣ ⌊m⌋ then ⌊m⌋ else ⌊m⌋ + 1

/-- The quantum exponent of an IEEE binary64 value near `x`: `e - 52` where
`2 ^ e ≤ |x| < 2 ^ (e + 1)`, clamped below at the subnormal quantum
`2 ^ (-1074)`. -/
def qexp (x : ℚ) : ℤ := max (Int.log 2 |x| - 52) (-1074)

/-- IEEE-754 binary64 rounding (round to nearest, ties to even) of an exact
rational value: the nearest multiple of the quantum `2 ^ qexp x`.  Overflow to
infinity is not modelled; every value rounded in this development stays far
below `2 ^ 1024`. -/
def roundF64 (x : ℚ) : ℚ :=
  if x = 0 then 0 else (rne (x / 2 ^ qexp x) : ℚ) * 2 ^ qexp x

/-- The target obstacle count of `create_random_obstacles_grid`
(`(total_cells as f64 * obstacle_percentage) as usize`): the cell count is
cast to `f64` (one rounding), multiplied by the `f64` percentage (a second
rounding, of the exact product of the two operand values), and the result
truncated by the `as usize` cast. -/
def random_obstacle_target (width height : Nat) (obstacle_percentage : ℚ) : Nat :=
  ratToUsize (roundF64 (roundF64 ((width * height : Nat) : ℚ) * obstacle_percentage))

/-- The staircase walk of `create_simple_connected_grid` (`while current !=
end`), recorded in visit order.  Fuel `endP.row + endP.col + 1` covers every
start position used by the source (`(0,0)`). -/
def stairLoop (endP : Position) : Nat → Position → List Position → List Position
  | 0, _, acc => acc
  | fuel + 1, current, acc =>
    if current ≠ endP then
      let acc := acc ++ [current]
      if current.col < endP.col then stairLoop endP fuel ⟨current.row, current.col + 1⟩ acc
      else if current.row < endP.row then stairLoop endP fuel ⟨current.row + 1, current.col⟩ acc
      else acc
    else acc

/-- The obstacle-scatter loop of `create_simple_connected_grid`.  The source
draws random cells until `obstacles_placed == obstacle_count`; the model
consumes an explicit draw list (a finite prefix of that random stream) and
also stops when it is exhausted. -/
def simpleLoop (gp : List Position) (width height obstacle_count : Nat) :
    List (Nat × Nat) → Grid → Nat → Grid
  | [], grid, _ => grid
  | (row, col) :: draws, grid, placed =>
    if placed < obstacle_count then
      let pos : Position := ⟨row, col⟩
      if ¬ gp.contains pos ∧
          ¬ (get_eight_directional_neighbors pos width height).any
            (fun p => gp.contains p) ∧
          cellAt grid pos = CellType.Open then
        simpleLoop gp width height obstacle_count draws (add_obstacle grid pos)
          (placed + 1)
      else simpleLoop gp width height obstacle_count draws grid placed
    else grid

/-- `PathfinderCoordinator::create_simple_connected_grid`: carve the
staircase `guaranteed_path`, then scatter obstacles at half the requested
ratio, only into cells neither on the path nor 8-adjacent to it. -/
def create_simple_connected_grid (width height : Nat) (obstacle_percentage : ℚ)
    (draws : List (Nat × Nat)) : Grid :=
  let start : Position := ⟨0, 0⟩
  let endP : Position := ⟨height - 1, width - 1⟩
  let grid := Grid.new width height start endP
  let guaranteed_path := stairLoop endP (endP.row + endP.col + 1) start [] ++ [endP]
  let total_cells := width * height
  let obstacle_count :=
    ratToUsize (roundF64 (roundF64 (roundF64
      ((total_cells - guaranteed_path.length : Nat) : ℚ) *
        obstacle_percentage) * (1 / 2)))
  simpleLoop guaranteed_path width height obstacle_count draws grid 0

/-- The placement loop of `create_random_obstacles_grid`: each tentative
obstacle is kept only when the grid stays connected, and reverted to `Open`
otherwise.  Draws model `rng.random_range`; the loop additionally stops when
the draw list (a finite prefix of the random stream) is exhausted. -/
def randomLoop (prot : List Position) (obstacle_count max_attempts : Nat) :
    List (Nat × Nat) → Grid → Nat → Nat → Grid
  | [], grid, _, _ => grid
  | (row, col) :: draws, grid, placed, attempts =>
    if placed < obstacle_count ∧ attempts < max_attempts then
      let attempts := attempts + 1
      let pos : Position := ⟨row, col⟩
      if prot.contains pos ∨ cellAt grid pos ≠ CellType.Open then
        randomLoop prot obstacle_count max_attempts draws grid placed attempts
      else
        let grid' := add_obstacle grid pos
        if is_grid_connected grid' then
          randomLoop prot obstacle_count max_attempts draws grid' (placed + 1) attempts
        else
          randomLoop prot obstacle_count max_attempts draws
            { grid' with cells := setCell grid'.cells row col CellType.Open }
            placed attempts
    else grid

/-- `PathfinderCoordinator::create_random_obstacles_grid`.  `draws` feeds the
placement loop, `fallback_draws` feeds the deterministic fallback's scatter
loop (the source uses one `rand::rng()` stream for both). -/
def create_random_obstacles_grid (width height : Nat) (obstacle_percentage : ℚ)
    (draws fallback_draws : List (Nat × Nat)) : Grid :=
  let start : Position := ⟨0, 0⟩
  let endP : Position := ⟨height - 1, width - 1⟩
  let grid := Grid.new width height start endP
  if width < 3 ∨ height < 3 then grid
  else
    let total_cells := width * height
    let obstacle_count := random_obstacle_target width height obstacle_percentage
    let prot := get_protected_positions grid
    let grid := randomLoop prot obstacle_count (total_cells * 3) draws grid 0 0
    if ¬ is_grid_connected grid then
      create_simple_connected_grid width height obstacle_percentage fallback_draws
    else grid

/-- The body of the inner `for col in 1..width-1` loop of
`create_maze_like_grid`. -/
def mazeBodyCol (start endP : Position) (row : Nat) (gr : Grid) (col : Nat) : Grid :=
  if row % 2 = 0 ∧ col % 2 = 0 then
    let pos : Position := ⟨row, col⟩
    if pos ≠ start ∧ pos ≠ endP then add_obstacle gr pos else gr
  else gr

/-- The body of the outer `for row in 1..height-1` loop of
`create_maze_like_grid`. -/
def mazeBodyRow (start endP : Position) (width : Nat) (gr : Grid) (row : Nat) : Grid :=
  (List.range' 1 (width - 1 - 1)).foldl (mazeBodyCol start endP row) gr

/-- `PathfinderCoordinator::create_maze_like_grid`: obstacles at the even
row/column intersections of the grid's interior (`1..height-1` ×
`1..width-1`), skipping start and end. -/
def create_maze_like_grid (width height : Nat) : Grid :=
  let start : Position := ⟨0, 0⟩
  let endP : Position := ⟨height - 1, width - 1⟩
  let grid := Grid.new width height start endP
  (List.range' 1 (height - 1 - 1)).foldl (mazeBodyRow start endP width) grid

/-! ## The benchmark coordinator (`benchmark_algorithm`) -/

/-- `PathfindingMetrics` (durations in nanoseconds, as `Nat`). -/
structure PathfindingMetrics where
  algorithm_name : String
  path_found : Bool
  path_length : Nat
  nodes_explored : Nat
  nodes_in_frontier : Nat
  duration : Nat
  theoretical_complexity : String
  grid_size : Nat × Nat
  obstacle_count : Nat
  path : List Position
deriving DecidableEq, Repr

/-- `PathfinderCoordinator::get_theoretical_complexity`. -/
def get_theoretical_complexity (name : String) : String :=
  if name = "A*" then "O(b^d)"
  else if name = "Dijkstra" then "O((V + E) log V)"
  else if name = "Breadth-First Search" then "O(V + E)"
  else if name = "Depth-First Search" then "O(V + E)"
  else if name = "Greedy Best-First" then "O(b^m)"
  else "Unknown"

/-- The `match algorithm_name` dispatch inside `benchmark_algorithm`; the
unknown-name arm is the source's early `return Err(..)`. -/
def runByName (name : String) (g : Grid) :
    Option (Except String (List Position × PerformanceCounter)) :=
  if name = "A*" then (astar.find_path g).map Except.ok
  else if name = "Dijkstra" then (dijkstra.find_path g).map Except.ok
  else if name = "Breadth-First Search" then (breadth_first.find_path g).map Except.ok
  else if name = "Depth-First Search" then (depth_first.find_path g).map Except.ok
  else if name = "Greedy Best-First" then (greedy_best_first.find_path g).map Except.ok
  else some (Except.error ("Unknown algorithm: " ++ name))

/-- The `for _ in 0..iterations` trial loop of `benchmark_algorithm` for one
grid: accumulates `total_duration` over all trials, counts `successful_runs`
(trials returning a non-empty path), and keeps `last_result` from the last
successful trial.  The wall-clock duration of each trial is modelled by the
next element of `ds`. -/
def trialLoop (name : String) (g : Grid) :
    Nat → List Nat → Nat → Nat →
    Option (List Position × PerformanceCounter) →
    Option (Except String (Nat × Nat × Option (List Position × PerformanceCounter)))
  | 0, _, total, succ, last => some (Except.ok (total, succ, last))
  | n + 1, ds, total, succ, last =>
    match runByName name g with
    | none => none
    | some (Except.error e) => some (Except.error e)
    | some (Except.ok pr) =>
      let total := total + ds.headD 0
      if pr.1.isEmpty then trialLoop name g n ds.tail total succ last
      else trialLoop name g n ds.tail total (succ + 1) (some pr)

/-- The number of `Blocked` cells of a grid (the `obstacle_count` of the
emitted metrics row). -/
def countObstacles (g : Grid) : Nat :=
  g.cells.flatten.countP (fun cell => cell = CellType.Blocked)

/-- One grid's contribution to `benchmark_algorithm`'s results: `none` when
no trial succeeded (the silent omission of the source), otherwise the metrics
row built from the averaged duration and the last successful trial's raw
counter and path. -/
def benchGrid (name : String) (g : Grid) (iterations : Nat) (ds : List Nat) :
    Option (Except String (Option PathfindingMetrics)) :=
  match trialLoop name g iterations ds 0 0 none with
  | none => none
  | some (Except.error e) => some (Except.error e)
  | some (Except.ok (total, succ, last)) =>
    if 0 < succ then
      match last with
      | some (path, counter) =>
        some (Except.ok (some
          { algorithm_name := name,
            path_found := !path.isEmpty,
            path_length := path.length,
            nodes_explored := counter.nodes_explored,
            nodes_in_frontier := counter.nodes_in_frontier,
            duration := total / succ,
            theoretical_complexity := get_theoretical_complexity name,
            grid_size := (g.width, g.height),
            obstacle_count := countObstacles g,
            path := path }))
      | none => some (Except.ok none)
    else some (Except.ok none)

/-- The `for grid in &self.grids` loop of `benchmark_algorithm`. -/
def benchLoop (name : String) (iterations : Nat) :
    List (Grid × List Nat) → Option (Except String (List PathfindingMetrics))
  | [] => some (Except.ok [])
  | (g, ds) :: rest =>
    match benchGrid name g iterations ds with
    | none => none
    | some (Except.error e) => some (Except.error e)
    | some (Except.ok rowOpt) =>
      match benchLoop name iterations rest with
      | none => none
      | some (Except.error e) => some (Except.error e)
      | some (Except.ok rows) =>
        some (Except.ok (match rowOpt with
          | some r => r :: rows
          | none => rows))

/-- `PathfinderCoordinator::benchmark_algorithm`, with the per-trial
wall-clock durations supplied as `durations` (one list per grid). -/
def benchmark_algorithm (name : String) (grids : List Grid) (iterations : Nat)
    (durations : List (List Nat)) : Option (Except String (List PathfindingMetrics)) :=
  benchLoop name iterations (grids.zip durations)

/-! ## Basic lemmas about cells, `Grid::new` and `add_obstacle` -/

theorem getD_eq_getElem? {α : Type} (l : List α) (i : Nat) (d : α) :
    l.getD i d = (l[i]?).getD d := by
  simp [List.getD]

theorem getD_set_same {α : Type} (l : List α) (i : Nat) (a d : α) (h : i < l.length) :
    (l.set i a).getD i d = a := by
  rw [getD_eq_getElem?, List.getElem?_set_eq_of_lt _ h]
  rfl

theorem getD_set_ne {α : Type} (l : List α) (i j : Nat) (a d : α) (h : i ≠ j) :
    (l.set i a).getD j d = l.getD j d := by
  rw [getD_eq_getElem?, List.getElem?_set_ne h, ← getD_eq_getElem?]

theorem cellsAt_setCell (cs : List (List CellType)) (r c : Nat) (v : CellType)
    (p : Position) :
    cellsAt (setCell cs r c v) p =
      if p.row = r ∧ p.col = c ∧ r < cs.length ∧ c < (cs.getD r []).length then v
      else cellsAt cs p := by
  by_cases hr : p.row = r
  · subst hr
    by_cases hrl : p.row < cs.length
    · have hrow : (setCell cs p.row c v).getD p.row [] = (cs.getD p.row []).set c v := by
        unfold setCell
        exact getD_set_same _ _ _ _ hrl
      by_cases hc : p.col = c
      · subst hc
        by_cases hcl : p.col < (cs.getD p.row []).length
        · rw [if_pos ⟨rfl, rfl, hrl, hcl⟩]
          unfold cellsAt
          rw [hrow, getD_set_same _ _ _ _ hcl]
        · rw [if_neg (by tauto)]
          unfold cellsAt
          rw [hrow]
          rw [List.set_eq_of_length_le (Nat.le_of_not_lt hcl)]
      · rw [if_neg (by tauto)]
        unfold cellsAt
        rw [hrow, getD_set_ne _ _ _ _ _ (fun h => hc h.symm)]
    · rw [if_neg (by tauto)]
      unfold cellsAt setCell
      rw [List.set_eq_of_length_le (Nat.le_of_not_lt hrl)]
  · rw [if_neg (by tauto)]
    unfold cellsAt setCell
    rw [getD_set_ne _ _ _ _ _ (fun h => hr h.symm)]

theorem getD_replicate_row (w h : Nat) (r : Nat) :
    (List.replicate h (List.replicate w CellType.Open)).getD r [] =
      if r < h then List.replicate w CellType.Open else [] := by
  rw [getD_eq_getElem?, List.getElem?_replicate]
  split <;> rfl

theorem cellsAt_replicate (w h : Nat) (p : Position) :
    cellsAt (List.replicate h (List.replicate w CellType.Open)) p = CellType.Open := by
  unfold cellsAt
  rw [getD_replicate_row]
  split
  · rw [getD_eq_getElem?, List.getElem?_replicate]
    split <;> rfl
  · rfl

/-- Shape of the cell matrix matches the declared `width`/`height`; every
grid the source constructs satisfies it. -/
def WF (g : Grid) : Prop :=
  g.cells.length = g.height ∧ ∀ r, r < g.height → (g.cells.getD r []).length = g.width

theorem setCell_length (cs : List (List CellType)) (r c : Nat) (v : CellType) :
    (setCell cs r c v).length = cs.length := by
  unfold setCell; simp

theorem setCell_row_length (cs : List (List CellType)) (r c : Nat) (v : CellType)
    (r' : Nat) : ((setCell cs r c v).getD r' []).length = (cs.getD r' []).length := by
  by_cases hr : r = r'
  · subst hr
    by_cases hrl : r < cs.length
    · unfold setCell
      rw [getD_set_same _ _ _ _ hrl]
      simp
    · unfold setCell
      rw [List.set_eq_of_length_le (Nat.le_of_not_lt hrl)]
  · unfold setCell
    rw [getD_set_ne _ _ _ _ _ hr]

theorem WF_new (w h : Nat) (s e : Position) : WF (Grid.new w h s e) := by
  unfold Grid.new WF
  constructor
  · dsimp only
    split <;> split <;> simp [setCell_length]
  · intro r hr
    dsimp only at hr ⊢
    have hrep : ((List.replicate h (List.replicate w CellType.Open)).getD r []).length = w := by
      rw [getD_replicate_row, if_pos hr]
      simp
    split <;> split <;> (try simp only [setCell_row_length]) <;> exact hrep

theorem add_obstacle_width (g : Grid) (pos : Position) :
    (add_obstacle g pos).width = g.width := by
  unfold add_obstacle; split <;> [skip; rfl]; split <;> rfl

theorem add_obstacle_height (g : Grid) (pos : Position) :
    (add_obstacle g pos).height = g.height := by
  unfold add_obstacle; split <;> [skip; rfl]; split <;> rfl

theorem add_obstacle_start (g : Grid) (pos : Position) :
    (add_obstacle g pos).start = g.start := by
  unfold add_obstacle; split <;> [skip; rfl]; split <;> rfl

theorem add_obstacle_endP (g : Grid) (pos : Position) :
    (add_obstacle g pos).endP = g.endP := by
  unfold add_obstacle; split <;> [skip; rfl]; split <;> rfl

theorem WF_add_obstacle {g : Grid} (wf : WF g) (pos : Position) :
    WF (add_obstacle g pos) := by
  unfold add_obstacle
  split <;> [skip; exact wf]
  split <;> [skip; exact wf]
  obtain ⟨h1, h2⟩ := wf
  exact ⟨by simpa [setCell_length] using h1,
    fun r hr => by rw [setCell_row_length]; exact h2 r hr⟩

theorem cellAt_add_obstacle {g : Grid} (wf : WF g) (pos p : Position) :
    cellAt (add_obstacle g pos) p =
      if pos.row < g.height ∧ pos.col < g.width ∧ pos ≠ g.start ∧ pos ≠ g.endP ∧
          p = pos then CellType.Blocked
      else cellAt g p := by
  obtain ⟨h1, h2⟩ := wf
  unfold add_obstacle
  by_cases hb : pos.row < g.height ∧ pos.col < g.width
  · rw [if_pos hb]
    by_cases hse : pos ≠ g.start ∧ pos ≠ g.endP
    · rw [if_pos hse]
      show cellsAt (setCell g.cells pos.row pos.col CellType.Blocked) p = _
      rw [cellsAt_setCell]
      by_cases hp : p = pos
      · subst hp
        rw [if_pos ⟨rfl, rfl, by rw [h1]; exact hb.1, by rw [h2 p.row hb.1]; exact hb.2⟩,
          if_pos ⟨hb.1, hb.2, hse.1, hse.2, rfl⟩]
      · rw [if_neg (by rintro ⟨hr, hc, -⟩; exact hp (by cases p; cases pos; simp_all)),
          if_neg (by tauto)]
        rfl
    · rw [if_neg hse, if_neg (by tauto)]
  · rw [if_neg hb, if_neg (by tauto)]

theorem cellsAt_markStart (w h : Nat) (s p : Position) :
    cellsAt (if s.row < h ∧ s.col < w then
        setCell (List.replicate h (List.replicate w CellType.Open)) s.row s.col
          CellType.Start
      else List.replicate h (List.replicate w CellType.Open)) p =
      if p = s ∧ s.row < h ∧ s.col < w then CellType.Start else CellType.Open := by
  by_cases hsin : s.row < h ∧ s.col < w
  · rw [if_pos hsin, cellsAt_setCell]
    by_cases hp : p = s
    · subst hp
      rw [if_pos ⟨rfl, rfl, by simpa using hsin.1,
          by rw [getD_replicate_row, if_pos hsin.1]; simpa using hsin.2⟩,
        if_pos ⟨rfl, hsin⟩]
    · rw [if_neg (by rintro ⟨hr, hc, -⟩; exact hp (by cases p; cases s; simp_all)),
        if_neg (by tauto), cellsAt_replicate]
  · rw [if_neg hsin, cellsAt_replicate, if_neg (by tauto)]

theorem cellAt_new (w h : Nat) (s e p : Position) :
    cellAt (Grid.new w h s e) p =
      if p = e ∧ e.row < h ∧ e.col < w then CellType.End
      else if p = s ∧ s.row < h ∧ s.col < w then CellType.Start
      else CellType.Open := by
  show cellsAt (Grid.new w h s e).cells p = _
  unfold Grid.new
  dsimp only
  set cs1 := if s.row < h ∧ s.col < w then
      setCell (List.replicate h (List.replicate w CellType.Open)) s.row s.col
        CellType.Start
    else List.replicate h (List.replicate w CellType.Open) with hcs1
  have hcs1len : cs1.length = h := by
    rw [hcs1]; split <;> simp [setCell_length]
  have hcs1row : ∀ r, r < h → (cs1.getD r []).length = w := by
    intro r hr
    have hbase : ((List.replicate h (List.replicate w CellType.Open)).getD r []).length = w := by
      rw [getD_replicate_row, if_pos hr]; simp
    rw [hcs1]; split
    · rw [setCell_row_length]; exact hbase
    · exact hbase
  have hmark : ∀ q : Position, cellsAt cs1 q =
      if q = s ∧ s.row < h ∧ s.col < w then CellType.Start else CellType.Open := by
    intro q
    rw [hcs1]
    exact cellsAt_markStart w h s q
  by_cases hein : e.row < h ∧ e.col < w
  · rw [if_pos hein, cellsAt_setCell]
    by_cases hp : p = e
    · subst hp
      rw [if_pos ⟨rfl, rfl, by rw [hcs1len]; exact hein.1,
          by rw [hcs1row _ hein.1]; exact hein.2⟩, if_pos ⟨rfl, hein⟩]
    · rw [if_neg (by rintro ⟨hr, hc, -⟩; exact hp (by cases p; cases e; simp_all)),
        if_neg (by tauto), hmark]
  · rw [if_neg hein, hmark,
      if_neg (show ¬ (p = e ∧ e.row < h ∧ e.col < w) by tauto)]

/-! ## C10: `add_obstacle` is guarded and a no-op out of bounds -/

/-- C10.  `Grid::add_obstacle` never indexes out of bounds (its `if pos.row <
self.height && pos.col < self.width` guard precedes every access, which the
total embedding reflects), and when `pos` is out of bounds the grid — in
particular every one of its cells — is left unchanged. -/
theorem add_obstacle_out_of_bounds_noop (g : Grid) (pos : Position)
    (h : ¬ (pos.row < g.height ∧ pos.col < g.width)) :
    add_obstacle g pos = g := by
  unfold add_obstacle
  rw [if_neg h]

/-- Witness for C10 at a concrete grid and out-of-bounds position. -/
theorem add_obstacle_out_of_bounds_noop_witness :
    ¬ ((⟨5, 1⟩ : Position).row < (Grid.new 3 3 ⟨0, 0⟩ ⟨2, 2⟩).height ∧
        (⟨5, 1⟩ : Position).col < (Grid.new 3 3 ⟨0, 0⟩ ⟨2, 2⟩).width) ∧
      add_obstacle (Grid.new 3 3 ⟨0, 0⟩ ⟨2, 2⟩) ⟨5, 1⟩ = Grid.new 3 3 ⟨0, 0⟩ ⟨2, 2⟩ :=
  ⟨by decide, add_obstacle_out_of_bounds_noop _ _ (by decide)⟩

/-! ## C7: the obstacle target is a truncation of the `f64` product

The source computes `(total_cells as f64 * obstacle_percentage) as usize`:
one exact `usize → f64` cast (exact below `2 ^ 53`), one `f64` multiply
(IEEE round-to-nearest-even of the exact product of the operand values),
and a final truncation toward zero. -/

theorem rne_intCast (k : ℤ) : rne (k : ℚ) = k := by
  unfold rne
  rw [Int.floor_intCast, if_pos (by norm_num : (k : ℚ) - (k : ℚ) < 1 / 2)]

theorem rne_nonneg (m : ℚ) (hm : 0 ≤ m) : 0 ≤ rne m := by
  have h0 : 0 ≤ ⌊m⌋ := Int.floor_nonneg.mpr hm
  unfold rne
  split_ifs <;> omega

/-- Round-to-nearest moves a value by at most half a unit of the grid. -/
theorem abs_rne_sub (m : ℚ) : |(rne m : ℚ) - m| ≤ 1 / 2 := by
  have hfl : (⌊m⌋ : ℚ) ≤ m := Int.floor_le m
  have hfu : m < ⌊m⌋ + 1 := Int.lt_floor_add_one m
  rw [abs_le]
  unfold rne
  split_ifs with h1 h2 h3
  · constructor <;> linarith
  · push_cast
    constructor <;> linarith
  · rw [not_lt] at h1 h2
    constructor <;> linarith
  · rw [not_lt] at h1 h2
    push_cast
    constructor <;> linarith

theorem two_zpow_pos (n : ℤ) : (0 : ℚ) < 2 ^ n := zpow_pos (by norm_num) n

/-- Values below `2 ^ (t + 53)` in magnitude round on a grid at least as fine
as `2 ^ t`. -/
theorem qexp_le_of_abs_lt (x : ℚ) (t : ℤ) (h0 : x ≠ 0) (ht : -1074 ≤ t)
    (hx : |x| < 2 ^ (t + 53)) : qexp x ≤ t := by
  have hpos : 0 < |x| := abs_pos.mpr h0
  have hlog : Int.log 2 |x| < t + 53 := by
    rw [← Int.lt_zpow_iff_log_lt (by norm_num) hpos]
    rw [show ((2 : ℕ) : ℚ) = 2 by norm_num]
    exact hx
  unfold qexp
  exact max_le (by omega) ht

/-- Dyadic rationals with at most 53 significant bits and quantum at least
`2 ^ (-1074)` are exactly representable in `f64`: `roundF64` fixes them. -/
theorem roundF64_dyadic (k t : ℤ) (hk : |k| < 2 ^ 53) (ht : -1074 ≤ t) :
    roundF64 ((k : ℚ) * 2 ^ t) = (k : ℚ) * 2 ^ t := by
  rcases eq_or_ne k 0 with hk0 | hk0
  · subst hk0
    simp [roundF64]
  · have h2t : (0 : ℚ) < 2 ^ t := two_zpow_pos t
    have hx0 : (k : ℚ) * 2 ^ t ≠ 0 :=
      mul_ne_zero (Int.cast_ne_zero.mpr hk0) (ne_of_gt h2t)
    have hk2 : |(k : ℚ)| < 2 ^ (53 : ℤ) := by
      have hc : ((|k| : ℤ) : ℚ) < ((2 ^ 53 : ℤ) : ℚ) := by exact_mod_cast hk
      rw [Int.cast_abs] at hc
      calc |(k : ℚ)| < ((2 ^ 53 : ℤ) : ℚ) := hc
        _ = 2 ^ (53 : ℤ) := by norm_num
    have habs : |(k : ℚ) * 2 ^ t| < 2 ^ (t + 53) := by
      rw [abs_mul, abs_of_pos h2t, add_comm, zpow_add₀ (by norm_num : (2 : ℚ) ≠ 0) 53 t]
      exact mul_lt_mul_of_pos_right hk2 h2t
    have hqe : qexp ((k : ℚ) * 2 ^ t) ≤ t := qexp_le_of_abs_lt _ t hx0 ht habs
    unfold roundF64
    rw [if_neg hx0]
    set e := qexp ((k : ℚ) * 2 ^ t) with he
    have h2e : (0 : ℚ) < 2 ^ e := two_zpow_pos e
    have hn2 : (((t - e).toNat : ℤ)) = t - e := Int.toNat_of_nonneg (by omega)
    have hm : ((k * 2 ^ (t - e).toNat : ℤ) : ℚ) = (k : ℚ) * 2 ^ t / 2 ^ e := by
      push_cast
      rw [← zpow_natCast (2 : ℚ) (t - e).toNat, hn2, zpow_sub₀ (by norm_num : (2 : ℚ) ≠ 0)]
      ring
    rw [← hm, rne_intCast, hm]
    exact div_mul_cancel₀ _ (ne_of_gt h2e)

/-- Rounding a value of magnitude at most `2 ^ 52` moves it by at most `1/2`
(the quantum there is at most `2 ^ 0`). -/
theorem abs_roundF64_sub (x : ℚ) (hx : |x| ≤ 2 ^ (52 : ℕ)) :
    |roundF64 x - x| ≤ 1 / 2 := by
  rcases eq_or_ne x 0 with h0 | h0
  · subst h0
    simp [roundF64]
  · have hqe : qexp x ≤ 0 := by
      refine qexp_le_of_abs_lt x 0 h0 (by norm_num) ?_
      calc |x| ≤ 2 ^ (52 : ℕ) := hx
        _ < 2 ^ ((0 : ℤ) + 53) := by norm_num
    have h2e : (0 : ℚ) < 2 ^ qexp x := two_zpow_pos _
    have h2e1 : (2 : ℚ) ^ qexp x ≤ 1 := zpow_le_one_of_nonpos₀ (by norm_num) hqe
    unfold roundF64
    rw [if_neg h0]
    have key : (rne (x / 2 ^ qexp x) : ℚ) * 2 ^ qexp x - x
        = ((rne (x / 2 ^ qexp x) : ℚ) - x / 2 ^ qexp x) * 2 ^ qexp x := by
      rw [sub_mul, div_mul_cancel₀ _ (ne_of_gt h2e)]
    rw [key, abs_mul, abs_of_pos h2e]
    calc |(rne (x / 2 ^ qexp x) : ℚ) - x / 2 ^ qexp x| * 2 ^ qexp x
        ≤ 1 / 2 * 2 ^ qexp x :=
          mul_le_mul_of_nonneg_right (abs_rne_sub _) (le_of_lt h2e)
      _ ≤ 1 / 2 * 1 := mul_le_mul_of_nonneg_left h2e1 (by norm_num)
      _ = 1 / 2 := by norm_num

theorem roundF64_nonneg (x : ℚ) (hx : 0 ≤ x) : 0 ≤ roundF64 x := by
  rcases eq_or_ne x 0 with h0 | h0
  · subst h0
    simp [roundF64]
  · unfold roundF64
    rw [if_neg h0]
    have h2e : (0 : ℚ) < 2 ^ qexp x := two_zpow_pos _
    have hm : (0 : ℚ) ≤ x / 2 ^ qexp x := div_nonneg hx (le_of_lt h2e)
    have hr := rne_nonneg _ hm
    exact mul_nonneg (by exact_mod_cast hr) (le_of_lt h2e)

/-- The `usize → f64` cast is exact below `2 ^ 53`. -/
theorem roundF64_natCast (n : Nat) (hn : n < 2 ^ 53) : roundF64 (n : ℚ) = n := by
  have h : roundF64 (((n : ℤ) : ℚ) * 2 ^ (0 : ℤ)) = ((n : ℤ) : ℚ) * 2 ^ (0 : ℤ) := by
    refine roundF64_dyadic (n : ℤ) 0 ?_ (by norm_num)
    rw [abs_of_nonneg (Int.natCast_nonneg n)]
    exact_mod_cast hn
  simpa using h

/-- Counterexample to C7: on a 3×3 grid with `obstacle_percentage = 0.5` the
source computes `(9.0 * 0.5) as usize = 4` (both `f64` operations here are
exact, and `4.5 as usize` truncates), while rounding `4.5` to the nearest
integer gives `5`. -/
theorem random_obstacle_target_not_round :
    random_obstacle_target 3 3 (1 / 2) = 4 ∧
      (round (((3 * 3 : Nat) : ℚ) * (1 / 2))).toNat = 5 := by
  constructor
  · have h9 : roundF64 ((3 * 3 : Nat) : ℚ) = ((3 * 3 : Nat) : ℚ) :=
      roundF64_natCast _ (by norm_num)
    have h92 : ((3 * 3 : Nat) : ℚ) * (1 / 2) = ((9 : ℤ) : ℚ) * 2 ^ (-1 : ℤ) := by
      norm_num
    have hfix : roundF64 (((9 : ℤ) : ℚ) * 2 ^ (-1 : ℤ)) = ((9 : ℤ) : ℚ) * 2 ^ (-1 : ℤ) :=
      roundF64_dyadic 9 (-1) (by norm_num) (by norm_num)
    unfold random_obstacle_target ratToUsize
    rw [h9, h92, hfix]
    rw [show ((9 : ℤ) : ℚ) * 2 ^ (-1 : ℤ) = 9 / 2 by norm_num]
    rw [show ⌊(9 / 2 : ℚ)⌋ = 4 by norm_num [Int.floor_eq_iff]]
    rfl
  · norm_num [round_eq, Int.toNat]

/-- C7 as amended: the target obstacle count of `create_random_obstacles_grid`
is the `f64` product of the cell count and the percentage truncated toward
zero by the `as usize` cast — not the exact product rounded to the nearest
integer.  The cast of the cell count to `f64` is exact, and the one rounding
of the multiply keeps the target within one of the floor of the exact
product. -/
theorem random_obstacle_target_fp_trunc (width height : Nat) (q : ℚ)
    (hq : 0 ≤ q) (hwh : width * height < 2 ^ 53)
    (hP : ((width * height : Nat) : ℚ) * q ≤ 2 ^ 52) :
    random_obstacle_target width height q =
      (⌊roundF64 (((width * height : Nat) : ℚ) * q)⌋).toNat ∧
      ((⌊((width * height : Nat) : ℚ) * q⌋ - 1).toNat ≤
          random_obstacle_target width height q ∧
        random_obstacle_target width height q ≤
          (⌊((width * height : Nat) : ℚ) * q⌋ + 1).toNat) := by
  have hcast : roundF64 ((width * height : Nat) : ℚ) = ((width * height : Nat) : ℚ) :=
    roundF64_natCast _ hwh
  have htarget : random_obstacle_target width height q =
      (⌊roundF64 (((width * height : Nat) : ℚ) * q)⌋).toNat := by
    unfold random_obstacle_target ratToUsize
    rw [hcast]
  set P := ((width * height : Nat) : ℚ) * q with hPdef
  have hP0 : 0 ≤ P := mul_nonneg (Nat.cast_nonneg _) hq
  have habs : |P| ≤ 2 ^ (52 : ℕ) := by
    rw [abs_of_nonneg hP0]
    exact hP
  have herr := abs_roundF64_sub P habs
  rw [abs_le] at herr
  have hfl : (⌊P⌋ : ℚ) ≤ P := Int.floor_le P
  have hfu : P < ⌊P⌋ + 1 := Int.lt_floor_add_one P
  have hup : ⌊roundF64 P⌋ ≤ ⌊P⌋ + 1 := by
    have h1 : roundF64 P < ((⌊P⌋ + 2 : ℤ) : ℚ) := by
      push_cast
      linarith [herr.2]
    have := Int.floor_lt.mpr h1
    omega
  have hdn : ⌊P⌋ - 1 ≤ ⌊roundF64 P⌋ := by
    refine Int.le_floor.mpr ?_
    push_cast
    linarith [herr.1]
  refine ⟨htarget, ?_, ?_⟩
  · rw [htarget]
    exact Int.toNat_le_toNat hdn
  · rw [htarget]
    exact Int.toNat_le_toNat hup

/-! ## C9: which cells of the maze-like grid are blocked -/

theorem mazeBodyCol_fields (s e : Position) (row : Nat) (gr : Grid) (col : Nat) :
    (mazeBodyCol s e row gr col).width = gr.width ∧
      (mazeBodyCol s e row gr col).height = gr.height ∧
      (mazeBodyCol s e row gr col).start = gr.start ∧
      (mazeBodyCol s e row gr col).endP = gr.endP ∧
      (WF gr → WF (mazeBodyCol s e row gr col)) := by
  unfold mazeBodyCol
  split
  · dsimp only
    split
    · exact ⟨add_obstacle_width _ _, add_obstacle_height _ _, add_obstacle_start _ _,
        add_obstacle_endP _ _, fun wf => WF_add_obstacle wf _⟩
    · exact ⟨rfl, rfl, rfl, rfl, id⟩
  · exact ⟨rfl, rfl, rfl, rfl, id⟩

theorem mazeCols_fields (s e : Position) (row : Nat) (cols : List Nat) :
    ∀ gr : Grid,
      ((cols.foldl (mazeBodyCol s e row) gr).width = gr.width ∧
        (cols.foldl (mazeBodyCol s e row) gr).height = gr.height ∧
        (cols.foldl (mazeBodyCol s e row) gr).start = gr.start ∧
        (cols.foldl (mazeBodyCol s e row) gr).endP = gr.endP ∧
        (WF gr → WF (cols.foldl (mazeBodyCol s e row) gr))) := by
  induction cols with
  | nil => exact fun gr => ⟨rfl, rfl, rfl, rfl, id⟩
  | cons c cs ih =>
    intro gr
    rw [List.foldl_cons]
    obtain ⟨w1, h1, s1, e1, wf1⟩ := mazeBodyCol_fields s e row gr c
    obtain ⟨w2, h2, s2, e2, wf2⟩ := ih (mazeBodyCol s e row gr c)
    exact ⟨w2.trans w1, h2.trans h1, s2.trans s1, e2.trans e1, fun wf => wf2 (wf1 wf)⟩

theorem cellAt_mazeBodyCol {w h : Nat} {gr : Grid} (hw : gr.width = w)
    (hh : gr.height = h) (hs : gr.start = ⟨0, 0⟩) (he : gr.endP = ⟨h - 1, w - 1⟩)
    (wf : WF gr) {row col : Nat} (hr1 : 1 ≤ row) (hr2 : row < h - 1)
    (hc1 : 1 ≤ col) (hc2 : col < w - 1) (p : Position) :
    cellAt (mazeBodyCol ⟨0, 0⟩ ⟨h - 1, w - 1⟩ row gr col) p =
      if p = (⟨row, col⟩ : Position) ∧ row % 2 = 0 ∧ col % 2 = 0 then CellType.Blocked
      else cellAt gr p := by
  unfold mazeBodyCol
  by_cases hpar : row % 2 = 0 ∧ col % 2 = 0
  · rw [if_pos hpar]
    dsimp only
    have hnes : (⟨row, col⟩ : Position) ≠ (⟨0, 0⟩ : Position) := by
      intro hcon
      injection hcon with hcon1 hcon2
      omega
    have hnee : (⟨row, col⟩ : Position) ≠ (⟨h - 1, w - 1⟩ : Position) := by
      intro hcon
      injection hcon with hcon1 hcon2
      omega
    rw [if_pos ⟨hnes, hnee⟩, cellAt_add_obstacle wf]
    by_cases hp : p = (⟨row, col⟩ : Position)
    · rw [if_pos ⟨by rw [hh]; show row < h; omega, by rw [hw]; show col < w; omega,
          by rw [hs]; exact hnes, by rw [he]; exact hnee, hp⟩,
        if_pos ⟨hp, hpar⟩]
    · rw [if_neg (fun hcon => hp hcon.2.2.2.2), if_neg (fun hcon => hp hcon.1)]
  · rw [if_neg hpar, if_neg (fun hcon => hpar hcon.2)]

theorem cellAt_mazeCols (w h row : Nat) (hr1 : 1 ≤ row) (hr2 : row < h - 1) :
    ∀ cols : List Nat, (∀ c ∈ cols, 1 ≤ c ∧ c < w - 1) →
    ∀ gr : Grid, gr.width = w → gr.height = h → gr.start = ⟨0, 0⟩ →
      gr.endP = ⟨h - 1, w - 1⟩ → WF gr → ∀ p : Position,
      cellAt (cols.foldl (mazeBodyCol ⟨0, 0⟩ ⟨h - 1, w - 1⟩ row) gr) p =
        if p.row = row ∧ p.col ∈ cols ∧ row % 2 = 0 ∧ p.col % 2 = 0 then
          CellType.Blocked
        else cellAt gr p := by
  intro cols
  induction cols with
  | nil =>
    intro _ gr _ _ _ _ _ p
    rw [List.foldl_nil, if_neg (by simp)]
  | cons c cs ih =>
    intro hcols gr hw hh hs he wf p
    rw [List.foldl_cons]
    have hc := hcols c (List.mem_cons_self _ _)
    obtain ⟨w1, h1, s1, e1, wf1⟩ := mazeBodyCol_fields ⟨0, 0⟩ ⟨h - 1, w - 1⟩ row gr c
    rw [ih (fun x hx => hcols x (List.mem_cons_of_mem _ hx))
        (mazeBodyCol ⟨0, 0⟩ ⟨h - 1, w - 1⟩ row gr c)
        (w1.trans hw) (h1.trans hh) (s1.trans hs) (e1.trans he) (wf1 wf) p,
      cellAt_mazeBodyCol hw hh hs he wf hr1 hr2 hc.1 hc.2 p]
    clear ih wf1 w1 h1 s1 e1 wf hcols
    obtain ⟨pr, pc⟩ := p
    simp only [List.mem_cons, Position.mk.injEq]
    by_cases hpceq : pc = c
    · subst hpceq
      simp only [eq_self_iff_true, and_true, true_and, true_or, or_true]
      split_ifs <;> tauto
    · split_ifs <;> tauto

theorem mazeBodyRow_fields (s e : Position) (w : Nat) (gr : Grid) (row : Nat) :
    (mazeBodyRow s e w gr row).width = gr.width ∧
      (mazeBodyRow s e w gr row).height = gr.height ∧
      (mazeBodyRow s e w gr row).start = gr.start ∧
      (mazeBodyRow s e w gr row).endP = gr.endP ∧
      (WF gr → WF (mazeBodyRow s e w gr row)) :=
  mazeCols_fields s e row (List.range' 1 (w - 1 - 1)) gr

theorem cellAt_mazeRows (w h : Nat) :
    ∀ rows : List Nat, (∀ r ∈ rows, 1 ≤ r ∧ r < h - 1) →
    ∀ gr : Grid, gr.width = w → gr.height = h → gr.start = ⟨0, 0⟩ →
      gr.endP = ⟨h - 1, w - 1⟩ → WF gr → ∀ p : Position,
      cellAt (rows.foldl (mazeBodyRow ⟨0, 0⟩ ⟨h - 1, w - 1⟩ w) gr) p =
        if p.row ∈ rows ∧ 1 ≤ p.col ∧ p.col < w - 1 ∧ p.row % 2 = 0 ∧ p.col % 2 = 0 then
          CellType.Blocked
        else cellAt gr p := by
  intro rows
  induction rows with
  | nil =>
    intro _ gr _ _ _ _ _ p
    rw [List.foldl_nil, if_neg (by simp)]
  | cons r rs ih =>
    intro hrows gr hw hh hs he wf p
    rw [List.foldl_cons]
    have hr := hrows r (List.mem_cons_self _ _)
    obtain ⟨w1, h1, s1, e1, wf1⟩ := mazeBodyRow_fields ⟨0, 0⟩ ⟨h - 1, w - 1⟩ w gr r
    have hbody : cellAt (mazeBodyRow ⟨0, 0⟩ ⟨h - 1, w - 1⟩ w gr r) p =
        if p.row = r ∧ p.col ∈ List.range' 1 (w - 1 - 1) ∧ r % 2 = 0 ∧ p.col % 2 = 0 then
          CellType.Blocked
        else cellAt gr p := by
      unfold mazeBodyRow
      exact cellAt_mazeCols w h r hr.1 hr.2 (List.range' 1 (w - 1 - 1))
        (fun c hc => by rw [List.mem_range'_1] at hc; omega) gr hw hh hs he wf p
    rw [ih (fun x hx => hrows x (List.mem_cons_of_mem _ hx))
        (mazeBodyRow ⟨0, 0⟩ ⟨h - 1, w - 1⟩ w gr r)
        (w1.trans hw) (h1.trans hh) (s1.trans hs) (e1.trans he) (wf1 wf) p,
      hbody]
    have hmem : p.col ∈ List.range' 1 (w - 1 - 1) ↔ 1 ≤ p.col ∧ p.col < w - 1 := by
      rw [List.mem_range'_1]
      omega
    clear ih hbody wf1 w1 h1 s1 e1 wf hrows
    obtain ⟨pr, pc⟩ := p
    simp only [List.mem_cons, hmem]
    by_cases hpreq : pr = r
    · subst hpreq
      simp only [eq_self_iff_true, and_true, true_and, true_or, or_true]
      split_ifs <;> tauto
    · split_ifs <;> tauto

/-- Every cell of `create_maze_like_grid`: blocked exactly at the even
interior intersections, otherwise as in the freshly constructed grid. -/
theorem cellAt_create_maze_like_grid (w h : Nat) (p : Position) :
    cellAt (create_maze_like_grid w h) p =
      if 1 ≤ p.row ∧ p.row < h - 1 ∧ 1 ≤ p.col ∧ p.col < w - 1 ∧
          p.row % 2 = 0 ∧ p.col % 2 = 0 then CellType.Blocked
      else cellAt (Grid.new w h ⟨0, 0⟩ ⟨h - 1, w - 1⟩) p := by
  unfold create_maze_like_grid
  rw [cellAt_mazeRows w h (List.range' 1 (h - 1 - 1))
      (fun r hr => by rw [List.mem_range'_1] at hr; omega)
      (Grid.new w h ⟨0, 0⟩ ⟨h - 1, w - 1⟩) rfl rfl rfl rfl (WF_new w h _ _) p]
  have hmem : p.row ∈ List.range' 1 (h - 1 - 1) ↔ 1 ≤ p.row ∧ p.row < h - 1 := by
    rw [List.mem_range'_1]
    omega
  simp only [hmem]
  split_ifs <;> tauto

/-- Counterexample to C9: on the 5×5 maze-like grid the cell `(0, 2)` has
both coordinates even and is neither start nor end, yet it is not blocked
(the source's loops run only over `1..height-1` × `1..width-1`, so border
cells are never blocked). -/
theorem create_maze_like_grid_border_not_blocked :
    (0 : Nat) % 2 = 0 ∧ (2 : Nat) % 2 = 0 ∧
      (⟨0, 2⟩ : Position) ≠ (⟨0, 0⟩ : Position) ∧
      (⟨0, 2⟩ : Position) ≠ (⟨4, 4⟩ : Position) ∧
      (⟨0, 2⟩ : Position).row < (create_maze_like_grid 5 5).height ∧
      (⟨0, 2⟩ : Position).col < (create_maze_like_grid 5 5).width ∧
      cellAt (create_maze_like_grid 5 5) ⟨0, 2⟩ ≠ CellType.Blocked := by
  decide

/-- C9 as amended: in the maze-like grid a cell is `Blocked` iff both its
coordinates are even **and it lies strictly inside the border** (row in
`1..height-1`, column in `1..width-1`), skipping start and end (which the
interior condition already implies). -/
theorem create_maze_like_grid_blocked_iff (w h : Nat) (p : Position)
    (hr : p.row < h) (hc : p.col < w) :
    cellAt (create_maze_like_grid w h) p = CellType.Blocked ↔
      (p.row % 2 = 0 ∧ p.col % 2 = 0 ∧
        1 ≤ p.row ∧ p.row < h - 1 ∧ 1 ≤ p.col ∧ p.col < w - 1 ∧
        p ≠ (⟨0, 0⟩ : Position) ∧ p ≠ (⟨h - 1, w - 1⟩ : Position)) := by
  rw [cellAt_create_maze_like_grid]
  split_ifs with hcond
  · constructor
    · intro _
      obtain ⟨h1, h2, h3, h4, h5, h6⟩ := hcond
      refine ⟨h5, h6, h1, h2, h3, h4, ?_, ?_⟩
      · intro hcon
        rw [hcon] at h1
        exact absurd h1 (by simp)
      · intro hcon
        rw [hcon] at h2
        exact absurd h2 (by simp)
    · intro _
      rfl
  · rw [cellAt_new]
    constructor
    · intro hblocked
      exfalso
      split_ifs at hblocked
    · intro hrhs
      exact absurd ⟨hrhs.2.2.1, hrhs.2.2.2.1, hrhs.2.2.2.2.1, hrhs.2.2.2.2.2.1,
        hrhs.1, hrhs.2.1⟩ hcond

/-- Witness for C9's amended theorem: the interior even intersection `(2, 2)`
of the 5×5 maze-like grid is indeed blocked. -/
theorem create_maze_like_grid_blocked_iff_witness :
    (⟨2, 2⟩ : Position).row < 5 ∧ (⟨2, 2⟩ : Position).col < 5 ∧
      (cellAt (create_maze_like_grid 5 5) ⟨2, 2⟩ = CellType.Blocked ↔
        ((⟨2, 2⟩ : Position).row % 2 = 0 ∧ (⟨2, 2⟩ : Position).col % 2 = 0 ∧
          1 ≤ (⟨2, 2⟩ : Position).row ∧ (⟨2, 2⟩ : Position).row < 5 - 1 ∧
          1 ≤ (⟨2, 2⟩ : Position).col ∧ (⟨2, 2⟩ : Position).col < 5 - 1 ∧
          (⟨2, 2⟩ : Position) ≠ (⟨0, 0⟩ : Position) ∧
          (⟨2, 2⟩ : Position) ≠ (⟨5 - 1, 5 - 1⟩ : Position))) :=
  ⟨by decide, by decide, create_maze_like_grid_blocked_iff 5 5 ⟨2, 2⟩ (by decide) (by decide)⟩

/-! ## C6: path lengths of the five algorithms on the empty 3×3 grid -/

/-- The 3×3 obstacle-free grid with start `(0,0)` and end `(2,2)`. -/
def grid3x3 : Grid := Grid.new 3 3 ⟨0, 0⟩ ⟨2, 2⟩

/-- Counterexample to C6: on the empty 3×3 grid, `depth_first::find_path`
returns a path of length 9 (it snakes through every cell, because the
neighbour order right–left–down–up explores left before down), not 5. -/
theorem depth_first_3x3_length_nine :
    (depth_first.find_path grid3x3).map (fun r => r.1.length) = some 9 ∧
      (9 : Nat) ≠ 5 := by
  constructor
  · decide
  · decide

/-- C6 as amended: on the empty 3×3 grid A*, Dijkstra, BFS and Greedy
Best-First return paths of length exactly 5 (4 moves plus the start node),
while DFS returns a valid but longer path of length 9. -/
theorem algorithms_3x3_path_lengths :
    (astar.find_path grid3x3).map (fun r => r.1.length) = some 5 ∧
      (dijkstra.find_path grid3x3).map (fun r => r.1.length) = some 5 ∧
      (breadth_first.find_path grid3x3).map (fun r => r.1.length) = some 5 ∧
      (greedy_best_first.find_path grid3x3).map (fun r => r.1.length) = some 5 ∧
      (depth_first.find_path grid3x3).map (fun r => r.1.length) = some 9 := by
  refine ⟨by decide, by decide, by decide, by decide, by decide⟩

/-! ## C5: frontier admissions and the two counters -/

theorem explore_node_counters (c : PerformanceCounter) :
    (c.explore_node).nodes_in_frontier = c.nodes_in_frontier ∧
      (c.explore_node).memory_allocations = c.memory_allocations := ⟨rfl, rfl⟩

theorem compare_counters (c : PerformanceCounter) :
    (c.compare).nodes_in_frontier = c.nodes_in_frontier ∧
      (c.compare).memory_allocations = c.memory_allocations := ⟨rfl, rfl⟩

/-- The lockstep pairing of the two admission counters. -/
def CounterPair (c : PerformanceCounter) : Prop :=
  c.nodes_in_frontier = c.memory_allocations

theorem breadth_first.bfsStep_pair (cur : Position) (s : BfsState) (nb : Position) :
    (CounterPair s.counter → CounterPair (bfsStep cur s nb).counter) ∧
      s.counter.nodes_in_frontier ≤ (bfsStep cur s nb).counter.nodes_in_frontier := by
  unfold bfsStep CounterPair PerformanceCounter.compare
    PerformanceCounter.add_to_frontier PerformanceCounter.allocate_memory
  split <;> dsimp only <;> omega

theorem breadth_first.foldl_bfsStep_pair (cur : Position) (nbs : List Position) :
    ∀ s : BfsState,
      (CounterPair s.counter → CounterPair ((nbs.foldl (bfsStep cur) s)).counter) ∧
        s.counter.nodes_in_frontier ≤
          ((nbs.foldl (bfsStep cur) s)).counter.nodes_in_frontier := by
  induction nbs with
  | nil => exact fun s => ⟨id, le_refl _⟩
  | cons nb rest ih =>
    intro s
    rw [List.foldl_cons]
    obtain ⟨hp1, hm1⟩ := breadth_first.bfsStep_pair cur s nb
    obtain ⟨hp2, hm2⟩ := ih (bfsStep cur s nb)
    exact ⟨fun hc => hp2 (hp1 hc), le_trans hm1 hm2⟩

theorem breadth_first.bfsLoop_pair (g : Grid) :
    ∀ (fuel : Nat) (st : BfsState) (p : List Position) (c : PerformanceCounter),
      bfsLoop g fuel st = some (p, c) →
      (CounterPair st.counter → CounterPair c) ∧
        st.counter.nodes_in_frontier ≤ c.nodes_in_frontier := by
  intro fuel
  induction fuel with
  | zero => intro st p c h; exact absurd h (by simp [bfsLoop])
  | succ n ih =>
    intro st p c h
    rw [bfsLoop] at h
    match hq : st.queue with
    | [] =>
      rw [hq] at h
      obtain ⟨-, hc⟩ := Prod.mk.injEq .. ▸ Option.some.injEq .. ▸ h
      cases h
      exact ⟨id, le_refl _⟩
    | cur :: rest =>
      rw [hq] at h
      dsimp only at h
      by_cases hend : cur = g.endP
      · rw [if_pos hend] at h
        match hr : reconstruct_path st.came_from cur with
        | none =>
          rw [hr, Option.map_none'] at h
          exact Option.noConfusion h
        | some path =>
          rw [hr] at h
          simp only [Option.map_some'] at h
          cases h
          exact ⟨id, le_refl _⟩
      · rw [if_neg hend] at h
        obtain ⟨hp, hm⟩ := ih _ _ _ h
        obtain ⟨hp2, hm2⟩ := breadth_first.foldl_bfsStep_pair cur (get_neighbors g cur)
          { st with queue := rest, counter := st.counter.explore_node }
        refine ⟨fun hc => hp (hp2 hc), le_trans (le_trans (le_refl _) hm2) hm⟩

theorem dijkstra.dijStep_pair (cur : Position) (cd : Option Nat) (s : DijState)
    (nb : Position) :
    (CounterPair s.counter → CounterPair (dijStep cur cd s nb).counter) ∧
      s.counter.nodes_in_frontier ≤ (dijStep cur cd s nb).counter.nodes_in_frontier := by
  unfold dijStep CounterPair PerformanceCounter.compare
    PerformanceCounter.add_to_frontier PerformanceCounter.allocate_memory
  split
  · dsimp only; omega
  · match cd with
    | none => dsimp only; omega
    | some d => dsimp only; split <;> dsimp only <;> omega

theorem dijkstra.foldl_dijStep_pair (cur : Position) (cd : Option Nat)
    (nbs : List Position) :
    ∀ s : DijState,
      (CounterPair s.counter →
          CounterPair ((nbs.foldl (dijStep cur cd) s)).counter) ∧
        s.counter.nodes_in_frontier ≤
          ((nbs.foldl (dijStep cur cd) s)).counter.nodes_in_frontier := by
  induction nbs with
  | nil => exact fun s => ⟨id, le_refl _⟩
  | cons nb rest ih =>
    intro s
    rw [List.foldl_cons]
    obtain ⟨hp1, hm1⟩ := dijkstra.dijStep_pair cur cd s nb
    obtain ⟨hp2, hm2⟩ := ih (dijStep cur cd s nb)
    exact ⟨fun hc => hp2 (hp1 hc), le_trans hm1 hm2⟩

theorem dijkstra.dijLoop_pair (g : Grid) :
    ∀ (fuel : Nat) (st : DijState) (st' : DijState) (p : List Position),
      dijLoop g fuel st = some (st', p) →
      (CounterPair st.counter → CounterPair st'.counter) ∧
        st.counter.nodes_in_frontier ≤ st'.counter.nodes_in_frontier := by
  intro fuel
  induction fuel with
  | zero => intro st st' p h; exact absurd h (by simp [dijLoop])
  | succ n ih =>
    intro st st' p h
    rw [dijLoop] at h
    match hq : extractMin (fun n => n.distance) st.heap with
    | none =>
      rw [hq] at h
      cases h
      exact ⟨id, le_refl _⟩
    | some (node, heap') =>
      rw [hq] at h
      dsimp only at h
      by_cases hvis : st.visited.contains node.position
      · rw [if_pos hvis] at h
        obtain ⟨h1, h2⟩ := ih _ _ _ h
        exact ⟨h1, h2⟩
      · rw [if_neg hvis] at h
        by_cases hend : node.position = g.endP
        · rw [if_pos hend] at h
          match hr : reconstruct_path st.previous node.position with
          | none =>
            rw [hr, Option.map_none'] at h
            exact Option.noConfusion h
          | some path =>
            rw [hr] at h
            simp only [Option.map_some'] at h
            cases h
            exact ⟨id, le_refl _⟩
        · rw [if_neg hend] at h
          obtain ⟨hp, hm⟩ := ih _ _ _ h
          obtain ⟨hp2, hm2⟩ := dijkstra.foldl_dijStep_pair node.position _
            (get_neighbors g node.position) _
          exact ⟨fun hc => hp (hp2 hc), le_trans hm2 hm⟩

theorem astar.astarStep_pair (g : Grid) (cur : Position) (s : AStarState)
    (nb : Position) :
    (CounterPair s.counter → CounterPair (astarStep g cur s nb).counter) ∧
      s.counter.nodes_in_frontier ≤ (astarStep g cur s nb).counter.nodes_in_frontier := by
  unfold astarStep CounterPair PerformanceCounter.compare
    PerformanceCounter.add_to_frontier PerformanceCounter.allocate_memory
  match nlookup s.g_score cur with
  | none => dsimp only; omega
  | some gcur => dsimp only; split <;> dsimp only <;> omega

theorem astar.foldl_astarStep_pair (g : Grid) (cur : Position) (nbs : List Position) :
    ∀ s : AStarState,
      (CounterPair s.counter →
          CounterPair ((nbs.foldl (astarStep g cur) s)).counter) ∧
        s.counter.nodes_in_frontier ≤
          ((nbs.foldl (astarStep g cur) s)).counter.nodes_in_frontier := by
  induction nbs with
  | nil => exact fun s => ⟨id, le_refl _⟩
  | cons nb rest ih =>
    intro s
    rw [List.foldl_cons]
    obtain ⟨hp1, hm1⟩ := astar.astarStep_pair g cur s nb
    obtain ⟨hp2, hm2⟩ := ih (astarStep g cur s nb)
    exact ⟨fun hc => hp2 (hp1 hc), le_trans hm1 hm2⟩

theorem astar.astarLoop_pair (g : Grid) :
    ∀ (fuel : Nat) (st : AStarState) (st' : AStarState) (p : List Position),
      astarLoop g fuel st = some (st', p) →
      (CounterPair st.counter → CounterPair st'.counter) ∧
        st.counter.nodes_in_frontier ≤ st'.counter.nodes_in_frontier := by
  intro fuel
  induction fuel with
  | zero => intro st st' p h; exact absurd h (by simp [astarLoop])
  | succ n ih =>
    intro st st' p h
    rw [astarLoop] at h
    match hq : extractMin (fun n => n.f_score) st.open_set with
    | none =>
      rw [hq] at h
      cases h
      exact ⟨id, le_refl _⟩
    | some (node, heap') =>
      rw [hq] at h
      dsimp only at h
      by_cases hend : node.position = g.endP
      · rw [if_pos hend] at h
        match hr : reconstruct_path st.came_from node.position with
        | none =>
          rw [hr, Option.map_none'] at h
          exact Option.noConfusion h
        | some path =>
          rw [hr] at h
          simp only [Option.map_some'] at h
          cases h
          exact ⟨id, le_refl _⟩
      · rw [if_neg hend] at h
        obtain ⟨hp, hm⟩ := ih _ _ _ h
        obtain ⟨hp2, hm2⟩ := astar.foldl_astarStep_pair g node.position
          (get_neighbors g node.position) _
        exact ⟨fun hc => hp (hp2 hc), le_trans hm2 hm⟩

theorem greedy_best_first.greedyStep_pair (g : Grid) (cur : Position)
    (s : GreedyState) (nb : Position) :
    (CounterPair s.counter → CounterPair (greedyStep g cur s nb).counter) ∧
      s.counter.nodes_in_frontier ≤ (greedyStep g cur s nb).counter.nodes_in_frontier := by
  unfold greedyStep CounterPair PerformanceCounter.compare
    PerformanceCounter.add_to_frontier PerformanceCounter.allocate_memory
  split <;> dsimp only <;> omega

theorem greedy_best_first.foldl_greedyStep_pair (g : Grid) (cur : Position)
    (nbs : List Position) :
    ∀ s : GreedyState,
      (CounterPair s.counter →
          CounterPair ((nbs.foldl (greedyStep g cur) s)).counter) ∧
        s.counter.nodes_in_frontier ≤
          ((nbs.foldl (greedyStep g cur) s)).counter.nodes_in_frontier := by
  induction nbs with
  | nil => exact fun s => ⟨id, le_refl _⟩
  | cons nb rest ih =>
    intro s
    rw [List.foldl_cons]
    obtain ⟨hp1, hm1⟩ := greedy_best_first.greedyStep_pair g cur s nb
    obtain ⟨hp2, hm2⟩ := ih (greedyStep g cur s nb)
    exact ⟨fun hc => hp2 (hp1 hc), le_trans hm1 hm2⟩

theorem greedy_best_first.greedyLoop_pair (g : Grid) :
    ∀ (fuel : Nat) (st : GreedyState) (st' : GreedyState) (p : List Position),
      greedyLoop g fuel st = some (st', p) →
      (CounterPair st.counter → CounterPair st'.counter) ∧
        st.counter.nodes_in_frontier ≤ st'.counter.nodes_in_frontier := by
  intro fuel
  induction fuel with
  | zero => intro st st' p h; exact absurd h (by simp [greedyLoop])
  | succ n ih =>
    intro st st' p h
    rw [greedyLoop] at h
    match hq : extractMin (fun n => n.heuristic) st.open_set with
    | none =>
      rw [hq] at h
      cases h
      exact ⟨id, le_refl _⟩
    | some (node, heap') =>
      rw [hq] at h
      dsimp only at h
      by_cases hvis : st.visited.contains node.position
      · rw [if_pos hvis] at h
        obtain ⟨h1, h2⟩ := ih _ _ _ h
        exact ⟨h1, h2⟩
      · rw [if_neg hvis] at h
        by_cases hend : node.position = g.endP
        · rw [if_pos hend] at h
          match hr : reconstruct_path st.came_from node.position with
          | none =>
            rw [hr, Option.map_none'] at h
            exact Option.noConfusion h
          | some path =>
            rw [hr] at h
            simp only [Option.map_some'] at h
            cases h
            exact ⟨id, le_refl _⟩
        · rw [if_neg hend] at h
          obtain ⟨hp, hm⟩ := ih _ _ _ h
          obtain ⟨hp2, hm2⟩ := greedy_best_first.foldl_greedyStep_pair g node.position
            (get_neighbors g node.position) _
          exact ⟨fun hc => hp (hp2 hc), le_trans hm2 hm⟩

theorem depth_first.foldl_dfsVisit_none
    (rec : Position → List Position → List Position → PerformanceCounter →
      Option (Bool × List Position × List Position × PerformanceCounter)) :
    ∀ nbs : List Position, nbs.foldl (dfsVisit rec) none = none := by
  intro nbs
  induction nbs with
  | nil => rfl
  | cons nb rest ih => rw [List.foldl_cons]; exact ih

theorem depth_first.foldl_dfsVisit_frontier
    (rec : Position → List Position → List Position → PerformanceCounter →
      Option (Bool × List Position × List Position × PerformanceCounter))
    (hrec : ∀ nb v p c res, rec nb v p c = some res →
      (res.2.2.2).nodes_in_frontier = c.nodes_in_frontier) :
    ∀ (nbs : List Position) (b : Bool) (v p : List Position)
      (c : PerformanceCounter) res,
      nbs.foldl (dfsVisit rec) (some (b, v, p, c)) = some res →
      (res.2.2.2).nodes_in_frontier = c.nodes_in_frontier := by
  intro nbs
  induction nbs with
  | nil =>
    intro b v p c res h
    cases h
    rfl
  | cons nb rest ih =>
    intro b v p c res h
    rw [List.foldl_cons] at h
    match b with
    | true => exact ih _ _ _ _ _ h
    | false =>
      rw [dfsVisit] at h
      by_cases hvis : v.contains nb
      · rw [if_pos hvis] at h
        have hres := ih false v p (c.compare) res h
        exact hres
      · rw [if_neg hvis] at h
        match hr : rec nb v p ((c.compare).allocate_memory 1) with
        | none =>
          rw [hr, depth_first.foldl_dfsVisit_none] at h
          cases h
        | some (b2, v2, p2, c2) =>
          rw [hr] at h
          have hres := ih b2 v2 p2 c2 res h
          exact hres.trans (hrec _ _ _ _ _ hr)

theorem depth_first.dfs_recursive_frontier (g : Grid) (t : Position) :
    ∀ (fuel : Nat) cur vis path cnt res,
      dfs_recursive g t fuel cur vis path cnt = some res →
      (res.2.2.2).nodes_in_frontier = cnt.nodes_in_frontier := by
  intro fuel
  induction fuel with
  | zero => intro cur vis path cnt res h; cases h
  | succ n ih =>
    intro cur vis path cnt res h
    rw [dfs_recursive] at h
    by_cases hend : cur = t
    · rw [if_pos hend] at h
      cases h
      rfl
    · rw [if_neg hend] at h
      match hloop : (get_neighbors g cur).foldl (dfsVisit (dfs_recursive g t n))
          (some (false, cur :: vis, path ++ [cur], cnt.explore_node)) with
      | none => rw [hloop] at h; cases h
      | some (true, v, p, c) =>
        rw [hloop] at h
        cases h
        have hres := depth_first.foldl_dfsVisit_frontier (dfs_recursive g t n)
          (fun nb v p c res hr => ih nb v p c res hr)
          (get_neighbors g cur) false (cur :: vis) (path ++ [cur])
          cnt.explore_node _ hloop
        exact hres
      | some (false, v, p, c) =>
        rw [hloop] at h
        cases h
        have hres := depth_first.foldl_dfsVisit_frontier (dfs_recursive g t n)
          (fun nb v p c res hr => ih nb v p c res hr)
          (get_neighbors g cur) false (cur :: vis) (path ++ [cur])
          cnt.explore_node _ hloop
        exact hres

/-- Counterexample to C5: on the empty 3×3 grid (which has reachable cells —
the start has neighbours) the recursive DFS returns `nodes_in_frontier = 0`:
`dfs_recursive` never calls `add_to_frontier` at all, even though it does
increment `memory_allocations` at each first-time recursive descent. -/
theorem dfs_frontier_counter_zero :
    (depth_first.find_path grid3x3).map (fun r => r.2.nodes_in_frontier) = some 0 ∧
      get_neighbors grid3x3 grid3x3.start ≠ [] := by
  constructor
  · decide
  · decide

/-- C5 as amended: in the four frontier-based algorithms (BFS, A*, Dijkstra,
Greedy Best-First) `nodes_in_frontier` and `memory_allocations` are
incremented together at every admission, so the final counters are equal and
positive (the start node is always admitted); the recursive DFS however never
increments `nodes_in_frontier`, which therefore stays 0 on every grid. -/
theorem frontier_admissions_by_algorithm (g : Grid) :
    (∀ p c, breadth_first.find_path g = some (p, c) →
        c.nodes_in_frontier = c.memory_allocations ∧ 1 ≤ c.nodes_in_frontier) ∧
      (∀ r, astar.run g = some r →
        r.1.counter.nodes_in_frontier = r.1.counter.memory_allocations ∧
          1 ≤ r.1.counter.nodes_in_frontier) ∧
      (∀ r, dijkstra.run g = some r →
        r.1.counter.nodes_in_frontier = r.1.counter.memory_allocations ∧
          1 ≤ r.1.counter.nodes_in_frontier) ∧
      (∀ r, greedy_best_first.run g = some r →
        r.1.counter.nodes_in_frontier = r.1.counter.memory_allocations ∧
          1 ≤ r.1.counter.nodes_in_frontier) ∧
      (∀ p c, depth_first.find_path g = some (p, c) → c.nodes_in_frontier = 0) := by
  refine ⟨?_, ?_, ?_, ?_, ?_⟩
  · intro p c h
    obtain ⟨hp, hm⟩ := breadth_first.bfsLoop_pair g _ _ _ _ h
    exact ⟨hp rfl, hm⟩
  · intro r h
    obtain ⟨hp, hm⟩ := astar.astarLoop_pair g _ _ _ _ h
    exact ⟨hp rfl, hm⟩
  · intro r h
    obtain ⟨hp, hm⟩ := dijkstra.dijLoop_pair g _ _ _ _ h
    exact ⟨hp rfl, hm⟩
  · intro r h
    obtain ⟨hp, hm⟩ := greedy_best_first.greedyLoop_pair g _ _ _ _ h
    exact ⟨hp rfl, hm⟩
  · intro p c h
    unfold depth_first.find_path at h
    match hrec : depth_first.dfs_recursive g g.endP (g.width * g.height + 2) g.start
        [] [] PerformanceCounter.new with
    | none => rw [hrec] at h; exact absurd h (by simp)
    | some (true, v, pa, cnt) =>
      rw [hrec] at h
      cases h
      exact depth_first.dfs_recursive_frontier g g.endP _ _ _ _ _ _ hrec
    | some (false, v, pa, cnt) =>
      rw [hrec] at h
      cases h
      exact depth_first.dfs_recursive_frontier g g.endP _ _ _ _ _ _ hrec

/-- Witness for C5's amended theorem on the concrete 3×3 grid. -/
theorem frontier_admissions_by_algorithm_witness :
    ∃ p c, breadth_first.find_path grid3x3 = some (p, c) ∧
      c.nodes_in_frontier = c.memory_allocations ∧ 1 ≤ c.nodes_in_frontier := by
  match hb : breadth_first.find_path grid3x3 with
  | none => exact absurd hb (by decide)
  | some (p, c) =>
    obtain ⟨h1, h2⟩ := (frontier_admissions_by_algorithm grid3x3).1 p c hb
    exact ⟨p, c, rfl, h1, h2⟩

/-! ## C4: `nodes_explored` under lazy deletion -/

theorem astar.astarStep_ghost (g : Grid) (cur : Position) (s : AStarState)
    (nb : Position) :
    (astarStep g cur s nb).counter.nodes_explored = s.counter.nodes_explored ∧
      (astarStep g cur s nb).popped = s.popped := by
  unfold astarStep PerformanceCounter.compare PerformanceCounter.add_to_frontier
    PerformanceCounter.allocate_memory
  match nlookup s.g_score cur with
  | none => exact ⟨rfl, rfl⟩
  | some gcur => dsimp only; split <;> exact ⟨rfl, rfl⟩

theorem astar.foldl_astarStep_ghost (g : Grid) (cur : Position)
    (nbs : List Position) :
    ∀ s : AStarState,
      ((nbs.foldl (astarStep g cur) s)).counter.nodes_explored =
          s.counter.nodes_explored ∧
        ((nbs.foldl (astarStep g cur) s)).popped = s.popped := by
  induction nbs with
  | nil => exact fun s => ⟨rfl, rfl⟩
  | cons nb rest ih =>
    intro s
    rw [List.foldl_cons]
    obtain ⟨h1, h2⟩ := astar.astarStep_ghost g cur s nb
    obtain ⟨h3, h4⟩ := ih (astarStep g cur s nb)
    exact ⟨h3.trans h1, h4.trans h2⟩

/-- In the A* loop each pop appends one position to the ghost trace and runs
`explore_node` exactly once, unconditionally: the two counts advance in
lockstep. -/
theorem astar.astarLoop_explored_eq_pops (g : Grid) :
    ∀ (fuel : Nat) (st st' : AStarState) (p : List Position),
      astarLoop g fuel st = some (st', p) →
      st'.counter.nodes_explored + st.popped.length =
        st.counter.nodes_explored + st'.popped.length := by
  intro fuel
  induction fuel with
  | zero => intro st st' p h; exact absurd h (by simp [astarLoop])
  | succ n ih =>
    intro st st' p h
    rw [astarLoop] at h
    match hq : extractMin (fun n => n.f_score) st.open_set with
    | none =>
      rw [hq] at h
      cases h
      rfl
    | some (node, heap') =>
      rw [hq] at h
      dsimp only at h
      by_cases hend : node.position = g.endP
      · rw [if_pos hend] at h
        match hr : reconstruct_path st.came_from node.position with
        | none =>
          rw [hr, Option.map_none'] at h
          exact Option.noConfusion h
        | some path =>
          rw [hr] at h
          simp only [Option.map_some'] at h
          cases h
          simp [PerformanceCounter.explore_node]
          omega
      · rw [if_neg hend] at h
        have hrec := ih _ _ _ h
        obtain ⟨h1, h2⟩ := astar.foldl_astarStep_ghost g node.position
          (get_neighbors g node.position)
          { st with open_set := heap', popped := st.popped ++ [node.position],
                    counter := st.counter.explore_node }
        rw [h1, h2] at hrec
        dsimp only at hrec
        simp only [PerformanceCounter.explore_node, List.length_append,
          List.length_cons, List.length_nil] at hrec ⊢
        omega

theorem dijkstra.dijStep_ghost (cur : Position) (cd : Option Nat) (s : DijState)
    (nb : Position) :
    (dijStep cur cd s nb).counter.nodes_explored = s.counter.nodes_explored ∧
      (dijStep cur cd s nb).popped = s.popped ∧
      (dijStep cur cd s nb).visited = s.visited := by
  unfold dijStep PerformanceCounter.compare PerformanceCounter.add_to_frontier
    PerformanceCounter.allocate_memory
  split
  · exact ⟨rfl, rfl, rfl⟩
  · match cd with
    | none => exact ⟨rfl, rfl, rfl⟩
    | some d => dsimp only; split <;> exact ⟨rfl, rfl, rfl⟩

theorem dijkstra.foldl_dijStep_ghost (cur : Position) (cd : Option Nat)
    (nbs : List Position) :
    ∀ s : DijState,
      ((nbs.foldl (dijStep cur cd) s)).counter.nodes_explored =
          s.counter.nodes_explored ∧
        ((nbs.foldl (dijStep cur cd) s)).popped = s.popped ∧
        ((nbs.foldl (dijStep cur cd) s)).visited = s.visited := by
  induction nbs with
  | nil => exact fun s => ⟨rfl, rfl, rfl⟩
  | cons nb rest ih =>
    intro s
    rw [List.foldl_cons]
    obtain ⟨h1, h2, h3⟩ := dijkstra.dijStep_ghost cur cd s nb
    obtain ⟨h4, h5, h6⟩ := ih (dijStep cur cd s nb)
    exact ⟨h4.trans h1, h5.trans h2, h6.trans h3⟩

/-- The committed-set invariant of the Dijkstra loop: `nodes_explored` equals
the number of committed (visited) positions, the committed positions are
pairwise distinct, and each was popped at some point. -/
def dijkstra.ExploreInv (st : DijState) : Prop :=
  st.counter.nodes_explored = st.visited.length ∧ st.visited.Nodup ∧
    ∀ x ∈ st.visited, x ∈ st.popped

theorem dijkstra.dijLoop_explored (g : Grid) :
    ∀ (fuel : Nat) (st st' : DijState) (p : List Position),
      dijLoop g fuel st = some (st', p) →
      (∀ x ∈ st.popped, x ∈ st'.popped) ∧
        (dijkstra.ExploreInv st → dijkstra.ExploreInv st') := by
  intro fuel
  induction fuel with
  | zero => intro st st' p h; exact absurd h (by simp [dijLoop])
  | succ n ih =>
    intro st st' p h
    rw [dijLoop] at h
    match hq : extractMin (fun n => n.distance) st.heap with
    | none =>
      rw [hq] at h
      cases h
      exact ⟨fun x hx => hx, id⟩
    | some (node, heap') =>
      rw [hq] at h
      dsimp only at h
      by_cases hvis : st.visited.contains node.position
      · rw [if_pos hvis] at h
        obtain ⟨hmono, hinv⟩ := ih _ _ _ h
        refine ⟨fun x hx => hmono x (by simp [hx]), fun hi => hinv ?_⟩
        obtain ⟨h1, h2, h3⟩ := hi
        exact ⟨h1, h2, fun x hx => by simp [h3 x hx]⟩
      · rw [if_neg hvis] at h
        have hnotmem : node.position ∉ st.visited := by
          simpa using hvis
        by_cases hend : node.position = g.endP
        · rw [if_pos hend] at h
          match hr : reconstruct_path st.previous node.position with
          | none =>
            rw [hr, Option.map_none'] at h
            exact Option.noConfusion h
          | some path =>
            rw [hr] at h
            simp only [Option.map_some'] at h
            cases h
            refine ⟨fun x hx => by simp [hx], fun hi => ?_⟩
            obtain ⟨h1, h2, h3⟩ := hi
            refine ⟨by simpa [PerformanceCounter.explore_node] using h1,
              List.nodup_cons.mpr ⟨hnotmem, h2⟩, ?_⟩
            intro x hx
            rcases List.mem_cons.mp hx with hx | hx
            · simp [hx]
            · simp [h3 x hx]
        · rw [if_neg hend] at h
          obtain ⟨hmono, hinv⟩ := ih _ _ _ h
          obtain ⟨g1, g2, g3⟩ := dijkstra.foldl_dijStep_ghost node.position _
            (get_neighbors g node.position)
            { st with heap := heap', popped := st.popped ++ [node.position],
                      visited := node.position :: st.visited,
                      counter := st.counter.explore_node }
          refine ⟨fun x hx => hmono x (by rw [g2]; simp [hx]), fun hi => ?_⟩
          obtain ⟨h1, h2, h3⟩ := hi
          refine hinv ⟨?_, ?_, ?_⟩
          · rw [g1, g3]
            simpa [PerformanceCounter.explore_node] using h1
          · rw [g3]
            exact List.nodup_cons.mpr ⟨hnotmem, h2⟩
          · rw [g3, g2]
            intro x hx
            rcases List.mem_cons.mp hx with hx | hx
            · simp [hx]
            · simp [h3 x hx]

theorem greedy_best_first.greedyStep_ghost (g : Grid) (cur : Position)
    (s : GreedyState) (nb : Position) :
    (greedyStep g cur s nb).counter.nodes_explored = s.counter.nodes_explored ∧
      (greedyStep g cur s nb).popped = s.popped ∧
      (greedyStep g cur s nb).visited = s.visited := by
  unfold greedyStep PerformanceCounter.compare PerformanceCounter.add_to_frontier
    PerformanceCounter.allocate_memory
  split <;> exact ⟨rfl, rfl, rfl⟩

theorem greedy_best_first.foldl_greedyStep_ghost (g : Grid) (cur : Position)
    (nbs : List Position) :
    ∀ s : GreedyState,
      ((nbs.foldl (greedyStep g cur) s)).counter.nodes_explored =
          s.counter.nodes_explored ∧
        ((nbs.foldl (greedyStep g cur) s)).popped = s.popped ∧
        ((nbs.foldl (greedyStep g cur) s)).visited = s.visited := by
  induction nbs with
  | nil => exact fun s => ⟨rfl, rfl, rfl⟩
  | cons nb rest ih =>
    intro s
    rw [List.foldl_cons]
    obtain ⟨h1, h2, h3⟩ := greedy_best_first.greedyStep_ghost g cur s nb
    obtain ⟨h4, h5, h6⟩ := ih (greedyStep g cur s nb)
    exact ⟨h4.trans h1, h5.trans h2, h6.trans h3⟩

/-- The committed-set invariant of the Greedy Best-First loop. -/
def greedy_best_first.ExploreInv (st : GreedyState) : Prop :=
  st.counter.nodes_explored = st.visited.length ∧ st.visited.Nodup ∧
    ∀ x ∈ st.visited, x ∈ st.popped

theorem greedy_best_first.greedyLoop_explored (g : Grid) :
    ∀ (fuel : Nat) (st st' : GreedyState) (p : List Position),
      greedyLoop g fuel st = some (st', p) →
      (∀ x ∈ st.popped, x ∈ st'.popped) ∧
        (greedy_best_first.ExploreInv st → greedy_best_first.ExploreInv st') := by
  intro fuel
  induction fuel with
  | zero => intro st st' p h; exact absurd h (by simp [greedyLoop])
  | succ n ih =>
    intro st st' p h
    rw [greedyLoop] at h
    match hq : extractMin (fun n => n.heuristic) st.open_set with
    | none =>
      rw [hq] at h
      cases h
      exact ⟨fun x hx => hx, id⟩
    | some (node, heap') =>
      rw [hq] at h
      dsimp only at h
      by_cases hvis : st.visited.contains node.position
      · rw [if_pos hvis] at h
        obtain ⟨hmono, hinv⟩ := ih _ _ _ h
        refine ⟨fun x hx => hmono x (by simp [hx]), fun hi => hinv ?_⟩
        obtain ⟨h1, h2, h3⟩ := hi
        exact ⟨h1, h2, fun x hx => by simp [h3 x hx]⟩
      · rw [if_neg hvis] at h
        have hnotmem : node.position ∉ st.visited := by
          simpa using hvis
        by_cases hend : node.position = g.endP
        · rw [if_pos hend] at h
          match hr : reconstruct_path st.came_from node.position with
          | none =>
            rw [hr, Option.map_none'] at h
            exact Option.noConfusion h
          | some path =>
            rw [hr] at h
            simp only [Option.map_some'] at h
            cases h
            refine ⟨fun x hx => by simp [hx], fun hi => ?_⟩
            obtain ⟨h1, h2, h3⟩ := hi
            refine ⟨by simpa [PerformanceCounter.explore_node] using h1,
              List.nodup_cons.mpr ⟨hnotmem, h2⟩, ?_⟩
            intro x hx
            rcases List.mem_cons.mp hx with hx | hx
            · simp [hx]
            · simp [h3 x hx]
        · rw [if_neg hend] at h
          obtain ⟨hmono, hinv⟩ := ih _ _ _ h
          obtain ⟨g1, g2, g3⟩ := greedy_best_first.foldl_greedyStep_ghost g
            node.position (get_neighbors g node.position)
            { st with open_set := heap', popped := st.popped ++ [node.position],
                      visited := node.position :: st.visited,
                      counter := st.counter.explore_node }
          refine ⟨fun x hx => hmono x (by rw [g2]; simp [hx]), fun hi => ?_⟩
          obtain ⟨h1, h2, h3⟩ := hi
          refine hinv ⟨?_, ?_, ?_⟩
          · rw [g1, g3]
            simpa [PerformanceCounter.explore_node] using h1
          · rw [g3]
            exact List.nodup_cons.mpr ⟨hnotmem, h2⟩
          · rw [g3, g2]
            intro x hx
            rcases List.mem_cons.mp hx with hx | hx
            · simp [hx]
            · simp [h3 x hx]

/-- A distinct-membership bound: a duplicate-free list contained in another
list is no longer than that list's deduplication. -/
theorem nodup_subset_length_le_dedup {α : Type} [DecidableEq α]
    {l l' : List α} (hd : l.Nodup) (hsub : ∀ x ∈ l, x ∈ l') :
    l.length ≤ l'.dedup.length := by
  classical
  calc l.length = l.toFinset.card := (List.toFinset_card_of_nodup hd).symm
    _ ≤ l'.toFinset.card := Finset.card_le_card (fun x hx => by
        rw [List.mem_toFinset] at hx ⊢
        exact hsub x hx)
    _ = l'.dedup.length := rfl

/-- The grid of `astar_run_counterexample`: 5×5 with obstacles at `(0,1)`,
`(1,3)`, `(3,4)` and `(4,3)` (the end cell is sealed, so the search exhausts
its frontier). -/
def gridC4 : Grid :=
  [(⟨0, 1⟩ : Position), ⟨1, 3⟩, ⟨3, 4⟩, ⟨4, 3⟩].foldl add_obstacle
    (Grid.new 5 5 ⟨0, 0⟩ ⟨4, 4⟩)

/-- Counterexample to C4: on `gridC4` the A* run pops 21 nodes from the heap
but only 20 distinct positions — position `(0,4)` is popped twice because A*
has no visited check — and `nodes_explored` is incremented on every pop, so
it ends at 21 > 20, violating "nodes_explored is at most the number of
distinct positions popped so far". -/
theorem astar_run_counterexample :
    (astar.run gridC4).map (fun r => r.1.popped.length) = some 21 ∧
      (astar.run gridC4).map (fun r => r.1.popped.dedup.length) = some 20 ∧
      (astar.run gridC4).map (fun r => r.1.counter.nodes_explored) = some 21 ∧
      (20 : Nat) < 21 := by
  refine ⟨by decide, by decide, by decide, by decide⟩

/-- C4 as amended: Dijkstra and Greedy Best-First skip an already-committed
popped node without incrementing `nodes_explored`, so their final
`nodes_explored` equals the number of distinct committed positions and is at
most the number of distinct popped positions; A* has no such check and
increments `nodes_explored` on every pop, including repeated pops of one
position (`nodes_explored` equals the raw pop count). -/
theorem lazy_deletion_explored_counts (g : Grid) :
    (∀ r, astar.run g = some r →
        r.1.counter.nodes_explored = r.1.popped.length) ∧
      (∀ r, dijkstra.run g = some r →
        r.1.counter.nodes_explored = r.1.visited.length ∧
          r.1.counter.nodes_explored ≤ r.1.popped.dedup.length) ∧
      (∀ r, greedy_best_first.run g = some r →
        r.1.counter.nodes_explored = r.1.visited.length ∧
          r.1.counter.nodes_explored ≤ r.1.popped.dedup.length) := by
  refine ⟨?_, ?_, ?_⟩
  · intro r h
    have := astar.astarLoop_explored_eq_pops g _ _ _ _ h
    simpa [astar.initState, PerformanceCounter.new, PerformanceCounter.add_to_frontier,
      PerformanceCounter.allocate_memory] using this
  · intro r h
    have hinv := (dijkstra.dijLoop_explored g _ _ _ _ h).2
      ⟨rfl, List.nodup_nil, by simp [dijkstra.initState]⟩
    obtain ⟨h1, h2, h3⟩ := hinv
    exact ⟨h1, h1 ▸ nodup_subset_length_le_dedup h2 h3⟩
  · intro r h
    have hinv := (greedy_best_first.greedyLoop_explored g _ _ _ _ h).2
      ⟨rfl, List.nodup_nil, by simp [greedy_best_first.initState]⟩
    obtain ⟨h1, h2, h3⟩ := hinv
    exact ⟨h1, h1 ▸ nodup_subset_length_le_dedup h2 h3⟩

/-- Witness for C4's amended theorem on the concrete grid `gridC4`. -/
theorem lazy_deletion_explored_counts_witness :
    ∃ r, dijkstra.run gridC4 = some r ∧
      r.1.counter.nodes_explored = r.1.visited.length ∧
      r.1.counter.nodes_explored ≤ r.1.popped.dedup.length := by
  match hb : dijkstra.run gridC4 with
  | none => exact absurd hb (by decide)
  | some r =>
    obtain ⟨h1, h2⟩ := (lazy_deletion_explored_counts gridC4).2.1 r hb
    exact ⟨r, rfl, h1, h2⟩

/-! ## C2: validity of returned paths -/

/-- One legal move: `b` is among the neighbours `get_neighbors` offers
from `a`. -/
def adjStep (g : Grid) (a b : Position) : Prop := b ∈ get_neighbors g a

/-- What membership in `get_neighbors` guarantees: the neighbour is not
blocked, lies in bounds, and is at Manhattan distance 1. -/
theorem mem_get_neighbors {g : Grid} {p nb : Position}
    (h : nb ∈ get_neighbors g p) :
    cellAt g nb ≠ CellType.Blocked ∧ nb.row < g.height ∧ nb.col < g.width ∧
      p.manhattan_distance_to nb = 1 := by
  unfold get_neighbors at h
  rw [List.mem_filterMap] at h
  obtain ⟨d, hd, hsome⟩ := h
  simp only [directions, List.mem_cons, List.not_mem_nil, or_false] at hd
  dsimp only at hsome
  split_ifs at hsome with h1 h2
  · obtain ⟨hr0, hrh, hc0, hcw⟩ := h1
    cases hsome
    refine ⟨h2, ?_, ?_, ?_⟩
    · show ((p.row : Int) + d.1).toNat < g.height
      omega
    · show ((p.col : Int) + d.2).toNat < g.width
      omega
    · unfold Position.manhattan_distance_to
      rcases hd with hd | hd | hd | hd <;> subst hd <;> dsimp only <;> omega

/-- Along an `adjStep` chain starting at `z`, every node other than `z`
itself is a `get_neighbors` target and hence not blocked. -/
theorem chain_not_blocked {g : Grid} :
    ∀ {path : List Position} {z : Position},
      List.Chain' (adjStep g) (z :: path) →
      ∀ x ∈ z :: path, x = z ∨ cellAt g x ≠ CellType.Blocked := by
  intro path
  induction path with
  | nil =>
    intro z _ x hx
    rcases List.mem_cons.mp hx with hx | hx
    · exact Or.inl hx
    · cases hx
  | cons b rest ih =>
    intro z hchain x hx
    have hstep : adjStep g z b := (List.chain'_cons.mp hchain).1
    have htail : List.Chain' (adjStep g) (b :: rest) := (List.chain'_cons.mp hchain).2
    rcases List.mem_cons.mp hx with hx | hx
    · exact Or.inl hx
    · rcases ih htail x hx with hx2 | hx2
      · exact Or.inr (hx2 ▸ (mem_get_neighbors hstep).1)
      · exact Or.inr hx2

theorem alookup_mem {cf : List (Position × Position)} {k v : Position}
    (h : alookup cf k = some v) : (k, v) ∈ cf := by
  unfold alookup at h
  match hf : cf.find? (fun e => e.1 = k) with
  | none => rw [hf] at h; cases h
  | some pr =>
    rw [hf] at h
    have hmem := List.mem_of_find?_eq_some hf
    have hkey := List.find?_some hf
    simp only [Option.map_some'] at h
    cases h
    have : pr.1 = k := by simpa using hkey
    obtain ⟨a, b⟩ := pr
    cases this
    exact hmem

theorem alookup_none_not_key {cf : List (Position × Position)} {k : Position}
    (h : alookup cf k = none) : k ∉ cf.map Prod.fst := by
  intro hk
  rw [List.mem_map] at hk
  obtain ⟨pr, hpr, hfst⟩ := hk
  unfold alookup at h
  rw [Option.map_eq_none'] at h
  rw [List.find?_eq_none] at h
  exact absurd (by simpa using hfst) (by simpa using h pr hpr)

/-- The parent-map invariant: every recorded pair `(child, parent)` is a
legal move from `parent` to `child`, and every parent is the start node or
itself a key of the map. -/
def CFInv (g : Grid) (cf : List (Position × Position)) : Prop :=
  ∀ pr ∈ cf, pr.1 ∈ get_neighbors g pr.2 ∧
    (pr.2 = g.start ∨ pr.2 ∈ cf.map Prod.fst)

/-- A position is the start node or a key of the parent map. -/
def KeyedOrStart (g : Grid) (cf : List (Position × Position)) (x : Position) :
    Prop :=
  x = g.start ∨ x ∈ cf.map Prod.fst

theorem KeyedOrStart.mono {g : Grid} {cf : List (Position × Position)}
    {e : Position × Position} {x : Position} (h : KeyedOrStart g cf x) :
    KeyedOrStart g (e :: cf) x := by
  rcases h with h | h
  · exact Or.inl h
  · exact Or.inr (by simp [h])

theorem CFInv.cons {g : Grid} {cf : List (Position × Position)}
    {nb cur : Position} (hinv : CFInv g cf) (hnb : nb ∈ get_neighbors g cur)
    (hcur : KeyedOrStart g cf cur) : CFInv g ((nb, cur) :: cf) := by
  intro pr hpr
  rcases List.mem_cons.mp hpr with hpr | hpr
  · cases hpr
    refine ⟨hnb, ?_⟩
    rcases hcur with hc | hc
    · exact Or.inl hc
    · exact Or.inr (by simp [hc])
  · obtain ⟨h1, h2⟩ := hinv pr hpr
    refine ⟨h1, ?_⟩
    rcases h2 with h2 | h2
    · exact Or.inl h2
    · exact Or.inr (by simp [h2])

/-- What a successful `reconstruct_path` walk produces, under the parent-map
invariant: a nonempty `adjStep` chain from the start node to the node the
walk began at. -/
theorem reconstructAux_spec {g : Grid} {cf : List (Position × Position)}
    (hcf : CFInv g cf) :
    ∀ (fuel : Nat) (cur : Position) (acc path : List Position),
      KeyedOrStart g cf cur →
      List.Chain' (adjStep g) (cur :: acc) →
      reconstructAux cf fuel cur acc = some path →
      path.head? = some g.start ∧ List.Chain' (adjStep g) path ∧
        path.getLast? = (cur :: acc).getLast? ∧ path ≠ [] := by
  intro fuel
  induction fuel with
  | zero => intro cur acc path _ _ h; cases h
  | succ n ih =>
    intro cur acc path hks hchain h
    rw [reconstructAux] at h
    match hl : alookup cf cur with
    | none =>
      rw [hl] at h
      cases h
      have hstart : cur = g.start := by
        rcases hks with hks | hks
        · exact hks
        · exact absurd hks (alookup_none_not_key hl)
      exact ⟨by rw [hstart]; rfl, hchain, rfl, by simp⟩
    | some parent =>
      rw [hl] at h
      have hpair := alookup_mem hl
      obtain ⟨hadj, hkey⟩ := hcf (cur, parent) hpair
      have hchain' : List.Chain' (adjStep g) (parent :: cur :: acc) :=
        List.chain'_cons.mpr ⟨hadj, hchain⟩
      obtain ⟨r1, r2, r3, r4⟩ := ih parent (cur :: acc) path hkey hchain' h
      refine ⟨r1, r2, ?_, r4⟩
      rw [r3]
      rfl

theorem reconstruct_path_spec {g : Grid} {cf : List (Position × Position)}
    (hcf : CFInv g cf) {cur : Position} {path : List Position}
    (hks : KeyedOrStart g cf cur)
    (h : reconstruct_path cf cur = some path) :
    path.head? = some g.start ∧ List.Chain' (adjStep g) path ∧
      path.getLast? = some cur ∧ path ≠ [] := by
  have := reconstructAux_spec hcf (cf.length + 1) cur [] path hks
    (by simp [List.chain'_singleton]) h
  simpa using this

/-- A path is valid for C2: it runs from `start` to `end`, avoids blocked
cells, and moves one Manhattan step at a time. -/
def ValidPath (g : Grid) (p : List Position) : Prop :=
  p.head? = some g.start ∧ p.getLast? = some g.endP ∧
    (∀ x ∈ p, cellAt g x ≠ CellType.Blocked) ∧
    List.Chain' (fun a b => a.manhattan_distance_to b = 1) p

/-- Packaging: an `adjStep` chain from the unblocked start to `end` is a
valid path. -/
theorem validPath_of_chain {g : Grid}
    (hstart : cellAt g g.start ≠ CellType.Blocked) {p : List Position}
    (h1 : p.head? = some g.start) (h2 : List.Chain' (adjStep g) p)
    (h3 : p.getLast? = some g.endP) (h4 : p ≠ []) : ValidPath g p := by
  refine ⟨h1, h3, ?_, ?_⟩
  · intro x hx
    cases p with
    | nil => cases hx
    | cons z rest =>
      have hz : z = g.start := by simpa using h1
      rcases chain_not_blocked h2 x hx with hx2 | hx2
      · rw [hx2, hz]
        exact hstart
      · exact hx2
  · exact List.Chain'.imp (fun a b hab => (mem_get_neighbors hab).2.2.2) h2

/-- `extractMin` returns an element of the list, and the remainder is
contained in the list. -/
theorem extractMin_mem {α : Type} (f : α → Nat) :
    ∀ (l : List α) (a : α) (rest : List α), extractMin f l = some (a, rest) →
      a ∈ l ∧ ∀ x ∈ rest, x ∈ l := by
  intro l
  induction l with
  | nil => intro a rest h; cases h
  | cons b tail ih =>
    intro a rest h
    rw [extractMin] at h
    match he : extractMin f tail with
    | none =>
      rw [he] at h
      cases h
      exact ⟨by simp, by intro x hx; cases hx⟩
    | some (c, rem) =>
      rw [he] at h
      dsimp only at h
      obtain ⟨hc, hrem⟩ := ih c rem he
      split_ifs at h
      · cases h
        exact ⟨by simp, fun x hx => by simp [hx]⟩
      · cases h
        refine ⟨by simp [hc], ?_⟩
        intro x hx
        rcases List.mem_cons.mp hx with hx | hx
        · simp [hx]
        · simp [hrem x hx]

theorem breadth_first.bfsStep_inv {g : Grid} {cur : Position} {s : BfsState}
    {nb : Position} (hnb : nb ∈ get_neighbors g cur)
    (h1 : CFInv g s.came_from)
    (h2 : ∀ x ∈ s.queue, KeyedOrStart g s.came_from x)
    (h3 : KeyedOrStart g s.came_from cur) :
    CFInv g (bfsStep cur s nb).came_from ∧
      (∀ x ∈ (bfsStep cur s nb).queue, KeyedOrStart g (bfsStep cur s nb).came_from x) ∧
      KeyedOrStart g (bfsStep cur s nb).came_from cur := by
  unfold bfsStep
  split
  · exact ⟨h1, h2, h3⟩
  · dsimp only
    refine ⟨CFInv.cons h1 hnb h3, ?_, h3.mono⟩
    intro x hx
    rcases List.mem_append.mp hx with hx | hx
    · exact (h2 x hx).mono
    · rw [List.mem_singleton] at hx
      subst hx
      exact Or.inr (by simp)

theorem breadth_first.foldl_bfsStep_inv (g : Grid) (cur : Position) :
    ∀ nbs : List Position, (∀ nb ∈ nbs, nb ∈ get_neighbors g cur) →
    ∀ s : BfsState, CFInv g s.came_from →
      (∀ x ∈ s.queue, KeyedOrStart g s.came_from x) →
      KeyedOrStart g s.came_from cur →
      CFInv g ((nbs.foldl (bfsStep cur) s)).came_from ∧
        ∀ x ∈ ((nbs.foldl (bfsStep cur) s)).queue,
          KeyedOrStart g ((nbs.foldl (bfsStep cur) s)).came_from x := by
  intro nbs
  induction nbs with
  | nil => exact fun _ s h1 h2 _ => ⟨h1, h2⟩
  | cons nb rest ih =>
    intro hnbs s h1 h2 h3
    rw [List.foldl_cons]
    obtain ⟨k1, k2, k3⟩ := breadth_first.bfsStep_inv
      (hnbs nb (List.mem_cons_self _ _)) h1 h2 h3
    exact ih (fun x hx => hnbs x (List.mem_cons_of_mem _ hx)) _ k1 k2 k3

theorem breadth_first.bfsLoop_valid (g : Grid)
    (hstart : cellAt g g.start ≠ CellType.Blocked) :
    ∀ (fuel : Nat) (st : BfsState) (p : List Position) (c : PerformanceCounter),
      CFInv g st.came_from →
      (∀ x ∈ st.queue, KeyedOrStart g st.came_from x) →
      bfsLoop g fuel st = some (p, c) → p ≠ [] → ValidPath g p := by
  intro fuel
  induction fuel with
  | zero => intro st p c _ _ h; exact absurd h (by simp [bfsLoop])
  | succ n ih =>
    intro st p c hcf hq h hne
    rw [bfsLoop] at h
    match hqe : st.queue with
    | [] =>
      rw [hqe] at h
      cases h
      exact absurd rfl hne
    | cur :: rest =>
      rw [hqe] at h
      dsimp only at h
      have hks : KeyedOrStart g st.came_from cur := hq cur (by rw [hqe]; simp)
      by_cases hend : cur = g.endP
      · rw [if_pos hend] at h
        match hr : reconstruct_path st.came_from cur with
        | none =>
          rw [hr, Option.map_none'] at h
          exact Option.noConfusion h
        | some path =>
          rw [hr] at h
          simp only [Option.map_some'] at h
          cases h
          obtain ⟨r1, r2, r3, r4⟩ := reconstruct_path_spec hcf hks hr
          exact validPath_of_chain hstart r1 r2 (hend ▸ r3) r4
      · rw [if_neg hend] at h
        obtain ⟨k1, k2⟩ := breadth_first.foldl_bfsStep_inv g cur
          (get_neighbors g cur) (fun nb hnb => hnb)
          { st with queue := rest, counter := st.counter.explore_node }
          hcf (fun x hx => hq x (by rw [hqe]; exact List.mem_cons_of_mem _ hx)) hks
        exact ih _ _ _ k1 k2 h hne

theorem dijkstra.dijStep_inv {g : Grid} {cur : Position} {cd : Option Nat}
    {s : DijState} {nb : Position} (hnb : nb ∈ get_neighbors g cur)
    (h1 : CFInv g s.previous)
    (h2 : ∀ n ∈ s.heap, KeyedOrStart g s.previous n.position)
    (h3 : KeyedOrStart g s.previous cur) :
    CFInv g (dijStep cur cd s nb).previous ∧
      (∀ n ∈ (dijStep cur cd s nb).heap,
        KeyedOrStart g (dijStep cur cd s nb).previous n.position) ∧
      KeyedOrStart g (dijStep cur cd s nb).previous cur := by
  unfold dijStep
  split
  · exact ⟨h1, h2, h3⟩
  · match cd with
    | none => exact ⟨h1, h2, h3⟩
    | some d =>
      dsimp only
      split
      · dsimp only
        refine ⟨CFInv.cons h1 hnb h3, ?_, h3.mono⟩
        intro node hn
        rcases List.mem_append.mp hn with hn | hn
        · exact (h2 node hn).mono
        · rw [List.mem_singleton] at hn
          subst hn
          exact Or.inr (by simp)
      · exact ⟨h1, h2, h3⟩

theorem dijkstra.foldl_dijStep_inv (g : Grid) (cur : Position) (cd : Option Nat) :
    ∀ nbs : List Position, (∀ nb ∈ nbs, nb ∈ get_neighbors g cur) →
    ∀ s : DijState, CFInv g s.previous →
      (∀ n ∈ s.heap, KeyedOrStart g s.previous n.position) →
      KeyedOrStart g s.previous cur →
      CFInv g ((nbs.foldl (dijStep cur cd) s)).previous ∧
        ∀ n ∈ ((nbs.foldl (dijStep cur cd) s)).heap,
          KeyedOrStart g ((nbs.foldl (dijStep cur cd) s)).previous n.position := by
  intro nbs
  induction nbs with
  | nil => exact fun _ s h1 h2 _ => ⟨h1, h2⟩
  | cons nb rest ih =>
    intro hnbs s h1 h2 h3
    rw [List.foldl_cons]
    obtain ⟨k1, k2, k3⟩ := dijkstra.dijStep_inv
      (hnbs nb (List.mem_cons_self _ _)) h1 h2 h3
    exact ih (fun x hx => hnbs x (List.mem_cons_of_mem _ hx)) _ k1 k2 k3

theorem dijkstra.dijLoop_valid (g : Grid)
    (hstart : cellAt g g.start ≠ CellType.Blocked) :
    ∀ (fuel : Nat) (st st' : DijState) (p : List Position),
      CFInv g st.previous →
      (∀ n ∈ st.heap, KeyedOrStart g st.previous n.position) →
      dijLoop g fuel st = some (st', p) → p ≠ [] → ValidPath g p := by
  intro fuel
  induction fuel with
  | zero => intro st st' p _ _ h; exact absurd h (by simp [dijLoop])
  | succ n ih =>
    intro st st' p hcf hh h hne
    rw [dijLoop] at h
    match hq : extractMin (fun n => n.distance) st.heap with
    | none =>
      rw [hq] at h
      cases h
      exact absurd rfl hne
    | some (node, heap') =>
      rw [hq] at h
      dsimp only at h
      obtain ⟨hmem, hrest⟩ := extractMin_mem _ _ _ _ hq
      have hks : KeyedOrStart g st.previous node.position := hh node hmem
      by_cases hvis : st.visited.contains node.position
      · rw [if_pos hvis] at h
        exact ih { st with heap := heap', popped := st.popped ++ [node.position] }
          st' p hcf (fun x hx => hh x (hrest x hx)) h hne
      · rw [if_neg hvis] at h
        by_cases hend : node.position = g.endP
        · rw [if_pos hend] at h
          match hr : reconstruct_path st.previous node.position with
          | none =>
            rw [hr, Option.map_none'] at h
            exact Option.noConfusion h
          | some path =>
            rw [hr] at h
            simp only [Option.map_some'] at h
            cases h
            obtain ⟨r1, r2, r3, r4⟩ := reconstruct_path_spec hcf hks hr
            exact validPath_of_chain hstart r1 r2 (hend ▸ r3) r4
        · rw [if_neg hend] at h
          obtain ⟨k1, k2⟩ := dijkstra.foldl_dijStep_inv g node.position _
            (get_neighbors g node.position) (fun nb hnb => hnb)
            { st with heap := heap', popped := st.popped ++ [node.position],
                      visited := node.position :: st.visited,
                      counter := st.counter.explore_node }
            hcf (fun x hx => hh x (hrest x hx)) hks
          exact ih _ _ _ k1 k2 h hne

theorem astar.astarStep_inv {g : Grid} {cur : Position} {s : AStarState}
    {nb : Position} (hnb : nb ∈ get_neighbors g cur)
    (h1 : CFInv g s.came_from)
    (h2 : ∀ n ∈ s.open_set, KeyedOrStart g s.came_from n.position)
    (h3 : KeyedOrStart g s.came_from cur) :
    CFInv g (astarStep g cur s nb).came_from ∧
      (∀ n ∈ (astarStep g cur s nb).open_set,
        KeyedOrStart g (astarStep g cur s nb).came_from n.position) ∧
      KeyedOrStart g (astarStep g cur s nb).came_from cur := by
  unfold astarStep
  match nlookup s.g_score cur with
  | none => exact ⟨h1, h2, h3⟩
  | some gcur =>
    dsimp only
    split
    · dsimp only
      refine ⟨CFInv.cons h1 hnb h3, ?_, h3.mono⟩
      intro node hn
      rcases List.mem_append.mp hn with hn | hn
      · exact (h2 node hn).mono
      · rw [List.mem_singleton] at hn
        subst hn
        exact Or.inr (by simp)
    · exact ⟨h1, h2, h3⟩

theorem astar.foldl_astarStep_inv (g : Grid) (cur : Position) :
    ∀ nbs : List Position, (∀ nb ∈ nbs, nb ∈ get_neighbors g cur) →
    ∀ s : AStarState, CFInv g s.came_from →
      (∀ n ∈ s.open_set, KeyedOrStart g s.came_from n.position) →
      KeyedOrStart g s.came_from cur →
      CFInv g ((nbs.foldl (astarStep g cur) s)).came_from ∧
        ∀ n ∈ ((nbs.foldl (astarStep g cur) s)).open_set,
          KeyedOrStart g ((nbs.foldl (astarStep g cur) s)).came_from n.position := by
  intro nbs
  induction nbs with
  | nil => exact fun _ s h1 h2 _ => ⟨h1, h2⟩
  | cons nb rest ih =>
    intro hnbs s h1 h2 h3
    rw [List.foldl_cons]
    obtain ⟨k1, k2, k3⟩ := astar.astarStep_inv
      (hnbs nb (List.mem_cons_self _ _)) h1 h2 h3
    exact ih (fun x hx => hnbs x (List.mem_cons_of_mem _ hx)) _ k1 k2 k3

theorem astar.astarLoop_valid (g : Grid)
    (hstart : cellAt g g.start ≠ CellType.Blocked) :
    ∀ (fuel : Nat) (st st' : AStarState) (p : List Position),
      CFInv g st.came_from →
      (∀ n ∈ st.open_set, KeyedOrStart g st.came_from n.position) →
      astarLoop g fuel st = some (st', p) → p ≠ [] → ValidPath g p := by
  intro fuel
  induction fuel with
  | zero => intro st st' p _ _ h; exact absurd h (by simp [astarLoop])
  | succ n ih =>
    intro st st' p hcf hh h hne
    rw [astarLoop] at h
    match hq : extractMin (fun n => n.f_score) st.open_set with
    | none =>
      rw [hq] at h
      cases h
      exact absurd rfl hne
    | some (node, heap') =>
      rw [hq] at h
      dsimp only at h
      obtain ⟨hmem, hrest⟩ := extractMin_mem _ _ _ _ hq
      have hks : KeyedOrStart g st.came_from node.position := hh node hmem
      by_cases hend : node.position = g.endP
      · rw [if_pos hend] at h
        match hr : reconstruct_path st.came_from node.position with
        | none =>
          rw [hr, Option.map_none'] at h
          exact Option.noConfusion h
        | some path =>
          rw [hr] at h
          simp only [Option.map_some'] at h
          cases h
          obtain ⟨r1, r2, r3, r4⟩ := reconstruct_path_spec hcf hks hr
          exact validPath_of_chain hstart r1 r2 (hend ▸ r3) r4
      · rw [if_neg hend] at h
        obtain ⟨k1, k2⟩ := astar.foldl_astarStep_inv g node.position
          (get_neighbors g node.position) (fun nb hnb => hnb)
          { st with open_set := heap', popped := st.popped ++ [node.position],
                    counter := st.counter.explore_node }
          hcf (fun x hx => hh x (hrest x hx)) hks
        exact ih _ _ _ k1 k2 h hne

theorem greedy_best_first.greedyStep_inv {g : Grid} {cur : Position}
    {s : GreedyState} {nb : Position} (hnb : nb ∈ get_neighbors g cur)
    (h1 : CFInv g s.came_from)
    (h2 : ∀ n ∈ s.open_set, KeyedOrStart g s.came_from n.position)
    (h3 : KeyedOrStart g s.came_from cur) :
    CFInv g (greedyStep g cur s nb).came_from ∧
      (∀ n ∈ (greedyStep g cur s nb).open_set,
        KeyedOrStart g (greedyStep g cur s nb).came_from n.position) ∧
      KeyedOrStart g (greedyStep g cur s nb).came_from cur := by
  unfold greedyStep
  split
  · exact ⟨h1, h2, h3⟩
  · dsimp only
    refine ⟨CFInv.cons h1 hnb h3, ?_, h3.mono⟩
    intro node hn
    rcases List.mem_append.mp hn with hn | hn
    · exact (h2 node hn).mono
    · rw [List.mem_singleton] at hn
      subst hn
      exact Or.inr (by simp)

theorem greedy_best_first.foldl_greedyStep_inv (g : Grid) (cur : Position) :
    ∀ nbs : List Position, (∀ nb ∈ nbs, nb ∈ get_neighbors g cur) →
    ∀ s : GreedyState, CFInv g s.came_from →
      (∀ n ∈ s.open_set, KeyedOrStart g s.came_from n.position) →
      KeyedOrStart g s.came_from cur →
      CFInv g ((nbs.foldl (greedyStep g cur) s)).came_from ∧
        ∀ n ∈ ((nbs.foldl (greedyStep g cur) s)).open_set,
          KeyedOrStart g ((nbs.foldl (greedyStep g cur) s)).came_from n.position := by
  intro nbs
  induction nbs with
  | nil => exact fun _ s h1 h2 _ => ⟨h1, h2⟩
  | cons nb rest ih =>
    intro hnbs s h1 h2 h3
    rw [List.foldl_cons]
    obtain ⟨k1, k2, k3⟩ := greedy_best_first.greedyStep_inv
      (hnbs nb (List.mem_cons_self _ _)) h1 h2 h3
    exact ih (fun x hx => hnbs x (List.mem_cons_of_mem _ hx)) _ k1 k2 k3

theorem greedy_best_first.greedyLoop_valid (g : Grid)
    (hstart : cellAt g g.start ≠ CellType.Blocked) :
    ∀ (fuel : Nat) (st st' : GreedyState) (p : List Position),
      CFInv g st.came_from →
      (∀ n ∈ st.open_set, KeyedOrStart g st.came_from n.position) →
      greedyLoop g fuel st = some (st', p) → p ≠ [] → ValidPath g p := by
  intro fuel
  induction fuel with
  | zero => intro st st' p _ _ h; exact absurd h (by simp [greedyLoop])
  | succ n ih =>
    intro st st' p hcf hh h hne
    rw [greedyLoop] at h
    match hq : extractMin (fun n => n.heuristic) st.open_set with
    | none =>
      rw [hq] at h
      cases h
      exact absurd rfl hne
    | some (node, heap') =>
      rw [hq] at h
      dsimp only at h
      obtain ⟨hmem, hrest⟩ := extractMin_mem _ _ _ _ hq
      have hks : KeyedOrStart g st.came_from node.position := hh node hmem
      by_cases hvis : st.visited.contains node.position
      · rw [if_pos hvis] at h
        exact ih { st with open_set := heap', popped := st.popped ++ [node.position] }
          st' p hcf (fun x hx => hh x (hrest x hx)) h hne
      · rw [if_neg hvis] at h
        by_cases hend : node.position = g.endP
        · rw [if_pos hend] at h
          match hr : reconstruct_path st.came_from node.position with
          | none =>
            rw [hr, Option.map_none'] at h
            exact Option.noConfusion h
          | some path =>
            rw [hr] at h
            simp only [Option.map_some'] at h
            cases h
            obtain ⟨r1, r2, r3, r4⟩ := reconstruct_path_spec hcf hks hr
            exact validPath_of_chain hstart r1 r2 (hend ▸ r3) r4
        · rw [if_neg hend] at h
          obtain ⟨k1, k2⟩ := greedy_best_first.foldl_greedyStep_inv g node.position
            (get_neighbors g node.position) (fun nb hnb => hnb)
            { st with open_set := heap', popped := st.popped ++ [node.position],
                      visited := node.position :: st.visited,
                      counter := st.counter.explore_node }
            hcf (fun x hx => hh x (hrest x hx)) hks
          exact ih _ _ _ k1 k2 h hne

theorem depth_first.foldl_dfsVisit_true_id
    (rec : Position → List Position → List Position → PerformanceCounter →
      Option (Bool × List Position × List Position × PerformanceCounter)) :
    ∀ (nbs : List Position) (v p : List Position) (c : PerformanceCounter),
      nbs.foldl (dfsVisit rec) (some (true, v, p, c)) = some (true, v, p, c) := by
  intro nbs
  induction nbs with
  | nil => intro v p c; rfl
  | cons nb rest ih => intro v p c; rw [List.foldl_cons]; exact ih v p c

theorem depth_first.foldl_dfsVisit_false_path
    (rec : Position → List Position → List Position → PerformanceCounter →
      Option (Bool × List Position × List Position × PerformanceCounter))
    (hrec : ∀ nb v p c v2 p2 c2, rec nb v p c = some (false, v2, p2, c2) → p2 = p) :
    ∀ (nbs : List Position) (b : Bool) (v p : List Position)
      (c : PerformanceCounter) v2 p2 c2,
      nbs.foldl (dfsVisit rec) (some (b, v, p, c)) = some (false, v2, p2, c2) →
      p2 = p ∧ b = false := by
  intro nbs
  induction nbs with
  | nil =>
    intro b v p c v2 p2 c2 h
    cases h
    exact ⟨rfl, rfl⟩
  | cons nb rest ih =>
    intro b v p c v2 p2 c2 h
    rw [List.foldl_cons] at h
    match b with
    | true =>
      rw [show dfsVisit rec (some (true, v, p, c)) nb = some (true, v, p, c) from rfl,
        depth_first.foldl_dfsVisit_true_id] at h
      cases h
    | false =>
      rw [dfsVisit] at h
      by_cases hvis : v.contains nb
      · rw [if_pos hvis] at h
        exact ⟨(ih _ _ _ _ _ _ _ h).1, rfl⟩
      · rw [if_neg hvis] at h
        match hr : rec nb v p ((c.compare).allocate_memory 1) with
        | none =>
          rw [hr, depth_first.foldl_dfsVisit_none] at h
          cases h
        | some (true, v3, p3, c3) =>
          rw [hr, depth_first.foldl_dfsVisit_true_id] at h
          cases h
        | some (false, v3, p3, c3) =>
          rw [hr] at h
          have h3 := hrec _ _ _ _ _ _ _ hr
          exact ⟨((ih _ _ _ _ _ _ _ h).1).trans h3, rfl⟩

/-- A failed `dfs_recursive` call restores `path` to its value at entry
(each push is matched by the `path.pop()` on the failing branch). -/
theorem depth_first.dfs_false_path (g : Grid) (t : Position) :
    ∀ (fuel : Nat) cur vis path cnt v p c,
      dfs_recursive g t fuel cur vis path cnt = some (false, v, p, c) →
      p = path := by
  intro fuel
  induction fuel with
  | zero => intro cur vis path cnt v p c h; cases h
  | succ n ih =>
    intro cur vis path cnt v p c h
    rw [dfs_recursive] at h
    by_cases hend : cur = t
    · rw [if_pos hend] at h
      cases h
    · rw [if_neg hend] at h
      match hloop : (get_neighbors g cur).foldl (dfsVisit (dfs_recursive g t n))
          (some (false, cur :: vis, path ++ [cur], cnt.explore_node)) with
      | none => rw [hloop] at h; cases h
      | some (true, v3, p3, c3) => rw [hloop] at h; cases h
      | some (false, v3, p3, c3) =>
        rw [hloop] at h
        cases h
        have hp3 := (depth_first.foldl_dfsVisit_false_path _
          (fun nb v p c v2 p2 c2 hr => ih _ _ _ _ _ _ _ hr) _ _ _ _ _ _ _ _ hloop).1
        rw [hp3]
        exact List.dropLast_concat ..

theorem depth_first.foldl_dfsVisit_true_valid (g : Grid) (t cur : Position)
    (rec : Position → List Position → List Position → PerformanceCounter →
      Option (Bool × List Position × List Position × PerformanceCounter))
    (hrecF : ∀ nb v p c v2 p2 c2, rec nb v p c = some (false, v2, p2, c2) → p2 = p)
    (hrecT : ∀ nb v p c v2 p2 c2, rec nb v p c = some (true, v2, p2, c2) →
      List.Chain' (adjStep g) (p ++ [nb]) →
      ∃ ext, p2 = (p ++ [nb]) ++ ext ∧ List.Chain' (adjStep g) p2 ∧
        p2.getLast? = some t) :
    ∀ (nbs : List Position), (∀ nb ∈ nbs, nb ∈ get_neighbors g cur) →
    ∀ (v p0 : List Position) (c : PerformanceCounter) v2 p2 c2,
      p0.getLast? = some cur → List.Chain' (adjStep g) p0 →
      nbs.foldl (dfsVisit rec) (some (false, v, p0, c)) = some (true, v2, p2, c2) →
      ∃ ext, p2 = p0 ++ ext ∧ List.Chain' (adjStep g) p2 ∧
        p2.getLast? = some t := by
  intro nbs
  induction nbs with
  | nil =>
    intro _ v p0 c v2 p2 c2 _ _ h
    cases h
  | cons nb rest ih =>
    intro hnbs v p0 c v2 p2 c2 hlast hchain h
    rw [List.foldl_cons, dfsVisit] at h
    by_cases hvis : v.contains nb
    · rw [if_pos hvis] at h
      exact ih (fun x hx => hnbs x (List.mem_cons_of_mem _ hx))
        _ _ _ _ _ _ hlast hchain h
    · rw [if_neg hvis] at h
      match hr : rec nb v p0 ((c.compare).allocate_memory 1) with
      | none =>
        rw [hr, depth_first.foldl_dfsVisit_none] at h
        cases h
      | some (false, v3, p3, c3) =>
        rw [hr] at h
        have hp3 := hrecF _ _ _ _ _ _ _ hr
        subst hp3
        exact ih (fun x hx => hnbs x (List.mem_cons_of_mem _ hx))
          _ _ _ _ _ _ hlast hchain h
      | some (true, v3, p3, c3) =>
        rw [hr, depth_first.foldl_dfsVisit_true_id] at h
        cases h
        have hchain2 : List.Chain' (adjStep g) (p0 ++ [nb]) := by
          rw [List.chain'_append]
          refine ⟨hchain, List.chain'_singleton _, ?_⟩
          intro x hx y hy
          rw [hlast] at hx
          cases hx
          rw [List.head?_cons] at hy
          cases hy
          exact hnbs nb (List.mem_cons_self _ _)
        obtain ⟨ext, he1, he2, he3⟩ := hrecT _ _ _ _ _ _ _ hr hchain2
        exact ⟨[nb] ++ ext, by rw [he1, List.append_assoc], he2, he3⟩

/-- A successful `dfs_recursive` call extends the entry path by `cur` and a
tail of legal moves, ending at the target. -/
theorem depth_first.dfs_true_valid (g : Grid) (t : Position) :
    ∀ (fuel : Nat) cur vis path cnt v p c,
      dfs_recursive g t fuel cur vis path cnt = some (true, v, p, c) →
      List.Chain' (adjStep g) (path ++ [cur]) →
      ∃ ext, p = (path ++ [cur]) ++ ext ∧ List.Chain' (adjStep g) p ∧
        p.getLast? = some t := by
  intro fuel
  induction fuel with
  | zero => intro cur vis path cnt v p c h; cases h
  | succ n ih =>
    intro cur vis path cnt v p c h hchain
    rw [dfs_recursive] at h
    by_cases hend : cur = t
    · rw [if_pos hend] at h
      cases h
      refine ⟨[], by simp, hchain, ?_⟩
      rw [List.getLast?_concat, hend]
    · rw [if_neg hend] at h
      match hloop : (get_neighbors g cur).foldl (dfsVisit (dfs_recursive g t n))
          (some (false, cur :: vis, path ++ [cur], cnt.explore_node)) with
      | none => rw [hloop] at h; cases h
      | some (false, v3, p3, c3) => rw [hloop] at h; cases h
      | some (true, v3, p3, c3) =>
        rw [hloop] at h
        cases h
        exact depth_first.foldl_dfsVisit_true_valid g t cur _
          (fun nb v p c v2 p2 c2 hr => depth_first.dfs_false_path g t n _ _ _ _ _ _ _ hr)
          (fun nb v p c v2 p2 c2 hr hch => ih _ _ _ _ _ _ _ hr hch)
          _ (fun x hx => hx) _ _ _ _ _ _ (List.getLast?_concat _) hchain hloop

/-- C2.  For each of the five algorithms, on any grid whose start cell is
not blocked (data-model invariant I1), a returned non-empty path starts at
`grid.start`, ends at `grid.end`, contains no blocked cell, and each
consecutive pair of positions is at Manhattan distance 1. -/
theorem find_path_results_valid (g : Grid)
    (hstart : cellAt g g.start ≠ CellType.Blocked) :
    (∀ p c, breadth_first.find_path g = some (p, c) → p ≠ [] → ValidPath g p) ∧
      (∀ p c, astar.find_path g = some (p, c) → p ≠ [] → ValidPath g p) ∧
      (∀ p c, dijkstra.find_path g = some (p, c) → p ≠ [] → ValidPath g p) ∧
      (∀ p c, greedy_best_first.find_path g = some (p, c) → p ≠ [] → ValidPath g p) ∧
      (∀ p c, depth_first.find_path g = some (p, c) → p ≠ [] → ValidPath g p) := by
  refine ⟨?_, ?_, ?_, ?_, ?_⟩
  · intro p c h hne
    refine breadth_first.bfsLoop_valid g hstart _ _ _ _ ?_ ?_ h hne
    · intro pr hpr
      cases hpr
    · intro x hx
      rw [List.mem_singleton] at hx
      exact Or.inl hx
  · intro p c h
    unfold astar.find_path at h
    match hrun : astar.run g with
    | none => rw [hrun, Option.map_none'] at h; exact Option.noConfusion h
    | some (st', path) =>
      rw [hrun] at h
      simp only [Option.map_some'] at h
      cases h
      intro hne
      refine astar.astarLoop_valid g hstart _ _ _ _ ?_ ?_ hrun hne
      · intro pr hpr
        cases hpr
      · intro node hn
        simp only [astar.initState, List.mem_singleton] at hn
        subst hn
        exact Or.inl rfl
  · intro p c h
    unfold dijkstra.find_path at h
    match hrun : dijkstra.run g with
    | none => rw [hrun, Option.map_none'] at h; exact Option.noConfusion h
    | some (st', path) =>
      rw [hrun] at h
      simp only [Option.map_some'] at h
      cases h
      intro hne
      refine dijkstra.dijLoop_valid g hstart _ _ _ _ ?_ ?_ hrun hne
      · intro pr hpr
        cases hpr
      · intro node hn
        simp only [dijkstra.initState, List.mem_singleton] at hn
        subst hn
        exact Or.inl rfl
  · intro p c h
    unfold greedy_best_first.find_path at h
    match hrun : greedy_best_first.run g with
    | none => rw [hrun, Option.map_none'] at h; exact Option.noConfusion h
    | some (st', path) =>
      rw [hrun] at h
      simp only [Option.map_some'] at h
      cases h
      intro hne
      refine greedy_best_first.greedyLoop_valid g hstart _ _ _ _ ?_ ?_ hrun hne
      · intro pr hpr
        cases hpr
      · intro node hn
        simp only [greedy_best_first.initState, List.mem_singleton] at hn
        subst hn
        exact Or.inl rfl
  · intro p c h hne
    unfold depth_first.find_path at h
    match hrec : depth_first.dfs_recursive g g.endP (g.width * g.height + 2)
        g.start [] [] PerformanceCounter.new with
    | none => rw [hrec] at h; exact Option.noConfusion h
    | some (false, v, pa, cnt) =>
      rw [hrec] at h
      cases h
      exact absurd rfl hne
    | some (true, v, pa, cnt) =>
      rw [hrec] at h
      cases h
      obtain ⟨ext, he1, he2, he3⟩ := depth_first.dfs_true_valid g g.endP _ _ _ _ _ _ _ _
        hrec (by simp)
      refine validPath_of_chain hstart ?_ he2 he3 ?_
      · rw [he1]
        rfl
      · rw [he1]
        simp

/-- Witness for C2 on the concrete 3×3 grid (BFS branch). -/
theorem find_path_results_valid_witness :
    cellAt grid3x3 grid3x3.start ≠ CellType.Blocked ∧
      ∃ p c, breadth_first.find_path grid3x3 = some (p, c) ∧ p ≠ [] ∧
        ValidPath grid3x3 p := by
  refine ⟨by decide, ?_⟩
  match hb : breadth_first.find_path grid3x3 with
  | none => exact absurd hb (by decide)
  | some (p, c) =>
    have hne : p ≠ [] := by
      intro hcon
      have h5 : (breadth_first.find_path grid3x3).map (fun r => r.1.length) = some 5 := by
        decide
      rw [hb, hcon] at h5
      simp at h5
    exact ⟨p, c, rfl,  hne,
      (find_path_results_valid grid3x3 (by decide)).1 p c hb hne⟩

/-! ## C1: connectivity of the generated grids -/

/-- All in-bounds positions of a `w × h` grid. -/
def allPositions (w h : Nat) : List Position :=
  (List.range h).flatMap (fun r => (List.range w).map (fun c => ⟨r, c⟩))

theorem mem_allPositions {w h : Nat} {p : Position} :
    p ∈ allPositions w h ↔ p.row < h ∧ p.col < w := by
  unfold allPositions
  rw [List.mem_flatMap]
  constructor
  · rintro ⟨r, hr, hp⟩
    rw [List.mem_map] at hp
    obtain ⟨c, hc, hp⟩ := hp
    rw [List.mem_range] at hr hc
    cases hp
    exact ⟨hr, hc⟩
  · rintro ⟨hr, hc⟩
    exact ⟨p.row, List.mem_range.mpr hr,
      List.mem_map.mpr ⟨p.col, List.mem_range.mpr hc, rfl⟩⟩

theorem length_allPositions (w h : Nat) : (allPositions w h).length = h * w := by
  unfold allPositions
  rw [List.length_flatMap]
  have heq : (List.map (List.length ∘ fun r => (List.range w).map
      (fun c => (⟨r, c⟩ : Position))) (List.range h)) = List.replicate h w := by
    rw [List.eq_replicate_iff]
    refine ⟨by simp, ?_⟩
    intro b hb
    rw [List.mem_map] at hb
    obtain ⟨r, hr, hb⟩ := hb
    simp at hb
    omega
  rw [heq, List.sum_replicate]
  simp [Nat.smul_one_eq_cast]

/-- Any duplicate-free list of positions that are each the start node or
in bounds has at most `w*h + 1` elements. -/
theorem nodup_positions_length_le (g : Grid) (l : List Position) (hd : l.Nodup)
    (hb : ∀ x ∈ l, x = g.start ∨ (x.row < g.height ∧ x.col < g.width)) :
    l.length ≤ g.width * g.height + 1 := by
  have h1 : l.length ≤ (g.start :: allPositions g.width g.height).dedup.length := by
    refine nodup_subset_length_le_dedup hd ?_
    intro x hx
    rcases hb x hx with hb | hb
    · simp [hb]
    · exact List.mem_cons_of_mem _ (mem_allPositions.mpr hb)
  calc l.length ≤ (g.start :: allPositions g.width g.height).dedup.length := h1
    _ ≤ (g.start :: allPositions g.width g.height).length :=
        List.Sublist.length_le (List.dedup_sublist _)
    _ = g.width * g.height + 1 := by
        rw [List.length_cons, length_allPositions]
        ring

/-- The neighbour-collecting fold inside `is_grid_connected`'s BFS. -/
def icStep (s : List Position × List Position) (nb : Position) :
    List Position × List Position :=
  if s.1.contains nb then s else (nb :: s.1, s.2 ++ [nb])

theorem icFold_spec (nbs : List Position) :
    ∀ (vis acc : List Position),
      (∀ x ∈ vis, x ∈ (nbs.foldl icStep (vis, acc)).1) ∧
        (∀ nb ∈ nbs, nb ∈ (nbs.foldl icStep (vis, acc)).1) ∧
        (∀ x ∈ (nbs.foldl icStep (vis, acc)).1, x ∈ vis ∨ x ∈ nbs) ∧
        (∀ x ∈ (nbs.foldl icStep (vis, acc)).1, x ∈ vis ∨ x ∈ (nbs.foldl icStep (vis, acc)).2) ∧
        (∀ x ∈ (nbs.foldl icStep (vis, acc)).2, x ∈ acc ∨ x ∈ (nbs.foldl icStep (vis, acc)).1) ∧
        (vis.Nodup → (nbs.foldl icStep (vis, acc)).1.Nodup) ∧
        (nbs.foldl icStep (vis, acc)).1.length + acc.length =
          vis.length + (nbs.foldl icStep (vis, acc)).2.length ∧
        (∀ x ∈ acc, x ∈ (nbs.foldl icStep (vis, acc)).2) := by
  induction nbs with
  | nil =>
    intro vis acc
    exact ⟨fun x hx => hx, fun nb hnb => absurd hnb (List.not_mem_nil _),
      fun x hx => Or.inl hx, fun x hx => Or.inl hx, fun x hx => Or.inl hx,
      id, rfl, fun x hx => hx⟩
  | cons nb rest ih =>
    intro vis acc
    rw [List.foldl_cons]
    by_cases hc : vis.contains nb
    · rw [show icStep (vis, acc) nb = (vis, acc) from by unfold icStep; rw [if_pos hc]]
      obtain ⟨a1, a2, a3, a4, a5, a6, a7, a8⟩ := ih vis acc
      refine ⟨a1, ?_, ?_, a4, a5, a6, a7, a8⟩
      · intro x hx
        rcases List.mem_cons.mp hx with hx | hx
        · subst hx
          exact a1 x (by simpa using hc)
        · exact a2 x hx
      · intro x hx
        rcases a3 x hx with hx | hx
        · exact Or.inl hx
        · exact Or.inr (List.mem_cons_of_mem _ hx)
    · rw [show icStep (vis, acc) nb = (nb :: vis, acc ++ [nb]) from by
        unfold icStep; rw [if_neg hc]]
      obtain ⟨a1, a2, a3, a4, a5, a6, a7, a8⟩ := ih (nb :: vis) (acc ++ [nb])
      have hnbvis : nb ∈ (rest.foldl icStep (nb :: vis, acc ++ [nb])).1 :=
        a1 nb (List.mem_cons_self _ _)
      have hnbacc : nb ∈ (rest.foldl icStep (nb :: vis, acc ++ [nb])).2 :=
        a8 nb (List.mem_append_right _ (List.mem_singleton_self _))
      refine ⟨?_, ?_, ?_, ?_, ?_, ?_, ?_, ?_⟩
      · intro x hx
        exact a1 x (List.mem_cons_of_mem _ hx)
      · intro x hx
        rcases List.mem_cons.mp hx with hx | hx
        · subst hx
          exact hnbvis
        · exact a2 x hx
      · intro x hx
        rcases a3 x hx with hx | hx
        · rcases List.mem_cons.mp hx with hx | hx
          · exact Or.inr (by simp [hx])
          · exact Or.inl hx
        · exact Or.inr (List.mem_cons_of_mem _ hx)
      · intro x hx
        rcases a4 x hx with hx | hx
        · rcases List.mem_cons.mp hx with hx | hx
          · subst hx
            exact Or.inr hnbacc
          · exact Or.inl hx
        · exact Or.inr hx
      · intro x hx
        rcases a5 x hx with hx | hx
        · rcases List.mem_append.mp hx with hx | hx
          · exact Or.inl hx
          · rw [List.mem_singleton] at hx
            subst hx
            exact Or.inr hnbvis
        · exact Or.inr hx
      · intro hnd
        exact a6 (List.nodup_cons.mpr ⟨by simpa using hc, hnd⟩)
      · have := a7
        simp only [List.length_cons, List.length_append, List.length_singleton,
          List.length_nil] at this ⊢
        omega
      · intro x hx
        exact a8 x (List.mem_append_left _ hx)

theorem icLoop_ne_none (g : Grid) :
    ∀ (fuel : Nat) (q vis : List Position),
      q.length + (g.width * g.height + 1 - vis.length) + 1 ≤ fuel →
      (∀ x ∈ q, x ∈ vis) → vis.Nodup →
      (∀ x ∈ vis, x = g.start ∨ (x.row < g.height ∧ x.col < g.width)) →
      icLoop g fuel q vis ≠ none := by
  intro fuel
  induction fuel with
  | zero =>
    intro q vis hm _ _ _
    omega
  | succ n ih =>
    intro q vis hm hq hnd hb
    cases q with
    | nil =>
      rw [icLoop]
      simp
    | cons cur rest =>
      rw [icLoop]
      dsimp only
      split
      · simp
      · obtain ⟨a1, a2, a3, a4, a5, a6, a7, a8⟩ :=
          icFold_spec (get_neighbors g cur) vis []
        set r := (get_neighbors g cur).foldl icStep (vis, []) with hr
        have hbounds : ∀ x ∈ r.1, x = g.start ∨ (x.row < g.height ∧ x.col < g.width) := by
          intro x hx
          rcases a3 x hx with hx | hx
          · exact hb x hx
          · obtain ⟨-, h2, h3, -⟩ := mem_get_neighbors hx
            exact Or.inr ⟨h2, h3⟩
        have hlen : r.1.length ≤ g.width * g.height + 1 :=
          nodup_positions_length_le g r.1 (a6 hnd) hbounds
        have hfold : (get_neighbors g cur).foldl
            (fun (s : List Position × List Position) nb =>
              if s.1.contains nb then s else (nb :: s.1, s.2 ++ [nb])) (vis, []) = r := by
          rw [hr]
          rfl
        rw [hfold]
        refine ih (rest ++ r.2) r.1 ?_ ?_ (a6 hnd) hbounds
        · have hvl : vis.length ≤ g.width * g.height + 1 :=
            nodup_positions_length_le g vis hnd hb
          have ha7 : r.1.length = vis.length + r.2.length := by
            have h7 := a7
            simp only [List.length_nil] at h7
            omega
          rw [List.length_append, List.length_cons] at *
          omega
        · intro x hx
          rcases List.mem_append.mp hx with hx | hx
          · exact a1 x (hq x (List.mem_cons_of_mem _ hx))
          · rcases a5 x hx with hx | hx
            · cases hx
            · exact hx

theorem icLoop_false_closed (g : Grid) :
    ∀ (fuel : Nat) (q vis : List Position),
      (∀ x ∈ q, x ∈ vis) → g.start ∈ vis →
      (∀ v ∈ vis, v ∉ q → ∀ nb ∈ get_neighbors g v, nb ∈ vis) →
      (g.endP ∈ vis → g.endP ∈ q) →
      icLoop g fuel q vis = some false →
      ∃ S : List Position, g.start ∈ S ∧ g.endP ∉ S ∧
        ∀ v ∈ S, ∀ nb ∈ get_neighbors g v, nb ∈ S := by
  intro fuel
  induction fuel with
  | zero => intro q vis _ _ _ _ h; cases h
  | succ n ih =>
    intro q vis hq hstart hclo hendq h
    cases q with
    | nil =>
      refine ⟨vis, hstart, fun hmem => ?_, fun v hv => hclo v hv (List.not_mem_nil v)⟩
      exact absurd (hendq hmem) (List.not_mem_nil _)
    | cons cur rest =>
      rw [icLoop] at h
      dsimp only at h
      split at h
      · cases h
      · rename_i hend
        obtain ⟨a1, a2, a3, a4, a5, a6, a7, a8⟩ :=
          icFold_spec (get_neighbors g cur) vis []
        refine ih (rest ++ ((get_neighbors g cur).foldl icStep (vis, [])).2)
          ((get_neighbors g cur).foldl icStep (vis, [])).1 ?_ ?_ ?_ ?_ h
        · intro x hx
          rcases List.mem_append.mp hx with hx | hx
          · exact a1 x (hq x (List.mem_cons_of_mem _ hx))
          · rcases a5 x hx with hx | hx
            · cases hx
            · exact hx
        · exact a1 _ hstart
        · intro v hv hvq
          intro nb hnb
          rcases a4 v hv with hvv | hvacc
          · by_cases hvc : v = cur
            · subst hvc
              exact a2 nb hnb
            · have hvnotq : v ∉ cur :: rest := by
                intro hcon
                rcases List.mem_cons.mp hcon with hcon | hcon
                · exact hvc hcon
                · exact hvq (List.mem_append_left _ hcon)
              exact a1 nb (hclo v hvv hvnotq nb hnb)
          · exact absurd (List.mem_append_right rest hvacc) hvq
        · intro hmem
          rcases a4 _ hmem with hvv | hvacc
          · have := hendq hvv
            rcases List.mem_cons.mp this with hcon | hcon
            · exact absurd hcon.symm hend
            · exact List.mem_append_left _ hcon
          · exact List.mem_append_right rest hvacc

/-- Monotone closure: every node on an `adjStep` chain whose head lies in a
neighbour-closed set stays in the set. -/
theorem chain_subset_closed {g : Grid} {S : List Position}
    (hclosed : ∀ v ∈ S, ∀ nb ∈ get_neighbors g v, nb ∈ S) :
    ∀ (p : List Position) (z : Position), z ∈ S →
      List.Chain' (adjStep g) (z :: p) → ∀ x ∈ z :: p, x ∈ S := by
  intro p
  induction p with
  | nil =>
    intro z hz _ x hx
    rcases List.mem_cons.mp hx with hx | hx
    · exact hx ▸ hz
    · cases hx
  | cons b rest ih =>
    intro z hz hchain x hx
    have hstep : adjStep g z b := (List.chain'_cons.mp hchain).1
    have hb : b ∈ S := hclosed z hz b hstep
    rcases List.mem_cons.mp hx with hx | hx
    · exact hx ▸ hz
    · exact ih b hb (List.chain'_cons.mp hchain).2 x hx

/-- Completeness of the coordinator's BFS: any open `adjStep` chain from
`start` to `end` forces `is_grid_connected` to answer `true`. -/
theorem is_grid_connected_of_chain (g : Grid) (p : List Position)
    (h1 : p.head? = some g.start) (h2 : List.Chain' (adjStep g) p)
    (h3 : p.getLast? = some g.endP) : is_grid_connected g = true := by
  unfold is_grid_connected
  have hnn : icLoop g (g.width * g.height + 2) [g.start] [g.start] ≠ none := by
    refine icLoop_ne_none g _ _ _ ?_ ?_ (List.nodup_singleton _) ?_
    · simp only [List.length_singleton]
      omega
    · intro x hx
      rw [List.mem_singleton] at hx
      simp [hx]
    · intro x hx
      rw [List.mem_singleton] at hx
      exact Or.inl hx
  match hic : icLoop g (g.width * g.height + 2) [g.start] [g.start] with
  | none => exact absurd hic hnn
  | some true => rfl
  | some false =>
    exfalso
    obtain ⟨S, hS1, hS2, hS3⟩ := icLoop_false_closed g _ _ _
      (by intro x hx; exact hx) (List.mem_singleton_self _)
      (by
        intro v hv hvq
        rw [List.mem_singleton] at hv
        exact absurd (hv ▸ List.mem_singleton_self g.start) hvq)
      (fun hmem => by rwa [List.mem_singleton] at hmem ⊢) hic
    match hp : p with
    | [] => cases h1
    | z :: tail =>
      have hz : z = g.start := by simpa using h1
      have hall := chain_subset_closed hS3 tail z (hz ▸ hS1) h2
      have hendmem : g.endP ∈ z :: tail := by
        obtain ⟨hne, heq⟩ := List.mem_getLast?_eq_getLast (Option.mem_def.mpr h3)
        rw [heq]
        exact List.getLast_mem hne
      exact hS2 (hall _ hendmem)

theorem right_mem_get_neighbors {g : Grid} {a : Position}
    (hr : a.row < g.height) (hc : a.col + 1 < g.width)
    (hb : cellAt g ⟨a.row, a.col + 1⟩ ≠ CellType.Blocked) :
    (⟨a.row, a.col + 1⟩ : Position) ∈ get_neighbors g a := by
  unfold get_neighbors
  refine List.mem_filterMap.mpr ⟨(0, 1), by simp [directions], ?_⟩
  dsimp only
  rw [if_pos (by constructor <;> [omega; constructor <;> [omega; constructor <;> omega]])]
  have h1 : ((a.row : Int) + 0).toNat = a.row := by omega
  have h2 : ((a.col : Int) + 1).toNat = a.col + 1 := by omega
  rw [h1, h2, if_pos hb]

theorem down_mem_get_neighbors {g : Grid} {a : Position}
    (hr : a.row + 1 < g.height) (hc : a.col < g.width)
    (hb : cellAt g ⟨a.row + 1, a.col⟩ ≠ CellType.Blocked) :
    (⟨a.row + 1, a.col⟩ : Position) ∈ get_neighbors g a := by
  unfold get_neighbors
  refine List.mem_filterMap.mpr ⟨(1, 0), by simp [directions], ?_⟩
  dsimp only
  rw [if_pos (by constructor <;> [omega; constructor <;> [omega; constructor <;> omega]])]
  have h1 : ((a.row : Int) + 1).toNat = a.row + 1 := by omega
  have h2 : ((a.col : Int) + 0).toNat = a.col := by omega
  rw [h1, h2, if_pos hb]

/-- The staircase relation of `create_simple_connected_grid`'s carve loop:
one step right or one step down. -/
def stairRel (a b : Position) : Prop :=
  b = ⟨a.row, a.col + 1⟩ ∨ b = ⟨a.row + 1, a.col⟩

theorem stairLoop_chain (endP : Position) :
    ∀ (fuel : Nat) (cur : Position) (acc : List Position),
      cur.col ≤ endP.col → cur.row ≤ endP.row →
      endP.col - cur.col + (endP.row - cur.row) < fuel →
      ∃ tail, stairLoop endP fuel cur acc = acc ++ tail ∧
        (tail ++ [endP]).head? = some cur ∧
        List.Chain' stairRel (tail ++ [endP]) ∧
        ∀ x ∈ tail, x.col ≤ endP.col ∧ x.row ≤ endP.row := by
  intro fuel
  induction fuel with
  | zero => intro cur acc _ _ hf; omega
  | succ n ih =>
    intro cur acc hc hr hf
    rw [stairLoop]
    by_cases hne : cur = endP
    · rw [if_neg (by simpa using hne)]
      exact ⟨[], by simp, by rw [hne]; rfl, List.chain'_singleton _, by simp⟩
    · rw [if_pos (by simpa using hne)]
      by_cases hcol : cur.col < endP.col
      · rw [if_pos hcol]
        obtain ⟨tail, t1, t2, t3, t4⟩ := ih ⟨cur.row, cur.col + 1⟩ (acc ++ [cur])
          hcol hr (by dsimp only; omega)
        refine ⟨cur :: tail, by rw [t1, List.append_assoc]; rfl, rfl, ?_, ?_⟩
        · rw [List.cons_append, List.chain'_cons']
          exact ⟨fun y hy => by
            rw [t2] at hy
            cases hy
            exact Or.inl rfl, t3⟩
        · intro x hx
          rcases List.mem_cons.mp hx with hx | hx
          · subst hx
            exact ⟨hc, hr⟩
          · exact t4 x hx
      · rw [if_neg hcol]
        by_cases hrow : cur.row < endP.row
        · rw [if_pos hrow]
          obtain ⟨tail, t1, t2, t3, t4⟩ := ih ⟨cur.row + 1, cur.col⟩ (acc ++ [cur])
            hc hrow (by dsimp only; omega)
          refine ⟨cur :: tail, by rw [t1, List.append_assoc]; rfl, rfl, ?_, ?_⟩
          · rw [List.cons_append, List.chain'_cons']
            exact ⟨fun y hy => by
              rw [t2] at hy
              cases hy
              exact Or.inr rfl, t3⟩
          · intro x hx
            rcases List.mem_cons.mp hx with hx | hx
            · subst hx
              exact ⟨hc, hr⟩
            · exact t4 x hx
        · exfalso
          apply hne
          obtain ⟨cr, cc⟩ := cur
          obtain ⟨er, ec⟩ := endP
          simp only [Position.mk.injEq]
          dsimp only at hc hr hcol hrow
          omega

theorem simpleLoop_spec (gp : List Position) (w h oc : Nat) :
    ∀ (draws : List (Nat × Nat)) (grid : Grid) (placed : Nat), WF grid →
      (simpleLoop gp w h oc draws grid placed).width = grid.width ∧
        (simpleLoop gp w h oc draws grid placed).height = grid.height ∧
        (simpleLoop gp w h oc draws grid placed).start = grid.start ∧
        (simpleLoop gp w h oc draws grid placed).endP = grid.endP ∧
        WF (simpleLoop gp w h oc draws grid placed) ∧
        ∀ p ∈ gp, cellAt (simpleLoop gp w h oc draws grid placed) p = cellAt grid p := by
  intro draws
  induction draws with
  | nil => exact fun grid placed wf => ⟨rfl, rfl, rfl, rfl, wf, fun p _ => rfl⟩
  | cons d rest ih =>
    intro grid placed wf
    obtain ⟨row, col⟩ := d
    rw [simpleLoop]
    by_cases hp : placed < oc
    · rw [if_pos hp]
      dsimp only
      by_cases hg : ¬ gp.contains (⟨row, col⟩ : Position) ∧
          ¬ (get_eight_directional_neighbors ⟨row, col⟩ w h).any (fun p => gp.contains p) ∧
          cellAt grid ⟨row, col⟩ = CellType.Open
      · rw [if_pos hg]
        obtain ⟨i1, i2, i3, i4, i5, i6⟩ :=
          ih (add_obstacle grid ⟨row, col⟩) (placed + 1) (WF_add_obstacle wf _)
        refine ⟨i1.trans (add_obstacle_width _ _), i2.trans (add_obstacle_height _ _),
          i3.trans (add_obstacle_start _ _), i4.trans (add_obstacle_endP _ _), i5, ?_⟩
        intro p hpgp
        rw [i6 p hpgp, cellAt_add_obstacle wf]
        rw [if_neg ?_]
        rintro ⟨-, -, -, -, hpeq⟩
        subst hpeq
        exact hg.1 (by simpa using hpgp)
      · rw [if_neg hg]
        exact ih grid placed wf
    · rw [if_neg hp]
      exact ⟨rfl, rfl, rfl, rfl, wf, fun p _ => rfl⟩

/-- Lifting the coordinate staircase to legal moves: on a grid where every
node of the chain is in bounds and unblocked, each staircase step is a
`get_neighbors` move. -/
theorem chain_stairRel_adjStep {g : Grid} :
    ∀ l : List Position, List.Chain' stairRel l →
      (∀ x ∈ l, x.row < g.height ∧ x.col < g.width ∧
        cellAt g x ≠ CellType.Blocked) →
      List.Chain' (adjStep g) l := by
  intro l
  induction l with
  | nil => intro _ _; exact List.chain'_nil
  | cons a rest ih =>
    intro hchain hmem
    cases rest with
    | nil => exact List.chain'_singleton a
    | cons b rest2 =>
      rw [List.chain'_cons] at hchain ⊢
      obtain ⟨hab, htail⟩ := hchain
      obtain ⟨hbr, hbc, hbb⟩ := hmem b (by simp)
      refine ⟨?_, ih htail (fun x hx => hmem x (List.mem_cons_of_mem _ hx))⟩
      rcases hab with hstep | hstep
      · subst hstep
        dsimp only at hbr hbc
        exact right_mem_get_neighbors (by omega) hbc hbb
      · subst hstep
        dsimp only at hbr hbc
        exact down_mem_get_neighbors hbr (by omega) hbb

/-- The deterministic fallback always produces a connected grid: its carved
staircase is protected from every scattered obstacle. -/
theorem create_simple_connected_grid_connected (w h : Nat) (q : ℚ)
    (draws : List (Nat × Nat)) (hw : 1 ≤ w) (hh : 1 ≤ h) :
    is_grid_connected (create_simple_connected_grid w h q draws) = true := by
  unfold create_simple_connected_grid
  dsimp only
  set endP : Position := ⟨h - 1, w - 1⟩ with hendP
  set G0 := Grid.new w h ⟨0, 0⟩ endP with hG0
  obtain ⟨tail, t1, t2, t3, t4⟩ := stairLoop_chain endP (endP.row + endP.col + 1)
    ⟨0, 0⟩ [] (Nat.zero_le _) (Nat.zero_le _) (by dsimp only; omega)
  rw [show stairLoop endP (endP.row + endP.col + 1) ⟨0, 0⟩ [] = tail from t1]
  set gp := tail ++ [endP] with hgp
  set oc := ratToUsize (roundF64 (roundF64 (roundF64
    ((w * h - gp.length : Nat) : ℚ) * q) * (1 / 2))) with hoc
  obtain ⟨s1, s2, s3, s4, s5, s6⟩ := simpleLoop_spec gp w h oc draws G0 0 (WF_new _ _ _ _)
  set R := simpleLoop gp w h oc draws G0 0 with hR
  have hmemfacts : ∀ x ∈ gp, x.row < R.height ∧ x.col < R.width ∧
      cellAt R x ≠ CellType.Blocked := by
    intro x hx
    have hbounds : x.row ≤ h - 1 ∧ x.col ≤ w - 1 := by
      rcases List.mem_append.mp hx with hx | hx
      · obtain ⟨hcx, hrx⟩ := t4 x hx
        exact ⟨hrx, hcx⟩
      · rw [List.mem_singleton] at hx
        subst hx
        exact ⟨le_refl _, le_refl _⟩
    have hcell : cellAt R x = cellAt G0 x := s6 x hx
    refine ⟨by rw [s2]; show x.row < h; omega, by rw [s1]; show x.col < w; omega, ?_⟩
    rw [hcell, hG0, cellAt_new]
    split_ifs <;> simp
  refine is_grid_connected_of_chain R gp ?_ ?_ ?_
  · rw [hgp]
    rw [t2, s3]
    rfl
  · exact chain_stairRel_adjStep gp t3 hmemfacts
  · rw [hgp, List.getLast?_concat, s4]
    rfl

/-- C1.  For every width, height ≥ 3 and obstacle percentage in `[0, 0.8]`
(and in fact for every draw sequence of the random number generator), the
grid produced by `create_random_obstacles_grid` is connected — the BFS of
`is_grid_connected` reaches `end` from `start` — and so is the grid of the
deterministic fallback `create_simple_connected_grid`. -/
theorem create_random_obstacles_grid_connected (width height : Nat) (q : ℚ)
    (d1 d2 : List (Nat × Nat)) (hw : 3 ≤ width) (hh : 3 ≤ height)
    (hq0 : 0 ≤ q) (hq1 : q ≤ 4 / 5) :
    is_grid_connected (create_random_obstacles_grid width height q d1 d2) = true ∧
      is_grid_connected (create_simple_connected_grid width height q d2) = true := by
  have hfb := create_simple_connected_grid_connected width height q d2
    (by omega) (by omega)
  refine ⟨?_, hfb⟩
  unfold create_random_obstacles_grid
  dsimp only
  rw [if_neg (by omega)]
  set G1 := randomLoop
    (get_protected_positions (Grid.new width height ⟨0, 0⟩ ⟨height - 1, width - 1⟩))
    (random_obstacle_target width height q) (width * height * 3) d1
    (Grid.new width height ⟨0, 0⟩ ⟨height - 1, width - 1⟩) 0 0 with hG1
  by_cases hc : is_grid_connected G1 = true
  · rw [if_neg (by simpa using hc)]
    exact hc
  · rw [if_pos (by simpa using hc)]
    exact hfb

/-- Witness for C1 at `width = height = 3`, `obstacle_percentage = 0`, empty
draw lists. -/
theorem create_random_obstacles_grid_connected_witness :
    (3 ≤ 3 ∧ (0 : ℚ) ≤ 0 ∧ (0 : ℚ) ≤ 4 / 5) ∧
      (is_grid_connected (create_random_obstacles_grid 3 3 0 [] []) = true ∧
        is_grid_connected (create_simple_connected_grid 3 3 0 []) = true) :=
  ⟨⟨le_refl 3, le_refl 0, by norm_num⟩,
    create_random_obstacles_grid_connected 3 3 0 [] [] (le_refl 3) (le_refl 3)
      (le_refl 0) (by norm_num)⟩

/-! ## C8: characterization of `benchmark_algorithm` -/

/-- The metrics row predicted for a successful (algorithm, grid) pair:
duration averaged over the successful trials, raw (non-averaged) counter
values and path taken from the last successful trial. -/
def specMetricsRow (name : String) (g : Grid) (iterations : Nat)
    (ds : List Nat) (pr : List Position × PerformanceCounter) :
    PathfindingMetrics :=
  { algorithm_name := name,
    path_found := !pr.1.isEmpty,
    path_length := pr.1.length,
    nodes_explored := pr.2.nodes_explored,
    nodes_in_frontier := pr.2.nodes_in_frontier,
    duration := (ds.take iterations).sum / iterations,
    theoretical_complexity := get_theoretical_complexity name,
    grid_size := (g.width, g.height),
    obstacle_count := countObstacles g,
    path := pr.1 }

theorem trialLoop_run (name : String) (g : Grid)
    (pr : List Position × PerformanceCounter)
    (hrun : runByName name g = some (Except.ok pr)) :
    ∀ (n : Nat) (ds : List Nat) (total succ : Nat)
      (last : Option (List Position × PerformanceCounter)),
      trialLoop name g n ds total succ last =
        some (Except.ok
          (total + (ds.take n).sum,
           if pr.1.isEmpty then succ else succ + n,
           if pr.1.isEmpty ∨ n = 0 then last else some pr)) := by
  intro n
  induction n with
  | zero =>
    intro ds total succ last
    simp [trialLoop]
  | succ n ih =>
    intro ds total succ last
    rw [trialLoop, hrun]
    dsimp only
    by_cases he : pr.1.isEmpty
    · rw [if_pos he, ih]
      cases ds with
      | nil => simp [he]
      | cons d rest => simp [he, Nat.add_assoc]
    · rw [if_neg he, ih]
      have e2 : (if pr.1.isEmpty = true ∨ n = 0 then some pr else some pr) = some pr := by
        split_ifs <;> rfl
      have e4 : (if pr.1.isEmpty = true ∨ n + 1 = 0 then last else some pr) = some pr := by
        rw [if_neg]
        rintro (h | h)
        · exact he h
        · omega
      rw [e2, e4, if_neg he, if_neg he]
      cases ds with
      | nil =>
        simp only [List.headD_nil, List.tail_nil, List.take_nil, List.sum_nil,
          Option.some.injEq, Except.ok.injEq, Prod.mk.injEq]
        exact ⟨by omega, by omega, trivial⟩
      | cons d rest =>
        simp only [List.headD_cons, List.tail_cons, List.take_succ_cons,
          List.sum_cons, Option.some.injEq, Except.ok.injEq, Prod.mk.injEq]
        exact ⟨by omega, by omega, trivial⟩

/-- C8.  For every algorithm name the dispatch accepts, every grid, every
iteration count and every sequence of per-trial wall-clock durations: if the
algorithm's path is empty (or there are no iterations) then zero trials are
retained as successful, no metrics row is emitted for the pair and no error
is raised; otherwise every trial is successful (`successful_runs =
iterations`), and the emitted row carries the duration averaged over those
successful trials, the raw non-averaged counters and the path of the last
successful trial. -/
theorem benchmark_algorithm_characterization (name : String) (g : Grid)
    (iterations : Nat) (ds : List Nat)
    (pr : List Position × PerformanceCounter)
    (hrun : runByName name g = some (Except.ok pr)) :
    (pr.1.isEmpty = true ∨ iterations = 0 →
      benchmark_algorithm name [g] iterations [ds] = some (Except.ok [])) ∧
    (pr.1.isEmpty = false → 0 < iterations →
      trialLoop name g iterations ds 0 0 none =
        some (Except.ok ((ds.take iterations).sum, iterations, some pr)) ∧
      benchmark_algorithm name [g] iterations [ds] =
        some (Except.ok [specMetricsRow name g iterations ds pr])) := by
  obtain ⟨path, counter⟩ := pr
  have htl := trialLoop_run name g (path, counter) hrun iterations ds 0 0 none
  constructor
  · intro hcase
    have hsucc : (if (path, counter).1.isEmpty = true then 0 else 0 + iterations) = 0 := by
      rcases hcase with h | h
      · rw [if_pos h]
      · split_ifs <;> omega
    have hbg : benchGrid name g iterations ds = some (Except.ok none) := by
      unfold benchGrid
      rw [htl]
      dsimp only
      rw [hsucc, if_neg (Nat.lt_irrefl 0)]
    unfold benchmark_algorithm
    simp only [List.zip_cons_cons, List.zip_nil_right]
    rw [benchLoop, hbg]
    dsimp only
    rw [benchLoop]
  · intro hemp hit
    have h1 : (if (path, counter).1.isEmpty = true then 0 else 0 + iterations) =
        iterations := by
      rw [hemp]
      simp
    have h2 : (if (path, counter).1.isEmpty = true ∨ iterations = 0
        then none else some (path, counter)) = some (path, counter) := by
      rw [if_neg]
      rintro (h | h)
      · rw [hemp] at h
        exact Bool.noConfusion h
      · omega
    refine ⟨by rw [htl, h1, h2, Nat.zero_add], ?_⟩
    have hbg : benchGrid name g iterations ds =
        some (Except.ok (some (specMetricsRow name g iterations ds (path, counter)))) := by
      unfold benchGrid
      rw [htl]
      dsimp only
      rw [h1, h2, if_pos hit]
      dsimp only
      unfold specMetricsRow
      dsimp only
      rw [Nat.zero_add]
    unfold benchmark_algorithm
    simp only [List.zip_cons_cons, List.zip_nil_right]
    rw [benchLoop, hbg]
    dsimp only
    rw [benchLoop]

/-- The result of BFS on the empty 3×3 grid, as benchmarked. -/
def bfs3x3run : List Position × PerformanceCounter :=
  (breadth_first.find_path grid3x3).getD ([], PerformanceCounter.new)

/-- Witness for C8: BFS on the empty 3×3 grid with one iteration and an
empty duration list. -/
theorem benchmark_algorithm_characterization_witness :
    runByName "Breadth-First Search" grid3x3 = some (Except.ok bfs3x3run) ∧
      ((bfs3x3run.1.isEmpty = true ∨ 1 = 0 →
        benchmark_algorithm "Breadth-First Search" [grid3x3] 1 [[]] =
          some (Except.ok [])) ∧
      (bfs3x3run.1.isEmpty = false → 0 < 1 →
        trialLoop "Breadth-First Search" grid3x3 1 [] 0 0 none =
          some (Except.ok ((([] : List Nat).take 1).sum, 1, some bfs3x3run)) ∧
        benchmark_algorithm "Breadth-First Search" [grid3x3] 1 [[]] =
          some (Except.ok
            [specMetricsRow "Breadth-First Search" grid3x3 1 [] bfs3x3run]))) :=
  ⟨rfl,
    benchmark_algorithm_characterization "Breadth-First Search" grid3x3 1 []
      bfs3x3run rfl⟩

/-- Witness for C7's amended theorem at `width = height = 3`,
`obstacle_percentage = 1/2`. -/
theorem random_obstacle_target_fp_trunc_witness :
    ((0 : ℚ) ≤ 1 / 2 ∧ 3 * 3 < 2 ^ 53 ∧ ((3 * 3 : Nat) : ℚ) * (1 / 2) ≤ 2 ^ 52) ∧
      (random_obstacle_target 3 3 (1 / 2) =
          (⌊roundF64 (((3 * 3 : Nat) : ℚ) * (1 / 2))⌋).toNat ∧
        ((⌊((3 * 3 : Nat) : ℚ) * (1 / 2)⌋ - 1).toNat ≤
            random_obstacle_target 3 3 (1 / 2) ∧
          random_obstacle_target 3 3 (1 / 2) ≤
            (⌊((3 * 3 : Nat) : ℚ) * (1 / 2)⌋ + 1).toNat)) :=
  ⟨⟨by norm_num, by norm_num, by norm_num⟩,
    random_obstacle_target_fp_trunc 3 3 (1 / 2) (by norm_num) (by norm_num)
      (by norm_num)⟩

/-! ## Shortest-path distance theory over `adjStep` -/

/-- A walk of the neighbour relation from `a` to `b` with `m` edges. -/
def pathBetween (g : Grid) (a b : Position) (m : Nat) : Prop :=
  ∃ l : List Position, l.head? = some a ∧ List.Chain' (adjStep g) l ∧
    l.getLast? = some b ∧ l.length = m + 1

/-- A walk from the start node to `p`. -/
def walkTo (g : Grid) (p : Position) (l : List Position) : Prop :=
  l.head? = some g.start ∧ List.Chain' (adjStep g) l ∧ l.getLast? = some p

/-- `k` is the exact shortest-walk edge count from `start` to `p`. -/
def distIs (g : Grid) (p : Position) (k : Nat) : Prop :=
  (∃ l, walkTo g p l ∧ l.length = k + 1) ∧
    ∀ l, walkTo g p l → k + 1 ≤ l.length

theorem head?_append_left {α : Type} {l : List α} (l' : List α) (h : l ≠ []) :
    (l ++ l').head? = l.head? := by
  cases l with
  | nil => exact absurd rfl h
  | cons a t => rfl

theorem walkTo_ne_nil {g : Grid} {p : Position} {l : List Position}
    (h : walkTo g p l) : l ≠ [] := by
  intro hnil
  rw [hnil] at h
  exact Option.noConfusion h.1

theorem distIs_unique {g : Grid} {p : Position} {k k' : Nat}
    (h : distIs g p k) (h' : distIs g p k') : k = k' := by
  obtain ⟨⟨l, hw, hl⟩, hmin⟩ := h
  obtain ⟨⟨l', hw', hl'⟩, hmin'⟩ := h'
  have h1 := hmin l' hw'
  have h2 := hmin' l hw
  omega

theorem distIs_exists_of_reach {g : Grid} {p : Position}
    (h : ∃ l, walkTo g p l) : ∃ k, distIs g p k := by
  classical
  obtain ⟨l0, hl0⟩ := h
  have hex : ∃ n, ∃ l, walkTo g p l ∧ l.length = n := ⟨l0.length, l0, hl0, rfl⟩
  obtain ⟨l, hw, hlen⟩ := Nat.find_spec hex
  have hpos : 1 ≤ Nat.find hex := by
    rw [← hlen]
    cases l with
    | nil => exact absurd rfl (walkTo_ne_nil hw)
    | cons a t => simp
  refine ⟨Nat.find hex - 1, ⟨⟨l, hw, by omega⟩, ?_⟩⟩
  intro l' hw'
  have := Nat.find_min' hex ⟨l', hw', rfl⟩
  omega

theorem walkTo_start (g : Grid) : walkTo g g.start [g.start] :=
  ⟨rfl, List.chain'_singleton _, rfl⟩

theorem distIs_start (g : Grid) : distIs g g.start 0 := by
  refine ⟨⟨[g.start], walkTo_start g, rfl⟩, ?_⟩
  intro l hw
  cases l with
  | nil => exact absurd rfl (walkTo_ne_nil hw)
  | cons a t => simp

theorem distIs_zero_eq_start {g : Grid} {p : Position}
    (h : distIs g p 0) : p = g.start := by
  obtain ⟨⟨l, ⟨hh, _, hl⟩, hlen⟩, _⟩ := h
  match l, hlen with
  | [x], _ =>
    have h1 : x = g.start := by simpa using hh
    have h2 : x = p := by simpa using hl
    rw [← h2, h1]

theorem walkTo_snoc {g : Grid} {a b : Position} {l : List Position}
    (h : walkTo g a l) (hab : adjStep g a b) : walkTo g b (l ++ [b]) := by
  obtain ⟨hh, hc, hl⟩ := h
  refine ⟨by rw [head?_append_left _ (walkTo_ne_nil ⟨hh, hc, hl⟩)]; exact hh, ?_,
    List.getLast?_concat _⟩
  rw [List.chain'_append]
  refine ⟨hc, List.chain'_singleton _, ?_⟩
  intro x hx y hy
  rw [hl] at hx
  cases hx
  cases hy
  exact hab

theorem distIs_le_succ {g : Grid} {a b : Position} {ka : Nat}
    (h : distIs g a ka) (hab : adjStep g a b) :
    ∃ kb, distIs g b kb ∧ kb ≤ ka + 1 := by
  obtain ⟨⟨l, hw, hlen⟩, _⟩ := h
  have hwb := walkTo_snoc hw hab
  obtain ⟨kb, hkb⟩ := distIs_exists_of_reach ⟨l ++ [b], hwb⟩
  refine ⟨kb, hkb, ?_⟩
  have := hkb.2 (l ++ [b]) hwb
  rw [List.length_append] at this
  simp only [List.length_singleton] at this
  omega

theorem distIs_adj_le {g : Grid} {a b : Position} {ka kb : Nat}
    (ha : distIs g a ka) (hb : distIs g b kb) (hab : adjStep g a b) :
    kb ≤ ka + 1 := by
  obtain ⟨kb', h1, h2⟩ := distIs_le_succ ha hab
  rw [distIs_unique hb h1]
  exact h2

theorem distIs_pred {g : Grid} {b : Position} {kb : Nat}
    (h : distIs g b (kb + 1)) : ∃ a, adjStep g a b ∧ distIs g a kb := by
  obtain ⟨⟨l, ⟨hh, hc, hl⟩, hlen⟩, hmin⟩ := h
  have hne : l ≠ [] := walkTo_ne_nil ⟨hh, hc, hl⟩
  have hsplit : l.dropLast ++ [l.getLast hne] = l := List.dropLast_append_getLast hne
  have hlast : l.getLast hne = b := by
    have h2 := (List.getLast?_eq_getLast l hne).symm.trans hl
    exact Option.some.inj h2
  have hdne : l.dropLast ≠ [] := by
    intro hd
    have : l.length = 1 := by
      rw [← hsplit, hd]
      rfl
    omega
  have hadne : l.dropLast.getLast hdne = l.dropLast.getLast hdne := rfl
  set a := l.dropLast.getLast hdne with ha
  have hchain2 : List.Chain' (adjStep g) (l.dropLast ++ [b]) := by
    rw [← hlast, hsplit]
    exact hc
  rw [List.chain'_append] at hchain2
  obtain ⟨hcd, _, hcon⟩ := hchain2
  have hab : adjStep g a b := by
    refine hcon a ?_ b rfl
    rw [List.getLast?_eq_getLast _ hdne]
    rfl
  have hwa : walkTo g a l.dropLast := by
    refine ⟨?_, hcd, List.getLast?_eq_getLast _ hdne⟩
    rw [← head?_append_left [l.getLast hne] hdne, hsplit]
    exact hh
  have hdl : l.dropLast.length = kb + 1 := by
    have := List.length_dropLast l
    omega
  obtain ⟨j, hj⟩ := distIs_exists_of_reach ⟨l.dropLast, hwa⟩
  have hjle : j ≤ kb := by
    have := hj.2 _ hwa
    omega
  have hjge : kb ≤ j := by
    obtain ⟨⟨la, hwla, hlenla⟩, _⟩ := hj
    have hwb := walkTo_snoc hwla hab
    have := hmin _ hwb
    rw [List.length_append] at this
    simp only [List.length_singleton] at this
    omega
  have : j = kb := by omega
  exact ⟨a, hab, this ▸ hj⟩

theorem pathBetween_self (g : Grid) (a : Position) : pathBetween g a a 0 :=
  ⟨[a], rfl, List.chain'_singleton _, rfl, rfl⟩

theorem pathBetween_cons {g : Grid} {a b : Position} {m : Nat}
    (h : pathBetween g a b (m + 1)) :
    ∃ z, adjStep g a z ∧ pathBetween g z b m := by
  obtain ⟨l, hh, hc, hl, hlen⟩ := h
  match l, hlen with
  | x :: y :: t, hlen =>
    have hx : x = a := by simpa using hh
    rw [List.chain'_cons] at hc
    refine ⟨y, hx ▸ hc.1, ⟨y :: t, rfl, hc.2, ?_, by simpa using hlen⟩⟩
    rw [← hl]
    rfl

theorem pathBetween_snoc {g : Grid} {a b c : Position} {m : Nat}
    (h : pathBetween g a b m) (hbc : adjStep g b c) :
    pathBetween g a c (m + 1) := by
  obtain ⟨l, hh, hc, hl, hlen⟩ := h
  refine ⟨l ++ [c], ?_, ?_, List.getLast?_concat _, by simp [hlen]⟩
  · rw [head?_append_left _ (by intro hx; rw [hx] at hlen; simp at hlen)]
    exact hh
  · rw [List.chain'_append]
    refine ⟨hc, List.chain'_singleton _, ?_⟩
    intro x hx y hy
    rw [hl] at hx
    cases hx
    cases hy
    exact hbc

theorem distIs_of_walk_min {g : Grid} {p : Position} {k : Nat}
    (h : pathBetween g g.start p k)
    (hmin : ∀ m, pathBetween g g.start p m → k ≤ m) : distIs g p k := by
  obtain ⟨l, hh, hc, hl, hlen⟩ := h
  refine ⟨⟨l, ⟨hh, hc, hl⟩, hlen⟩, ?_⟩
  intro l' hw'
  have hne := walkTo_ne_nil hw'
  have : pathBetween g g.start p (l'.length - 1) := by
    refine ⟨l', hw'.1, hw'.2.1, hw'.2.2, ?_⟩
    cases l' with
    | nil => exact absurd rfl hne
    | cons a t => simp
  have h2 := hmin _ this
  have h3 : 0 < l'.length := List.length_pos.mpr hne
  omega

theorem pathBetween_of_distIs {g : Grid} {p : Position} {k : Nat}
    (h : distIs g p k) : pathBetween g g.start p k := by
  obtain ⟨⟨l, hw, hlen⟩, _⟩ := h
  exact ⟨l, hw.1, hw.2.1, hw.2.2, hlen⟩

theorem distIs_le_pathBetween {g : Grid} {p : Position} {k m : Nat}
    (h : distIs g p k) (hp : pathBetween g g.start p m) : k ≤ m := by
  obtain ⟨l, hh, hc, hl, hlen⟩ := hp
  have := h.2 l ⟨hh, hc, hl⟩
  omega

/-- A tight shortest path to a node at distance `k`: a sequence of nodes
`x 0 = start, …, x k = e`, each consecutive pair a legal move, with
`x i` at distance exactly `i`. -/
theorem exists_tight_path {g : Grid} {e : Position} {k : Nat}
    (h : distIs g e k) :
    ∃ x : Nat → Position, x 0 = g.start ∧ x k = e ∧
      (∀ i, i < k → adjStep g (x i) (x (i + 1))) ∧
      (∀ i, i ≤ k → distIs g (x i) i) := by
  induction k generalizing e with
  | zero =>
    refine ⟨fun _ => g.start, rfl, (distIs_zero_eq_start h).symm, ?_, ?_⟩
    · intro i hi
      exact absurd hi (by omega)
    · intro i hi
      have : i = 0 := by omega
      rw [this]
      exact distIs_start g
  | succ k ih =>
    obtain ⟨a, hab, hda⟩ := distIs_pred h
    obtain ⟨x, hx0, hxk, hstep, hdist⟩ := ih hda
    refine ⟨fun i => if i ≤ k then x i else e, by simp [hx0], by simp, ?_, ?_⟩
    · intro i hi
      dsimp only
      by_cases hik : i < k
      · rw [if_pos (by omega), if_pos (by omega)]
        exact hstep i hik
      · have : i = k := by omega
        subst this
        rw [if_pos (le_refl _), if_neg (by omega)]
        exact hxk ▸ hab
    · intro i hi
      dsimp only
      by_cases hik : i ≤ k
      · rw [if_pos hik]
        exact hdist i hik
      · have : i = k + 1 := by omega
        subst this
        rw [if_neg (by omega)]
        exact h

theorem pathBetween_prepend {g : Grid} {a z b : Position} {m : Nat}
    (haz : adjStep g a z) (h : pathBetween g z b m) :
    pathBetween g a b (m + 1) := by
  obtain ⟨l, hh, hc, hl, hlen⟩ := h
  cases l with
  | nil => simp at hlen
  | cons w t =>
    have hw : w = z := by simpa using hh
    refine ⟨a :: w :: t, rfl, ?_, ?_, by simpa using hlen⟩
    · rw [List.chain'_cons]
      exact ⟨hw ▸ haz, hc⟩
    · rw [← hl]
      rfl

/-- The tail of a tight path: from `x i` there is a walk of `k - i` edges
to the endpoint. -/
theorem tight_path_tail {g : Grid} {k : Nat} {x : Nat → Position}
    (hstep : ∀ i, i < k → adjStep g (x i) (x (i + 1))) :
    ∀ d i, i + d = k → pathBetween g (x i) (x k) d := by
  intro d
  induction d with
  | zero =>
    intro i hi
    have : i = k := by omega
    rw [this]
    exact pathBetween_self g _
  | succ d ih =>
    intro i hi
    exact pathBetween_prepend (hstep i (by omega)) (ih (i + 1) (by omega))

/-- The Manhattan heuristic of `astar.rs` is admissible: it never exceeds
the edge count of any walk. -/
theorem heuristic_le_pathBetween {g : Grid} :
    ∀ {m : Nat} {a b : Position}, pathBetween g a b m → astar.heuristic a b ≤ m := by
  intro m
  induction m with
  | zero =>
    intro a b h
    obtain ⟨l, hh, _, hl, hlen⟩ := h
    match l, hlen with
    | [w], _ =>
      have h1 : w = a := by simpa using hh
      have h2 : w = b := by simpa using hl
      subst h1
      rw [← h2]
      unfold astar.heuristic
      omega
  | succ m ih =>
    intro a b h
    obtain ⟨z, haz, hz⟩ := pathBetween_cons h
    have h1 : a.manhattan_distance_to z = 1 := (mem_get_neighbors haz).2.2.2
    have h2 := ih hz
    unfold astar.heuristic at h2 ⊢
    unfold Position.manhattan_distance_to at h1
    omega

/-! ## `extractMin` as a heap pop: minimality and permutation -/

theorem extractMin_cons_isSome {α : Type} (f : α → Nat) (a : α) (l : List α) :
    ∃ b rest, extractMin f (a :: l) = some (b, rest) := by
  rw [extractMin]
  match h : extractMin f l with
  | none => exact ⟨a, [], rfl⟩
  | some (c, rem) =>
    dsimp only
    split_ifs
    · exact ⟨a, l, rfl⟩
    · exact ⟨c, a :: rem, rfl⟩

theorem extractMin_eq_none {α : Type} {f : α → Nat} {l : List α}
    (h : extractMin f l = none) : l = [] := by
  cases l with
  | nil => rfl
  | cons a t =>
    obtain ⟨b, rest, hb⟩ := extractMin_cons_isSome f a t
    rw [hb] at h
    cases h

theorem extractMin_perm {α : Type} (f : α → Nat) :
    ∀ (l : List α) (a : α) (rest : List α), extractMin f l = some (a, rest) →
      l.Perm (a :: rest) := by
  intro l
  induction l with
  | nil => intro a rest h; cases h
  | cons b tail ih =>
    intro a rest h
    rw [extractMin] at h
    match he : extractMin f tail with
    | none =>
      rw [he] at h
      cases h
      rw [extractMin_eq_none he]
    | some (c, rem) =>
      rw [he] at h
      dsimp only at h
      split_ifs at h
      · simp only [Option.some.injEq, Prod.mk.injEq] at h
        obtain ⟨h1, h2⟩ := h
        subst h1
        subst h2
        exact List.Perm.refl _
      · simp only [Option.some.injEq, Prod.mk.injEq] at h
        obtain ⟨h1, h2⟩ := h
        subst h1
        subst h2
        exact ((ih c rem he).cons b).trans (List.Perm.swap c b rem)

theorem extractMin_min {α : Type} (f : α → Nat) :
    ∀ (l : List α) (a : α) (rest : List α), extractMin f l = some (a, rest) →
      ∀ x ∈ l, f a ≤ f x := by
  intro l
  induction l with
  | nil => intro a rest h; cases h
  | cons b tail ih =>
    intro a rest h x hx
    rw [extractMin] at h
    match he : extractMin f tail with
    | none =>
      rw [he] at h
      cases h
      rcases List.mem_cons.mp hx with hx | hx
      · rw [hx]
      · rw [extractMin_eq_none he] at hx
        cases hx
    | some (c, rem) =>
      rw [he] at h
      dsimp only at h
      split_ifs at h with hf
      · simp only [Option.some.injEq, Prod.mk.injEq] at h
        obtain ⟨h1, h2⟩ := h
        subst h1
        subst h2
        rcases List.mem_cons.mp hx with hx | hx
        · rw [hx]
        · exact le_trans hf (ih c rem he x hx)
      · simp only [Option.some.injEq, Prod.mk.injEq] at h
        obtain ⟨h1, h2⟩ := h
        subst h1
        subst h2
        rcases List.mem_cons.mp hx with hx | hx
        · rw [hx]
          omega
        · exact ih c rem he x hx

theorem extractMin_mem_rest {α : Type} {f : α → Nat} {l : List α} {a : α}
    {rest : List α} (h : extractMin f l = some (a, rest)) {x : α}
    (hx : x ∈ l) (hne : x ≠ a) : x ∈ rest := by
  have hp := (extractMin_perm f l a rest h).mem_iff.mp hx
  rcases List.mem_cons.mp hp with hp | hp
  · exact absurd hp hne
  · exact hp

theorem extractMin_length {α : Type} {f : α → Nat} {l : List α} {a : α}
    {rest : List α} (h : extractMin f l = some (a, rest)) :
    l.length = rest.length + 1 := by
  have := (extractMin_perm f l a rest h).length_eq
  simpa using this

/-! ## The BFS neighbour fold -/

theorem contains_iff_mem {l : List Position} {x : Position} :
    l.contains x = true ↔ x ∈ l := by
  simp

/-- Full characterization of one BFS expansion: the discoveries `disc` are
appended to the queue, consed onto the visited set and the parent map, are
exactly the previously-unvisited neighbours processed, and every processed
neighbour ends up visited. -/
theorem bfs_fold_spec (cur : Position) :
    ∀ (nbs : List Position) (s : breadth_first.BfsState),
      ∃ disc : List Position,
        (List.foldl (breadth_first.bfsStep cur) s nbs).queue = s.queue ++ disc ∧
        (List.foldl (breadth_first.bfsStep cur) s nbs).visited =
          disc.reverse ++ s.visited ∧
        (List.foldl (breadth_first.bfsStep cur) s nbs).came_from =
          (disc.map (fun q => (q, cur))).reverse ++ s.came_from ∧
        disc.Nodup ∧
        (∀ q ∈ disc, q ∈ nbs ∧ q ∉ s.visited) ∧
        (∀ nb ∈ nbs, nb ∈ (List.foldl (breadth_first.bfsStep cur) s nbs).visited) := by
  intro nbs
  induction nbs with
  | nil =>
    intro s
    exact ⟨[], by simp, by simp, by simp, List.nodup_nil, by simp, by simp⟩
  | cons nb rest ih =>
    intro s
    rw [List.foldl_cons]
    by_cases hv : s.visited.contains nb
    · have hstep : breadth_first.bfsStep cur s nb =
          { s with counter := s.counter.compare } := by
        unfold breadth_first.bfsStep
        rw [if_pos hv]
      rw [hstep]
      obtain ⟨disc, h1, h2, h3, h4, h5, h6⟩ := ih { s with counter := s.counter.compare }
      refine ⟨disc, h1, h2, h3, h4, ?_, ?_⟩
      · intro q hq
        obtain ⟨hq1, hq2⟩ := h5 q hq
        exact ⟨List.mem_cons_of_mem _ hq1, hq2⟩
      · intro x hx
        rcases List.mem_cons.mp hx with hx | hx
        · subst hx
          rw [h2]
          exact List.mem_append_right _ (contains_iff_mem.mp hv)
        · exact h6 x hx
    · have hstep : breadth_first.bfsStep cur s nb =
          { queue := s.queue ++ [nb], visited := nb :: s.visited,
            came_from := (nb, cur) :: s.came_from,
            counter := (s.counter.compare.add_to_frontier).allocate_memory 1 } := by
        unfold breadth_first.bfsStep
        rw [if_neg hv]
      rw [hstep]
      obtain ⟨disc, h1, h2, h3, h4, h5, h6⟩ := ih
        { queue := s.queue ++ [nb], visited := nb :: s.visited,
          came_from := (nb, cur) :: s.came_from,
          counter := (s.counter.compare.add_to_frontier).allocate_memory 1 }
      have hnbnotin : nb ∉ s.visited := fun hmem => hv (contains_iff_mem.mpr hmem)
      refine ⟨nb :: disc, ?_, ?_, ?_, ?_, ?_, ?_⟩
      · rw [h1]
        dsimp only
        rw [List.append_assoc]
        rfl
      · rw [h2]
        dsimp only
        rw [List.reverse_cons, List.append_assoc]
        rfl
      · rw [h3]
        dsimp only
        rw [List.map_cons, List.reverse_cons, List.append_assoc]
        rfl
      · refine List.nodup_cons.mpr ⟨?_, h4⟩
        intro hnb
        exact (h5 nb hnb).2 (by dsimp only; exact List.mem_cons_self _ _)
      · intro q hq
        rcases List.mem_cons.mp hq with hq | hq
        · subst hq
          exact ⟨List.mem_cons_self _ _, hnbnotin⟩
        · obtain ⟨hq1, hq2⟩ := h5 q hq
          refine ⟨List.mem_cons_of_mem _ hq1, ?_⟩
          intro hmem
          exact hq2 (by dsimp only; exact List.mem_cons_of_mem _ hmem)
      · intro x hx
        rcases List.mem_cons.mp hx with hx | hx
        · subst hx
          rw [h2]
          refine List.mem_append_right _ ?_
          dsimp only
          exact List.mem_cons_self _ _
        · exact h6 x hx

/-! ## Association-list lookup under appends -/

theorem alookup_cons_ne {e : Position × Position} {cf : List (Position × Position)}
    {x : Position} (h : e.1 ≠ x) : alookup (e :: cf) x = alookup cf x := by
  unfold alookup
  rw [List.find?_cons_of_neg]
  simp [h]

theorem alookup_cons_eq {e : Position × Position} {cf : List (Position × Position)}
    {x : Position} (h : e.1 = x) : alookup (e :: cf) x = some e.2 := by
  unfold alookup
  rw [List.find?_cons_of_pos]
  · rfl
  · simp [h]

theorem alookup_append_of_not_key {es : List (Position × Position)}
    (cf : List (Position × Position)) (x : Position)
    (h : x ∉ es.map Prod.fst) : alookup (es ++ cf) x = alookup cf x := by
  induction es with
  | nil => rfl
  | cons e rest ih =>
    rw [List.cons_append, alookup_cons_ne, ih]
    · intro hx
      exact h (by simp [hx])
    · intro he
      exact h (by simp [he])

theorem alookup_const_pairs {l : List Position} (cur x : Position)
    (cf : List (Position × Position)) (hx : x ∈ l) :
    alookup ((l.map (fun q => (q, cur))) ++ cf) x = some cur := by
  induction l with
  | nil => cases hx
  | cons a t ih =>
    rw [List.map_cons, List.cons_append]
    by_cases hax : a = x
    · rw [alookup_cons_eq hax]
    · rw [alookup_cons_ne hax]
      rcases List.mem_cons.mp hx with hx | hx
      · exact absurd hx.symm hax
      · exact ih hx

/-! ## The BFS loop invariant for shortest distances -/

/-- The level invariant of the BFS loop at level `d`: the queue splits into a
level-`d` part followed by a level-`d+1` part; every node at distance `≤ d`
is discovered; every discovered node's parent-map entry realises its exact
distance; undiscovered level-`d+1` nodes have a level-`d` queue witness. -/
structure BfsInv (g : Grid) (st : breadth_first.BfsState) (d : Nat) : Prop where
  qsplit : ∃ qa qb, st.queue = qa ++ qb ∧ (∀ p ∈ qa, distIs g p d) ∧
    (∀ p ∈ qb, distIs g p (d + 1))
  qsub : ∀ p ∈ st.queue, p ∈ st.visited
  vis_start : g.start ∈ st.visited
  vis_reach : ∀ v ∈ st.visited, ∃ j, distIs g v j ∧ j ≤ d + 1
  closed : ∀ p j, distIs g p j → j ≤ d → p ∈ st.visited
  frontier : ∀ p, distIs g p (d + 1) → p ∉ st.visited →
    ∃ x, distIs g x d ∧ x ∈ st.queue ∧ p ∈ get_neighbors g x
  lvl_queue : ∀ v ∈ st.visited, distIs g v (d + 1) → v ∈ st.queue
  end_queue : g.endP ∈ st.visited → g.endP ∈ st.queue
  cf_par : ∀ v ∈ st.visited, v ≠ g.start → ∃ p j, alookup st.came_from v = some p ∧
    p ∈ st.visited ∧ v ∈ get_neighbors g p ∧ distIs g v (j + 1) ∧ distIs g p j
  start_nopar : alookup st.came_from g.start = none
  keys_vis : ∀ x ∈ st.came_from.map Prod.fst, x ∈ st.visited
  vis_nodup : st.visited.Nodup
  vis_ok : ∀ v ∈ st.visited, v = g.start ∨ (v.row < g.height ∧ v.col < g.width)

theorem distIs_pos_ne_start {g : Grid} {v : Position} {j : Nat}
    (h : distIs g v (j + 1)) : v ≠ g.start := by
  intro hv
  have h0 : distIs g v 0 := hv ▸ distIs_start g
  have := distIs_unique h h0
  omega

/-- Ancestor chains: a discovered node at distance `j` contributes `j`
pairwise-distinct keys to the parent map. -/
theorem bfs_anc {g : Grid} {st : breadth_first.BfsState} {d : Nat}
    (inv : BfsInv g st d) :
    ∀ (j : Nat) (v : Position), v ∈ st.visited → distIs g v j →
      ∃ anc : List Position, anc.length = j ∧ anc.Nodup ∧
        (∀ x ∈ anc, x ∈ st.came_from.map Prod.fst) ∧
        (∀ x ∈ anc, ∃ jx, distIs g x jx ∧ 1 ≤ jx ∧ jx ≤ j) := by
  intro j
  induction j with
  | zero =>
    intro v _ _
    exact ⟨[], rfl, List.nodup_nil, by simp, by simp⟩
  | succ j ih =>
    intro v hv hdv
    obtain ⟨p, j', hlk, hpv, _, hdv', hdp⟩ := inv.cf_par v hv (distIs_pos_ne_start hdv)
    have hj' : j' = j := by
      have := distIs_unique hdv hdv'
      omega
    rw [hj'] at hdp
    obtain ⟨anc, h1, h2, h3, h4⟩ := ih p hpv hdp
    have hvkey : v ∈ st.came_from.map Prod.fst := by
      have := alookup_mem hlk
      exact List.mem_map.mpr ⟨(v, p), this, rfl⟩
    refine ⟨v :: anc, by simp [h1], ?_, ?_, ?_⟩
    · refine List.nodup_cons.mpr ⟨?_, h2⟩
      intro hva
      obtain ⟨jx, hjx, hjx1, hjx2⟩ := h4 v hva
      have := distIs_unique hdv hjx
      omega
    · intro x hx
      rcases List.mem_cons.mp hx with hx | hx
      · exact hx ▸ hvkey
      · exact h3 x hx
    · intro x hx
      rcases List.mem_cons.mp hx with hx | hx
      · exact ⟨j + 1, hx ▸ hdv, by omega, le_refl _⟩
      · obtain ⟨jx, hjx, hjx1, hjx2⟩ := h4 x hx
        exact ⟨jx, hjx, hjx1, by omega⟩

/-- Under the invariant, walking the parent map from a discovered node at
distance `j` succeeds and produces exactly `j + 1` nodes before the
accumulator. -/
theorem bfs_reconstruct_exact {g : Grid} {st : breadth_first.BfsState} {d : Nat}
    (inv : BfsInv g st d) :
    ∀ (j : Nat) (v : Position) (acc : List Position) (fuel : Nat),
      v ∈ st.visited → distIs g v j → j < fuel →
      ∃ path, reconstructAux st.came_from fuel v acc = some path ∧
        path.length = j + 1 + acc.length := by
  intro j
  induction j with
  | zero =>
    intro v acc fuel hv hdv hfuel
    have hv0 : v = g.start := distIs_zero_eq_start hdv
    match fuel, hfuel with
    | fuel + 1, _ =>
      rw [reconstructAux, hv0, inv.start_nopar]
      exact ⟨g.start :: acc, rfl, by simp only [List.length_cons]; omega⟩
  | succ j ih =>
    intro v acc fuel hv hdv hfuel
    obtain ⟨p, j', hlk, hpv, _, hdv', hdp⟩ := inv.cf_par v hv (distIs_pos_ne_start hdv)
    have hj' : j' = j := by
      have := distIs_unique hdv hdv'
      omega
    rw [hj'] at hdp
    match fuel, hfuel with
    | fuel + 1, hfuel =>
      rw [reconstructAux, hlk]
      obtain ⟨path, hpath, hlen⟩ := ih p (v :: acc) fuel hpv hdp (by omega)
      refine ⟨path, hpath, ?_⟩
      rw [hlen]
      simp only [List.length_cons]
      omega

/-- Relevel the invariant when the level-`d` part of the queue is empty. -/
theorem BfsInv.relevel {g : Grid} {st : breadth_first.BfsState} {d : Nat}
    (inv : BfsInv g st d) (hall : ∀ p ∈ st.queue, distIs g p (d + 1)) :
    BfsInv g st (d + 1) := by
  have closed' : ∀ p j, distIs g p j → j ≤ d + 1 → p ∈ st.visited := by
    intro p j hdp hj
    by_cases hje : j ≤ d
    · exact inv.closed p j hdp hje
    · have : j = d + 1 := by omega
      subst this
      by_contra hnv
      obtain ⟨x, hx1, hx2, _⟩ := inv.frontier p hdp hnv
      have := distIs_unique hx1 (hall x hx2)
      omega
  refine ⟨?_, inv.qsub, inv.vis_start, ?_, closed', ?_, ?_, inv.end_queue,
    inv.cf_par, inv.start_nopar, inv.keys_vis, inv.vis_nodup, inv.vis_ok⟩
  · exact ⟨st.queue, [], by simp, hall, by simp⟩
  · intro v hv
    obtain ⟨j, hj1, hj2⟩ := inv.vis_reach v hv
    exact ⟨j, hj1, by omega⟩
  · intro p hdp hnv
    obtain ⟨a, hadj, hda⟩ := distIs_pred hdp
    have hav : a ∈ st.visited := closed' a (d + 1) hda (le_refl _)
    have haq : a ∈ st.queue := inv.lvl_queue a hav hda
    exact ⟨a, hda, haq, hadj⟩
  · intro v hv hdv
    obtain ⟨j, hj1, hj2⟩ := inv.vis_reach v hv
    have := distIs_unique hdv hj1
    omega

/-- One full BFS iteration body preserves the invariant at the same level
when the popped node `cur` is at level `d` and is not the goal, and the
loop measure strictly decreases. -/
theorem bfs_expand_inv {g : Grid} {st : breadth_first.BfsState} {d : Nat}
    {cur : Position} {rest : List Position}
    (inv : BfsInv g st d) (hq : st.queue = cur :: rest)
    (hdcur : distIs g cur d) (hne : cur ≠ g.endP)
    (hqa : ∃ qa' qb, rest = qa' ++ qb ∧ (∀ p ∈ qa', distIs g p d) ∧
      (∀ p ∈ qb, distIs g p (d + 1))) :
    BfsInv g (List.foldl (breadth_first.bfsStep cur)
      { st with queue := rest, counter := st.counter.explore_node }
      (get_neighbors g cur)) d ∧
    ∃ pc, (List.foldl (breadth_first.bfsStep cur)
        { st with queue := rest, counter := st.counter.explore_node }
        (get_neighbors g cur)).queue.length = rest.length + pc ∧
      (List.foldl (breadth_first.bfsStep cur)
        { st with queue := rest, counter := st.counter.explore_node }
        (get_neighbors g cur)).visited.length = st.visited.length + pc ∧
      (List.foldl (breadth_first.bfsStep cur)
        { st with queue := rest, counter := st.counter.explore_node }
        (get_neighbors g cur)).visited.length ≤ g.width * g.height + 1 := by
  obtain ⟨disc, h1, h2, h3, h4, h5, h6⟩ := bfs_fold_spec cur (get_neighbors g cur)
    { st with queue := rest, counter := st.counter.explore_node }
  set stf := List.foldl (breadth_first.bfsStep cur)
    { st with queue := rest, counter := st.counter.explore_node }
    (get_neighbors g cur) with hstf
  have hq' : stf.queue = rest ++ disc := h1
  have hv' : stf.visited = disc.reverse ++ st.visited := h2
  have hcf' : stf.came_from = (disc.map (fun q => (q, cur))).reverse ++ st.came_from := h3
  have hcurvis : cur ∈ st.visited := inv.qsub cur (by rw [hq]; exact List.mem_cons_self _ _)
  have hdisc_nbs : ∀ q ∈ disc, q ∈ get_neighbors g cur := fun q hq2 => (h5 q hq2).1
  have hdisc_new : ∀ q ∈ disc, q ∉ st.visited := fun q hq2 => (h5 q hq2).2
  have hmemv : ∀ x, x ∈ stf.visited ↔ (x ∈ disc ∨ x ∈ st.visited) := by
    intro x
    rw [hv', List.mem_append, List.mem_reverse]
  have hdisc_lvl : ∀ q ∈ disc, distIs g q (d + 1) := by
    intro q hq2
    obtain ⟨jq, hjq, hjqle⟩ := distIs_le_succ hdcur (hdisc_nbs q hq2)
    by_cases hle : jq ≤ d
    · exact absurd (inv.closed q jq hjq hle) (hdisc_new q hq2)
    · have : jq = d + 1 := by omega
      exact this ▸ hjq
  have hkeys' : stf.came_from.map Prod.fst =
      disc.reverse ++ st.came_from.map Prod.fst := by
    rw [hcf', List.map_append, List.map_reverse, List.map_map]
    have hfn : (Prod.fst ∘ fun q : Position => (q, cur)) = id := rfl
    rw [hfn, List.map_id]
  have hlk_old : ∀ v, v ∉ disc → alookup stf.came_from v = alookup st.came_from v := by
    intro v hv
    rw [hcf']
    refine alookup_append_of_not_key _ _ ?_
    rw [List.map_reverse, List.map_map, List.mem_reverse]
    simpa using hv
  have hlk_new : ∀ q ∈ disc, alookup stf.came_from q = some cur := by
    intro q hq2
    rw [hcf', ← List.map_reverse]
    exact alookup_const_pairs cur q _ (List.mem_reverse.mpr hq2)
  have hnodup' : stf.visited.Nodup := by
    rw [hv', List.nodup_append]
    exact ⟨List.nodup_reverse.mpr h4, inv.vis_nodup,
      fun a ha => hdisc_new a (List.mem_reverse.mp ha)⟩
  have hok' : ∀ v ∈ stf.visited, v = g.start ∨ (v.row < g.height ∧ v.col < g.width) := by
    intro v hv
    rcases (hmemv v).mp hv with hv | hv
    · have := mem_get_neighbors (hdisc_nbs v hv)
      exact Or.inr ⟨this.2.1, this.2.2.1⟩
    · exact inv.vis_ok v hv
  obtain ⟨qa', qb, hrest, hqa', hqb⟩ := hqa
  refine ⟨⟨?_, ?_, ?_, ?_, ?_, ?_, ?_, ?_, ?_, ?_, ?_, hnodup', hok'⟩, ?_⟩
  · exact ⟨qa', qb ++ disc, by rw [hq', hrest, List.append_assoc], hqa',
      fun p hp => (List.mem_append.mp hp).elim (hqb p) (hdisc_lvl p)⟩
  · intro p hp
    rw [hq', List.mem_append] at hp
    rcases hp with hp | hp
    · exact (hmemv p).mpr (Or.inr (inv.qsub p (by rw [hq]; exact List.mem_cons_of_mem _ hp)))
    · exact (hmemv p).mpr (Or.inl hp)
  · exact (hmemv _).mpr (Or.inr inv.vis_start)
  · intro v hv
    rcases (hmemv v).mp hv with hv | hv
    · exact ⟨d + 1, hdisc_lvl v hv, le_refl _⟩
    · exact inv.vis_reach v hv
  · intro p j hdp hj
    exact (hmemv p).mpr (Or.inr (inv.closed p j hdp hj))
  · intro p hdp hnv
    have hnv_old : p ∉ st.visited := fun hmem => hnv ((hmemv p).mpr (Or.inr hmem))
    obtain ⟨x, hx1, hx2, hx3⟩ := inv.frontier p hdp hnv_old
    have hxcur : x ≠ cur := by
      intro hxc
      subst hxc
      exact hnv (h6 p hx3)
    have hxrest : x ∈ rest := by
      rw [hq] at hx2
      rcases List.mem_cons.mp hx2 with hx2 | hx2
      · exact absurd hx2 hxcur
      · exact hx2
    exact ⟨x, hx1, by rw [hq']; exact List.mem_append_left _ hxrest, hx3⟩
  · intro v hv hdv
    rcases (hmemv v).mp hv with hv | hv
    · rw [hq']
      exact List.mem_append_right _ hv
    · have hvq := inv.lvl_queue v hv hdv
      rw [hq] at hvq
      rcases List.mem_cons.mp hvq with hvq | hvq
      · subst hvq
        have := distIs_unique hdcur hdv
        omega
      · rw [hq']
        exact List.mem_append_left _ hvq
  · intro hv
    rcases (hmemv _).mp hv with hv | hv
    · rw [hq']
      exact List.mem_append_right _ hv
    · have hvq := inv.end_queue hv
      rw [hq] at hvq
      rcases List.mem_cons.mp hvq with hvq | hvq
      · exact absurd hvq.symm hne
      · rw [hq']
        exact List.mem_append_left _ hvq
  · intro v hv hvs
    rcases (hmemv v).mp hv with hv | hv
    · refine ⟨cur, d, hlk_new v hv, (hmemv cur).mpr (Or.inr hcurvis),
        hdisc_nbs v hv, hdisc_lvl v hv, hdcur⟩
    · obtain ⟨p, j, hp1, hp2, hp3, hp4, hp5⟩ := inv.cf_par v hv hvs
      have : v ∉ disc := fun hvd => hdisc_new v hvd hv
      exact ⟨p, j, (hlk_old v this).trans hp1, (hmemv p).mpr (Or.inr hp2), hp3, hp4, hp5⟩
  · have : g.start ∉ disc := fun hsd => hdisc_new _ hsd inv.vis_start
    rw [hlk_old _ this]
    exact inv.start_nopar
  · intro x hx
    rw [hkeys', List.mem_append, List.mem_reverse] at hx
    rcases hx with hx | hx
    · exact (hmemv x).mpr (Or.inl hx)
    · exact (hmemv x).mpr (Or.inr (inv.keys_vis x hx))
  · refine ⟨disc.length, ?_, ?_, ?_⟩
    · rw [hq', List.length_append]
    · rw [hv', List.length_append, List.length_reverse]
      omega
    · exact nodup_positions_length_le g stf.visited hnodup' hok'

theorem bfs_init_inv (g : Grid) :
    BfsInv g ⟨[g.start], [g.start], [],
      (PerformanceCounter.new.add_to_frontier).allocate_memory 1⟩ 0 := by
  refine ⟨?_, ?_, ?_, ?_, ?_, ?_, ?_, ?_, ?_, rfl, ?_, ?_, ?_⟩
  · refine ⟨[g.start], [], by simp, ?_, by simp⟩
    intro p hp
    rw [List.mem_singleton] at hp
    exact hp ▸ distIs_start g
  · exact fun p hp => hp
  · exact List.mem_singleton_self _
  · intro v hv
    rw [List.mem_singleton] at hv
    exact ⟨0, hv ▸ distIs_start g, by omega⟩
  · intro p j hdp hj
    have : j = 0 := by omega
    rw [this] at hdp
    rw [distIs_zero_eq_start hdp]
    exact List.mem_singleton_self _
  · intro p hdp hnv
    obtain ⟨a, hadj, hda⟩ := distIs_pred hdp
    have ha : a = g.start := distIs_zero_eq_start hda
    exact ⟨a, hda, by rw [ha]; exact List.mem_singleton_self _, hadj⟩
  · intro v hv hdv
    rw [List.mem_singleton] at hv
    have h0 : distIs g v 0 := hv ▸ distIs_start g
    have := distIs_unique hdv h0
    omega
  · exact fun hv => hv
  · intro v hv hvs
    rw [List.mem_singleton] at hv
    exact absurd hv hvs
  · intro x hx
    cases hx
  · exact List.nodup_singleton _
  · intro v hv
    rw [List.mem_singleton] at hv
    exact Or.inl hv

theorem bfsLoop_opt (g : Grid) (k : Nat) (hk : distIs g g.endP k) :
    ∀ (fuel : Nat) (st : breadth_first.BfsState) (d : Nat), BfsInv g st d →
      st.queue.length + (g.width * g.height + 1 - st.visited.length) < fuel →
      ∃ path counter, breadth_first.bfsLoop g fuel st = some (path, counter) ∧
        path.length = k + 1 := by
  intro fuel
  induction fuel with
  | zero =>
    intro st d _ hm
    omega
  | succ n ih =>
    intro st d inv hm
    match hq : st.queue with
    | [] =>
      exfalso
      by_cases hv : g.endP ∈ st.visited
      · exact absurd (hq ▸ inv.end_queue hv) (List.not_mem_nil _)
      · obtain ⟨x, hx0, hxk, hstep, hdist⟩ := exists_tight_path hk
        by_cases hkd : k ≤ d
        · exact hv (inv.closed _ k hk hkd)
        · have hxd : distIs g (x (d + 1)) (d + 1) := hdist (d + 1) (by omega)
          by_cases hxv : x (d + 1) ∈ st.visited
          · exact absurd (hq ▸ inv.lvl_queue _ hxv hxd) (List.not_mem_nil _)
          · obtain ⟨y, _, hy2, _⟩ := inv.frontier _ hxd hxv
            exact absurd (hq ▸ hy2) (List.not_mem_nil _)
    | cur :: rest =>
      obtain ⟨qa, qb, hsplit, hqa, hqb⟩ := inv.qsplit
      have hlevel : ∃ d', BfsInv g st d' ∧ distIs g cur d' ∧
          ∃ qa' qb2, rest = qa' ++ qb2 ∧ (∀ p ∈ qa', distIs g p d') ∧
            (∀ p ∈ qb2, distIs g p (d' + 1)) := by
        cases qa with
        | nil =>
          have hall : ∀ p ∈ st.queue, distIs g p (d + 1) := by
            intro p hp
            refine hqb p ?_
            rw [hsplit] at hp
            simpa using hp
          have inv' := inv.relevel hall
          refine ⟨d + 1, inv', hall cur (by rw [hq]; exact List.mem_cons_self _ _),
            rest, [], by simp, ?_, by simp⟩
          intro p hp
          exact hall p (by rw [hq]; exact List.mem_cons_of_mem _ hp)
        | cons qh qa'' =>
          rw [hq] at hsplit
          simp only [List.cons_append, List.cons.injEq] at hsplit
          obtain ⟨hqh, hrest⟩ := hsplit
          refine ⟨d, inv, ?_, qa'', qb, hrest, ?_, hqb⟩
          · exact hqh ▸ hqa qh (List.mem_cons_self _ _)
          · intro p hp
            exact hqa p (List.mem_cons_of_mem _ hp)
      obtain ⟨d', inv', hdcur, hdecomp⟩ := hlevel
      rw [breadth_first.bfsLoop, hq]
      dsimp only
      by_cases hce : cur = g.endP
      · rw [if_pos hce]
        have hdk : d' = k := by
          rw [hce] at hdcur
          exact distIs_unique hdcur hk
        have hcv : cur ∈ st.visited :=
          inv'.qsub cur (by rw [hq]; exact List.mem_cons_self _ _)
        have hkcf : k ≤ st.came_from.length := by
          obtain ⟨anc, ha1, ha2, ha3, _⟩ := bfs_anc inv' k cur hcv (hdk ▸ hdcur)
          have h1 : anc.length ≤ (st.came_from.map Prod.fst).dedup.length :=
            nodup_subset_length_le_dedup ha2 ha3
          have h2 : (st.came_from.map Prod.fst).dedup.length ≤
              (st.came_from.map Prod.fst).length :=
            List.Sublist.length_le (List.dedup_sublist _)
          rw [List.length_map] at h2
          omega
        obtain ⟨path, hpath, hlen⟩ := bfs_reconstruct_exact inv' k cur []
          (st.came_from.length + 1) hcv (hdk ▸ hdcur) (by omega)
        refine ⟨path, st.counter.explore_node, ?_, by simpa using hlen⟩
        unfold reconstruct_path
        rw [hpath, Option.map_some']
      · rw [if_neg hce]
        obtain ⟨inv'', pc, hq', hv', hvle⟩ :=
          bfs_expand_inv inv' hq hdcur hce hdecomp
        have hqlen : st.queue.length = rest.length + 1 := by
          rw [hq]
          rfl
        exact ih _ d' inv'' (by omega)

/-- BFS returns a path of exactly the shortest length on every grid whose
goal is reachable. -/
theorem breadth_first_optimal (g : Grid) (k : Nat) (hk : distIs g g.endP k) :
    ∃ path counter, breadth_first.find_path g = some (path, counter) ∧
      path.length = k + 1 := by
  unfold breadth_first.find_path
  refine bfsLoop_opt g k hk (g.width * g.height + 2) _ 0 (bfs_init_inv g) ?_
  dsimp only
  simp only [List.length_singleton]
  omega

/-! ## `nlookup` under appends, key counting, and potential sums -/

theorem nlookup_cons_ne {e : Position × Nat} {m : List (Position × Nat)}
    {x : Position} (h : e.1 ≠ x) : nlookup (e :: m) x = nlookup m x := by
  unfold nlookup
  rw [List.find?_cons_of_neg]
  simp [h]

theorem nlookup_cons_eq {e : Position × Nat} {m : List (Position × Nat)}
    {x : Position} (h : e.1 = x) : nlookup (e :: m) x = some e.2 := by
  unfold nlookup
  rw [List.find?_cons_of_pos]
  · rfl
  · simp [h]

theorem nlookup_append_of_not_key {es : List (Position × Nat)}
    (m : List (Position × Nat)) (x : Position)
    (h : x ∉ es.map Prod.fst) : nlookup (es ++ m) x = nlookup m x := by
  induction es with
  | nil => rfl
  | cons e rest ih =>
    rw [List.cons_append, nlookup_cons_ne, ih]
    · intro hx
      exact h (by simp [hx])
    · intro he
      exact h (by simp [he])

theorem nlookup_const_pairs {l : List Position} (w : Nat) (x : Position)
    (m : List (Position × Nat)) (hx : x ∈ l) :
    nlookup ((l.map (fun q => (q, w))) ++ m) x = some w := by
  induction l with
  | nil => cases hx
  | cons a t ih =>
    rw [List.map_cons, List.cons_append]
    by_cases hax : a = x
    · rw [nlookup_cons_eq hax]
    · rw [nlookup_cons_ne hax]
      rcases List.mem_cons.mp hx with hx | hx
      · exact absurd hx.symm hax
      · exact ih hx

theorem get_neighbors_ne {g : Grid} {p nb : Position}
    (h : nb ∈ get_neighbors g p) : nb ≠ p := by
  intro he
  have := (mem_get_neighbors h).2.2.2
  rw [he] at this
  unfold Position.manhattan_distance_to at this
  omega

/-- Superset lists have at least as many distinct keys. -/
theorem dedup_length_le_append {α : Type} [DecidableEq α] (l1 l2 : List α) :
    l2.dedup.length ≤ (l1 ++ l2).dedup.length := by
  refine nodup_subset_length_le_dedup (List.nodup_dedup l2) ?_
  intro x hx
  exact List.mem_append_right _ (List.mem_dedup.mp hx)

/-- A genuinely new key raises the distinct-key count. -/
theorem dedup_length_lt_append {α : Type} [DecidableEq α] {l1 l2 : List α}
    {x : α} (hx1 : x ∈ l1) (hx2 : x ∉ l2) :
    l2.dedup.length + 1 ≤ (l1 ++ l2).dedup.length := by
  have hn : (x :: l2.dedup).Nodup := by
    refine List.nodup_cons.mpr ⟨?_, List.nodup_dedup l2⟩
    intro hmem
    exact hx2 (List.mem_dedup.mp hmem)
  have hs : ∀ y ∈ x :: l2.dedup, y ∈ l1 ++ l2 := by
    intro y hy
    rcases List.mem_cons.mp hy with hy | hy
    · exact List.mem_append_left _ (hy ▸ hx1)
    · exact List.mem_append_right _ (List.mem_dedup.mp hy)
  have := nodup_subset_length_le_dedup hn hs
  simpa using this

/-- Pointwise bound on a mapped sum. -/
theorem map_sum_le_of_le {α : Type} (P : List α) (f : α → Nat) (C : Nat)
    (h : ∀ p ∈ P, f p ≤ C) : (P.map f).sum ≤ P.length * C := by
  induction P with
  | nil => simp
  | cons a t ih =>
    rw [List.map_cons, List.sum_cons, List.length_cons]
    have h1 := h a (List.mem_cons_self _ _)
    have h2 := ih (fun p hp => h p (List.mem_cons_of_mem _ hp))
    calc f a + (t.map f).sum ≤ C + t.length * C := by omega
      _ = (t.length + 1) * C := by ring

/-- A mapped sum drops by at least one unit per updated member. -/
theorem map_sum_drop {f f' : Position → Nat} :
    ∀ (P : List Position), P.Nodup →
    ∀ (upd : List Position), upd.Nodup → (∀ q ∈ upd, q ∈ P) →
      (∀ q ∈ upd, f' q < f q) → (∀ p ∈ P, p ∉ upd → f' p = f p) →
      (P.map f').sum + upd.length ≤ (P.map f).sum := by
  intro P
  induction P with
  | nil =>
    intro _ upd hnd hsub _ _
    match upd, (fun q hq => hsub q hq : ∀ q ∈ upd, q ∈ ([] : List Position)) with
    | [], _ => simp
    | q :: t, hs => exact absurd (hs q (List.mem_cons_self _ _)) (List.not_mem_nil _)
  | cons a t ih =>
    intro hP upd hnd hsub hdrop hsame
    have hPa : a ∉ t := (List.nodup_cons.mp hP).1
    have hPt : t.Nodup := (List.nodup_cons.mp hP).2
    rw [List.map_cons, List.map_cons, List.sum_cons, List.sum_cons]
    by_cases ha : a ∈ upd
    · have h1 : f' a < f a := hdrop a ha
      have h2 := ih hPt (upd.erase a) (hnd.erase a) ?_ ?_ ?_
      · have h3 : (upd.erase a).length = upd.length - 1 :=
          List.length_erase_of_mem ha
        have h4 : 0 < upd.length := List.length_pos.mpr (by rintro rfl; cases ha)
        omega
      · intro q hq
        have hq2 := (hnd.mem_erase_iff).mp hq
        rcases List.mem_cons.mp (hsub q hq2.2) with h | h
        · exact absurd h hq2.1
        · exact h
      · intro q hq
        exact hdrop q ((hnd.mem_erase_iff).mp hq).2
      · intro p hpt hp
        refine hsame p (List.mem_cons_of_mem _ hpt) (fun hmem => ?_)
        have hpa : p ≠ a := fun he => hPa (he ▸ hpt)
        exact hp ((hnd.mem_erase_iff).mpr ⟨hpa, hmem⟩)
    · have h1 : f' a = f a := hsame a (List.mem_cons_self _ _) ha
      have h2 := ih hPt upd hnd ?_ hdrop ?_
      · omega
      · intro q hq
        rcases List.mem_cons.mp (hsub q hq) with h | h
        · subst h
          exact absurd hq ha
        · exact h
      · intro p hpt hp
        exact hsame p (List.mem_cons_of_mem _ hpt) hp

/-- The per-position potential of a score map: capacity still available for
strict decreases (plus one unit for a fresh insertion). -/
def phiVal (m : List (Position × Nat)) (N : Nat) (p : Position) : Nat :=
  match nlookup m p with
  | none => N + 2
  | some v => v

theorem pathBetween_trans {g : Grid} {a : Position} :
    ∀ {n : Nat} {b c : Position} {m : Nat}, pathBetween g a b m →
      pathBetween g b c n → pathBetween g a c (m + n) := by
  intro n
  induction n with
  | zero =>
    intro b c m h1 h2
    obtain ⟨l, hh, _, hl, hlen⟩ := h2
    match l, hlen with
    | [x], _ =>
      have hx1 : x = b := by simpa using hh
      have hx2 : x = c := by simpa using hl
      rw [← hx2, hx1]
      exact h1
  | succ n ih =>
    intro b c m h1 h2
    obtain ⟨z, hbz, hz⟩ := pathBetween_cons h2
    have h3 := ih (pathBetween_snoc h1 hbz) hz
    have : m + 1 + n = m + (n + 1) := by omega
    rw [← this]
    exact h3

/-! ## The Dijkstra loop invariant -/

/-- The state invariant of the Dijkstra loop: stored distances are sound
upper bounds, every unvisited key has a live heap node carrying its current
value, committed nodes carry their exact shortest distance and have relaxed
all their edges, the parent map strictly decreases distances, stored values
are bounded by the number of distinct keys, and the goal is uncommitted. -/
structure DijInv (g : Grid) (st : dijkstra.DijState) : Prop where
  admiss : ∀ p v, nlookup st.distances p = some v → ∃ j, distIs g p j ∧ j ≤ v
  heap_admiss : ∀ n ∈ st.heap, ∃ w, nlookup st.distances n.position = some w ∧
    w ≤ n.distance
  dn : ∀ p, p ∉ st.visited → ∀ v, nlookup st.distances p = some v →
    ∃ n, n ∈ st.heap ∧ n.position = p ∧ n.distance = v
  dc : ∀ v ∈ st.visited, ∃ j, distIs g v j ∧ nlookup st.distances v = some j
  de : ∀ v ∈ st.visited, v ≠ g.endP → ∀ nb ∈ get_neighbors g v, ∃ w jv,
    nlookup st.distances nb = some w ∧ nlookup st.distances v = some jv ∧
    w ≤ jv + 1
  prev_all : ∀ pr ∈ st.previous, pr.1 ∈ get_neighbors g pr.2 ∧
    (pr.2 = g.start ∨ ∃ v, nlookup st.distances pr.2 = some v)
  prev_link : ∀ p c, alookup st.previous p = some c → ∃ vp vc,
    nlookup st.distances p = some vp ∧ nlookup st.distances c = some vc ∧ vc < vp
  start0 : nlookup st.distances g.start = some 0
  keys_prev : ∀ p v, nlookup st.distances p = some v → p ≠ g.start →
    p ∈ st.previous.map Prod.fst
  start_nopar : alookup st.previous g.start = none
  end_nv : g.endP ∉ st.visited
  vbound : ∀ p v, nlookup st.distances p = some v →
    v + 1 ≤ (st.distances.map Prod.fst).dedup.length
  keys_ok : ∀ p v, nlookup st.distances p = some v →
    p = g.start ∨ (p.row < g.height ∧ p.col < g.width)

/-- On every tight walk towards an uncommitted target there is an
uncommitted node whose stored distance is exact. -/
theorem dij_witness {g : Grid} {st : dijkstra.DijState} (inv : DijInv g st) :
    ∀ (m : Nat) (z u : Position) (jz ju : Nat), distIs g z jz →
      nlookup st.distances z = some jz → pathBetween g z u m → jz + m = ju →
      distIs g u ju → u ∉ st.visited →
      ∃ y jy, distIs g y jy ∧ nlookup st.distances y = some jy ∧
        y ∉ st.visited ∧ jy ≤ ju := by
  intro m
  induction m with
  | zero =>
    intro z u jz ju hdz hlz hpb hsum hdu hu
    obtain ⟨l, hh, _, hl, hlen⟩ := hpb
    match l, hlen with
    | [x], _ =>
      have hx1 : x = z := by simpa using hh
      have hx2 : x = u := by simpa using hl
      have hzu : z = u := hx1 ▸ hx2
      exact ⟨z, jz, hdz, hlz, hzu ▸ hu, by omega⟩
  | succ m ih =>
    intro z u jz ju hdz hlz hpb hsum hdu hu
    by_cases hzv : z ∈ st.visited
    · have hzend : z ≠ g.endP := fun he => inv.end_nv (he ▸ hzv)
      obtain ⟨z1, hz1, hpb1⟩ := pathBetween_cons hpb
      obtain ⟨w, jv, hw, hjv, hwle⟩ := inv.de z hzv hzend z1 hz1
      have hjvz : jv = jz := by
        rw [hlz] at hjv
        exact (Option.some.inj hjv).symm
      obtain ⟨j1, hdz1, hj1w⟩ := inv.admiss z1 w hw
      have hju_le : ju ≤ j1 + m :=
        distIs_le_pathBetween hdu (pathBetween_trans (pathBetween_of_distIs hdz1) hpb1)
      have hj1 : j1 = jz + 1 := by omega
      have hw1 : w = jz + 1 := by omega
      exact ih z1 u (jz + 1) ju (hj1 ▸ hdz1) (hw1 ▸ hw) hpb1 (by omega) hdu hu
    · exact ⟨z, jz, hdz, hlz, hzv, by omega⟩

/-- The parent chain of a strictly-decreasing parent map terminates and is
no longer than the stored distance of its origin. -/
theorem dij_reconstruct_le {dist : List (Position × Nat)}
    {prev : List (Position × Position)}
    (hlink : ∀ p c, alookup prev p = some c → ∃ vp vc,
      nlookup dist p = some vp ∧ nlookup dist c = some vc ∧ vc < vp) :
    ∀ (v : Nat) (p : Position) (acc : List Position) (fuel : Nat),
      nlookup dist p = some v → v < fuel →
      ∃ path, reconstructAux prev fuel p acc = some path ∧
        path.length ≤ v + 1 + acc.length := by
  intro v
  induction v using Nat.strong_induction_on with
  | _ v ih =>
    intro p acc fuel hv hfuel
    match fuel, hfuel with
    | fuel + 1, hfuel =>
      rw [reconstructAux]
      match hlk : alookup prev p with
      | none =>
        refine ⟨p :: acc, rfl, ?_⟩
        simp only [List.length_cons]
        omega
      | some c =>
        obtain ⟨vp, vc, hvp, hvc, hlt⟩ := hlink p c hlk
        have hvpv : vp = v := by
          rw [hv] at hvp
          exact (Option.some.inj hvp).symm
        obtain ⟨path, hpath, hlen⟩ := ih vc (by omega) c (p :: acc) fuel hvc (by omega)
        refine ⟨path, hpath, ?_⟩
        simp only [List.length_cons] at hlen
        omega

theorem dij_cfinv {g : Grid} {st : dijkstra.DijState} (inv : DijInv g st) :
    CFInv g st.previous := by
  intro pr hpr
  obtain ⟨hadj, hk⟩ := inv.prev_all pr hpr
  refine ⟨hadj, ?_⟩
  rcases hk with hk | ⟨v, hv⟩
  · exact Or.inl hk
  · by_cases hs : pr.2 = g.start
    · exact Or.inl hs
    · exact Or.inr (inv.keys_prev pr.2 v hv hs)

/-- Full characterization of one Dijkstra expansion with live current
distance `jc`: the improved neighbours `upd` get distance `jc + 1`, a heap
push and a parent entry; everything else is untouched. -/
theorem dij_fold_spec (cur : Position) (jc : Nat) :
    ∀ (nbs : List Position) (s : dijkstra.DijState),
      ∃ upd : List Position,
        (List.foldl (dijkstra.dijStep cur (some jc)) s nbs).heap =
          s.heap ++ upd.map (fun q => ⟨q, jc + 1⟩) ∧
        (List.foldl (dijkstra.dijStep cur (some jc)) s nbs).visited = s.visited ∧
        (List.foldl (dijkstra.dijStep cur (some jc)) s nbs).popped = s.popped ∧
        (List.foldl (dijkstra.dijStep cur (some jc)) s nbs).previous =
          (upd.map (fun q => (q, cur))).reverse ++ s.previous ∧
        (List.foldl (dijkstra.dijStep cur (some jc)) s nbs).distances =
          (upd.map (fun q => (q, jc + 1))).reverse ++ s.distances ∧
        upd.Nodup ∧
        (∀ q ∈ upd, q ∈ nbs ∧ q ∉ s.visited ∧
          (nlookup s.distances q = none ∨
            ∃ old, nlookup s.distances q = some old ∧ jc + 1 < old)) ∧
        (∀ nb ∈ nbs, nb ∉ s.visited → nb ∉ upd →
          ∃ w, nlookup s.distances nb = some w ∧ w ≤ jc + 1) := by
  intro nbs
  induction nbs with
  | nil =>
    intro s
    exact ⟨[], by simp, rfl, rfl, by simp, by simp, List.nodup_nil, by simp, by simp⟩
  | cons nb rest ih =>
    intro s
    rw [List.foldl_cons]
    by_cases hv : s.visited.contains nb
    · have hstep : dijkstra.dijStep cur (some jc) s nb =
          { s with counter := s.counter.compare } := by
        unfold dijkstra.dijStep
        rw [if_pos hv]
      rw [hstep]
      obtain ⟨upd, h1, h2, h3, h4, h5, h6, h7, h8⟩ := ih
        { s with counter := s.counter.compare }
      dsimp only at h1 h2 h3 h4 h5 h7 h8
      refine ⟨upd, h1, h2, h3, h4, h5, h6, ?_, ?_⟩
      · intro q hq
        obtain ⟨hq1, hq2, hq3⟩ := h7 q hq
        exact ⟨List.mem_cons_of_mem _ hq1, hq2, hq3⟩
      · intro x hx hxv hxu
        rcases List.mem_cons.mp hx with hx | hx
        · subst hx
          exact absurd (contains_iff_mem.mp hv) hxv
        · exact h8 x hx hxv hxu
    · have hnbv : nb ∉ s.visited := fun hmem => hv (contains_iff_mem.mpr hmem)
      have hpush : ∀ (himp : nlookup s.distances nb = none ∨
            ∃ old, nlookup s.distances nb = some old ∧ jc + 1 < old),
          dijkstra.dijStep cur (some jc) s nb =
            { s with distances := (nb, jc + 1) :: s.distances,
                     previous := (nb, cur) :: s.previous,
                     heap := s.heap ++ [⟨nb, jc + 1⟩],
                     counter := (s.counter.compare.add_to_frontier).allocate_memory 1 } := by
        intro himp
        unfold dijkstra.dijStep
        rw [if_neg hv]
        dsimp only
        rcases himp with himp | ⟨old, hold, hlt⟩
        · rw [himp]
          rfl
        · rw [hold]
          dsimp only
          rw [if_pos (decide_eq_true hlt)]
      have hpushed : ∀ (himp : nlookup s.distances nb = none ∨
            ∃ old, nlookup s.distances nb = some old ∧ jc + 1 < old),
          ∃ upd : List Position,
            (List.foldl (dijkstra.dijStep cur (some jc))
              (dijkstra.dijStep cur (some jc) s nb) rest).heap =
              s.heap ++ upd.map (fun q => (⟨q, jc + 1⟩ : dijkstra.Node)) ∧
            (List.foldl (dijkstra.dijStep cur (some jc))
              (dijkstra.dijStep cur (some jc) s nb) rest).visited = s.visited ∧
            (List.foldl (dijkstra.dijStep cur (some jc))
              (dijkstra.dijStep cur (some jc) s nb) rest).popped = s.popped ∧
            (List.foldl (dijkstra.dijStep cur (some jc))
              (dijkstra.dijStep cur (some jc) s nb) rest).previous =
              (upd.map (fun q => (q, cur))).reverse ++ s.previous ∧
            (List.foldl (dijkstra.dijStep cur (some jc))
              (dijkstra.dijStep cur (some jc) s nb) rest).distances =
              (upd.map (fun q => (q, jc + 1))).reverse ++ s.distances ∧
            upd.Nodup ∧
            (∀ q ∈ upd, q ∈ nb :: rest ∧ q ∉ s.visited ∧
              (nlookup s.distances q = none ∨
                ∃ old, nlookup s.distances q = some old ∧ jc + 1 < old)) ∧
            (∀ x ∈ nb :: rest, x ∉ s.visited → x ∉ upd →
              ∃ w, nlookup s.distances x = some w ∧ w ≤ jc + 1) := by
        intro himp
        rw [hpush himp]
        obtain ⟨upd, h1, h2, h3, h4, h5, h6, h7, h8⟩ := ih
          { s with distances := (nb, jc + 1) :: s.distances,
                   previous := (nb, cur) :: s.previous,
                   heap := s.heap ++ [⟨nb, jc + 1⟩],
                   counter := (s.counter.compare.add_to_frontier).allocate_memory 1 }
        dsimp only at h1 h2 h3 h4 h5 h7 h8
        have hnbupd : nb ∉ upd := by
          intro hmem
          obtain ⟨_, _, h⟩ := h7 nb hmem
          rcases h with h | ⟨old, hold, hlt⟩
          · rw [nlookup_cons_eq rfl] at h
            cases h
          · rw [nlookup_cons_eq rfl] at hold
            have : jc + 1 = old := Option.some.inj hold
            omega
        refine ⟨nb :: upd, ?_, h2, h3, ?_, ?_,
          List.nodup_cons.mpr ⟨hnbupd, h6⟩, ?_, ?_⟩
        · rw [h1, List.map_cons, List.append_assoc]
          rfl
        · rw [h4, List.map_cons, List.reverse_cons, List.append_assoc]
          rfl
        · rw [h5, List.map_cons, List.reverse_cons, List.append_assoc]
          rfl
        · intro q hq
          rcases List.mem_cons.mp hq with hq | hq
          · subst hq
            exact ⟨List.mem_cons_self _ _, hnbv, himp⟩
          · obtain ⟨hq1, hq2, hq3⟩ := h7 q hq
            have hqnb : q ≠ nb := by
              intro he
              exact hnbupd (he ▸ hq)
            refine ⟨List.mem_cons_of_mem _ hq1, ?_, ?_⟩
            · exact hq2
            · rwa [nlookup_cons_ne (fun he => hqnb he.symm)] at hq3
        · intro x hx hxv hxu
          rcases List.mem_cons.mp hx with hx | hx
          · subst hx
            exact absurd (List.mem_cons_self _ _) hxu
          · have hxnb : x ≠ nb := by
              intro he
              exact hxu (he ▸ List.mem_cons_self _ _)
            have hxu' : x ∉ upd := fun hm => hxu (List.mem_cons_of_mem _ hm)
            obtain ⟨w, hw, hwle⟩ := h8 x hx hxv hxu'
            rw [nlookup_cons_ne (fun he => hxnb he.symm)] at hw
            exact ⟨w, hw, hwle⟩
      match hlk : nlookup s.distances nb with
      | none => exact hpushed (Or.inl hlk)
      | some old =>
        by_cases hlt : jc + 1 < old
        · exact hpushed (Or.inr ⟨old, hlk, hlt⟩)
        · have hstep : dijkstra.dijStep cur (some jc) s nb =
              { s with counter := s.counter.compare } := by
            unfold dijkstra.dijStep
            rw [if_neg hv]
            dsimp only
            rw [hlk]
            dsimp only
            rw [if_neg (fun h => hlt (of_decide_eq_true h))]
          rw [hstep]
          obtain ⟨upd, h1, h2, h3, h4, h5, h6, h7, h8⟩ := ih
            { s with counter := s.counter.compare }
          dsimp only at h1 h2 h3 h4 h5 h7 h8
          refine ⟨upd, h1, h2, h3, h4, h5, h6, ?_, ?_⟩
          · intro q hq
            obtain ⟨hq1, hq2, hq3⟩ := h7 q hq
            exact ⟨List.mem_cons_of_mem _ hq1, hq2, hq3⟩
          · intro x hx hxv hxu
            rcases List.mem_cons.mp hx with hx | hx
            · subst hx
              exact ⟨old, hlk, by omega⟩
            · exact h8 x hx hxv hxu

theorem nlookup_eq_none_not_key {m : List (Position × Nat)} {k : Position}
    (h : nlookup m k = none) : k ∉ m.map Prod.fst := by
  intro hk
  rw [List.mem_map] at hk
  obtain ⟨pr, hpr, hfst⟩ := hk
  unfold nlookup at h
  rw [Option.map_eq_none'] at h
  rw [List.find?_eq_none] at h
  exact absurd (by simpa using hfst) (by simpa using h pr hpr)

theorem key_has_value {m : List (Position × Nat)} {k : Position}
    (h : k ∈ m.map Prod.fst) : ∃ v, nlookup m k = some v := by
  induction m with
  | nil => cases h
  | cons e rest ih =>
    by_cases he : e.1 = k
    · exact ⟨e.2, nlookup_cons_eq he⟩
    · rw [nlookup_cons_ne he]
      refine ih ?_
      rcases List.mem_map.mp h with ⟨pr, hpr, hfst⟩
      rcases List.mem_cons.mp hpr with hpr | hpr
      · exact absurd (hpr ▸ hfst) he
      · exact List.mem_map.mpr ⟨pr, hpr, hfst⟩

/-- The duplicate-free list of all in-bounds positions. -/
def posList (g : Grid) : List Position := (allPositions g.width g.height).dedup

theorem posList_nodup (g : Grid) : (posList g).Nodup := List.nodup_dedup _

theorem mem_posList {g : Grid} {p : Position} :
    p ∈ posList g ↔ (p.row < g.height ∧ p.col < g.width) := by
  unfold posList
  rw [List.mem_dedup]
  exact mem_allPositions

theorem posList_length_le (g : Grid) :
    (posList g).length ≤ g.width * g.height := by
  have h1 := List.Sublist.length_le (List.dedup_sublist (allPositions g.width g.height))
  rw [length_allPositions] at h1
  unfold posList
  calc (allPositions g.width g.height).dedup.length ≤ g.height * g.width := h1
    _ = g.width * g.height := by ring

/-- Distinct keys of a score map whose keys are the start node or in
bounds number at most `w*h + 1`. -/
theorem dist_keys_bound {g : Grid} {m : List (Position × Nat)}
    (hok : ∀ p v, nlookup m p = some v →
      p = g.start ∨ (p.row < g.height ∧ p.col < g.width)) :
    (m.map Prod.fst).dedup.length ≤ g.width * g.height + 1 := by
  refine nodup_positions_length_le g _ (List.nodup_dedup _) ?_
  intro x hx
  have hkey : x ∈ m.map Prod.fst := List.mem_dedup.mp hx
  obtain ⟨v, hv⟩ := key_has_value hkey
  exact hok x v hv

/-- The loop potential of the Dijkstra / A* state: heap size plus remaining
decrease capacity of every cell's stored score. -/
def dijPhi (g : Grid) (st : dijkstra.DijState) : Nat :=
  st.heap.length + ((posList g).map
    (phiVal st.distances (g.width * g.height))).sum

theorem dij_skip_inv {g : Grid} {st : dijkstra.DijState} (inv : DijInv g st)
    {m : dijkstra.Node} {heap' : List dijkstra.Node}
    (hpop : extractMin (fun n => n.distance) st.heap = some (m, heap'))
    (hvis : m.position ∈ st.visited) :
    DijInv g { st with heap := heap', popped := st.popped ++ [m.position] } := by
  refine ⟨inv.admiss, ?_, ?_, inv.dc, inv.de, inv.prev_all, inv.prev_link,
    inv.start0, inv.keys_prev, inv.start_nopar, inv.end_nv, inv.vbound, inv.keys_ok⟩
  · intro n hn
    exact inv.heap_admiss n ((extractMin_mem _ st.heap m heap' hpop).2 n hn)
  · intro p hp v hv
    obtain ⟨n, hn1, hn2, hn3⟩ := inv.dn p hp v hv
    refine ⟨n, ?_, hn2, hn3⟩
    refine extractMin_mem_rest hpop hn1 ?_
    intro he
    rw [he] at hn2
    exact hp (hn2 ▸ hvis)

theorem dij_pop_exact {g : Grid} {st : dijkstra.DijState} (inv : DijInv g st)
    {m : dijkstra.Node} {heap' : List dijkstra.Node}
    (hpop : extractMin (fun n => n.distance) st.heap = some (m, heap'))
    (hnv : m.position ∉ st.visited) :
    ∃ jc, distIs g m.position jc ∧ nlookup st.distances m.position = some jc ∧
      jc ≤ m.distance := by
  obtain ⟨w, hw, hwle⟩ := inv.heap_admiss m (extractMin_mem _ st.heap m heap' hpop).1
  obtain ⟨jc, hjc, hjcw⟩ := inv.admiss _ w hw
  obtain ⟨y, jy, hy1, hy2, hy3, hy4⟩ := dij_witness inv jc g.start m.position 0 jc
    (distIs_start g) inv.start0 (pathBetween_of_distIs hjc) (by omega) hjc hnv
  obtain ⟨ny, hny1, hny2, hny3⟩ := inv.dn y hy3 jy hy2
  have hmin := extractMin_min _ st.heap m heap' hpop ny hny1
  rw [hny3] at hmin
  have hwjc : w = jc := by omega
  exact ⟨jc, hjc, hwjc ▸ hw, by omega⟩

theorem map_fst_reverse_pairs {β : Type} (upd : List Position) (f : Position → β) :
    ((upd.map (fun q => (q, f q))).reverse).map Prod.fst = upd.reverse := by
  rw [← List.map_reverse, List.map_map]
  have hfn : (Prod.fst ∘ fun q : Position => (q, f q)) = id := rfl
  rw [hfn, List.map_id]

theorem dij_expand_inv {g : Grid} {st : dijkstra.DijState} (inv : DijInv g st)
    {m : dijkstra.Node} {heap' : List dijkstra.Node}
    (hpop : extractMin (fun n => n.distance) st.heap = some (m, heap'))
    (hnv : m.position ∉ st.visited) (hne : m.position ≠ g.endP)
    {jc : Nat} (hjc : distIs g m.position jc)
    (hjcl : nlookup st.distances m.position = some jc) :
    DijInv g (List.foldl (dijkstra.dijStep m.position (some jc))
      { st with heap := heap', visited := m.position :: st.visited,
                counter := st.counter.explore_node,
                popped := st.popped ++ [m.position] }
      (get_neighbors g m.position)) ∧
    dijPhi g (List.foldl (dijkstra.dijStep m.position (some jc))
      { st with heap := heap', visited := m.position :: st.visited,
                counter := st.counter.explore_node,
                popped := st.popped ++ [m.position] }
      (get_neighbors g m.position)) < dijPhi g st := by
  obtain ⟨upd, h1, h2, h3, h4, h5, h6, h7, h8⟩ :=
    dij_fold_spec m.position jc (get_neighbors g m.position)
      { st with heap := heap', visited := m.position :: st.visited,
                counter := st.counter.explore_node,
                popped := st.popped ++ [m.position] }
  set stf := List.foldl (dijkstra.dijStep m.position (some jc))
    { st with heap := heap', visited := m.position :: st.visited,
              counter := st.counter.explore_node,
              popped := st.popped ++ [m.position] }
    (get_neighbors g m.position) with hstf
  dsimp only at h1 h2 h3 h4 h5 h7 h8
  have hupd : ∀ q ∈ upd, q ∈ get_neighbors g m.position ∧
      q ≠ m.position ∧ q ∉ st.visited ∧
      (nlookup st.distances q = none ∨
        ∃ old, nlookup st.distances q = some old ∧ jc + 1 < old) := by
    intro q hq
    obtain ⟨hq1, hq2, hq3⟩ := h7 q hq
    rw [List.mem_cons] at hq2
    push_neg at hq2
    exact ⟨hq1, hq2.1, hq2.2, hq3⟩
  have hlkN : ∀ q ∈ upd, nlookup stf.distances q = some (jc + 1) := by
    intro q hq
    rw [h5, ← List.map_reverse]
    exact nlookup_const_pairs _ _ _ (List.mem_reverse.mpr hq)
  have hlkO : ∀ p, p ∉ upd → nlookup stf.distances p = nlookup st.distances p := by
    intro p hp
    rw [h5]
    refine nlookup_append_of_not_key _ _ ?_
    rw [map_fst_reverse_pairs upd (fun _ => jc + 1), List.mem_reverse]
    exact hp
  have hcurnupd : m.position ∉ upd := fun hmem => (hupd _ hmem).2.1 rfl
  have hvisnupd : ∀ v ∈ st.visited, v ∉ upd := fun v hv hmem => (hupd v hmem).2.2.1 hv
  have hstartnupd : g.start ∉ upd := by
    intro hmem
    rcases (hupd _ hmem).2.2.2 with h | ⟨old, hold, hlt⟩
    · rw [inv.start0] at h
      cases h
    · rw [inv.start0] at hold
      have : old = 0 := (Option.some.inj hold).symm
      omega
  have hplkN : ∀ q ∈ upd, alookup stf.previous q = some m.position := by
    intro q hq
    rw [h4, ← List.map_reverse]
    exact alookup_const_pairs _ _ _ (List.mem_reverse.mpr hq)
  have hplkO : ∀ p, p ∉ upd → alookup stf.previous p = alookup st.previous p := by
    intro p hp
    rw [h4]
    refine alookup_append_of_not_key _ _ ?_
    rw [map_fst_reverse_pairs upd (fun _ => m.position), List.mem_reverse]
    exact hp
  have hKle : (st.distances.map Prod.fst).dedup.length ≤
      (stf.distances.map Prod.fst).dedup.length := by
    rw [h5, List.map_append]
    exact dedup_length_le_append _ _
  refine ⟨⟨?_, ?_, ?_, ?_, ?_, ?_, ?_, ?_, ?_, ?_, ?_, ?_, ?_⟩, ?_⟩
  · intro p v hv
    by_cases hp : p ∈ upd
    · rw [hlkN p hp] at hv
      have hveq : v = jc + 1 := (Option.some.inj hv).symm
      obtain ⟨j, hj, hjle⟩ := distIs_le_succ hjc (hupd p hp).1
      exact ⟨j, hj, by omega⟩
    · rw [hlkO p hp] at hv
      exact inv.admiss p v hv
  · intro n hn
    rw [h1] at hn
    rcases List.mem_append.mp hn with hn | hn
    · have hmem : n ∈ st.heap := (extractMin_mem _ st.heap m heap' hpop).2 n hn
      obtain ⟨w, hw, hwle⟩ := inv.heap_admiss n hmem
      by_cases hp : n.position ∈ upd
      · refine ⟨jc + 1, hlkN _ hp, ?_⟩
        rcases (hupd _ hp).2.2.2 with h | ⟨old, hold, hlt⟩
        · rw [hw] at h
          cases h
        · rw [hw] at hold
          have : old = w := (Option.some.inj hold).symm
          omega
      · exact ⟨w, by rw [hlkO _ hp]; exact hw, hwle⟩
    · rcases List.mem_map.mp hn with ⟨q, hq, hqn⟩
      refine ⟨jc + 1, ?_, ?_⟩
      · rw [← hqn]
        exact hlkN q hq
      · rw [← hqn]
  · intro p hp v hv
    rw [h2] at hp
    have hpcur : p ≠ m.position := by
      intro he
      exact hp (he ▸ List.mem_cons_self _ _)
    have hpold : p ∉ st.visited := fun hmem => hp (List.mem_cons_of_mem _ hmem)
    by_cases hpu : p ∈ upd
    · refine ⟨⟨p, jc + 1⟩, ?_, rfl, ?_⟩
      · rw [h1]
        refine List.mem_append_right _ ?_
        exact List.mem_map.mpr ⟨p, hpu, rfl⟩
      · rw [hlkN p hpu] at hv
        exact Option.some.inj hv
    · rw [hlkO p hpu] at hv
      obtain ⟨n, hn1, hn2, hn3⟩ := inv.dn p hpold v hv
      refine ⟨n, ?_, hn2, hn3⟩
      rw [h1]
      refine List.mem_append_left _ ?_
      refine extractMin_mem_rest hpop hn1 ?_
      intro he
      rw [he] at hn2
      exact hpcur hn2.symm
  · intro v hv
    rw [h2] at hv
    rcases List.mem_cons.mp hv with hv | hv
    · subst hv
      exact ⟨jc, hjc, by rw [hlkO _ hcurnupd]; exact hjcl⟩
    · obtain ⟨j, hj1, hj2⟩ := inv.dc v hv
      exact ⟨j, hj1, by rw [hlkO _ (hvisnupd v hv)]; exact hj2⟩
  · intro v hv hvend nb hnb
    rw [h2] at hv
    rcases List.mem_cons.mp hv with hv | hv
    · subst hv
      have hvl : nlookup stf.distances m.position = some jc := by
        rw [hlkO _ hcurnupd]
        exact hjcl
      by_cases hnbu : nb ∈ upd
      · exact ⟨jc + 1, jc, hlkN nb hnbu, hvl, le_refl _⟩
      · by_cases hnbv : nb ∈ st.visited
        · obtain ⟨j, hj1, hj2⟩ := inv.dc nb hnbv
          have hjle : j ≤ jc + 1 := distIs_adj_le hjc hj1 hnb
          exact ⟨j, jc, by rw [hlkO _ (hvisnupd nb hnbv)]; exact hj2, hvl, by omega⟩
        · have hnbv2 : nb ∉ ({ st with heap := heap',
                                       visited := m.position :: st.visited,
                                       counter := st.counter.explore_node,
                                       popped := st.popped ++ [m.position] } :
              dijkstra.DijState).visited := by
            dsimp only
            rw [List.mem_cons]
            push_neg
            exact ⟨fun he => absurd (he ▸ hnb) (fun hmem => get_neighbors_ne hmem rfl), hnbv⟩
          obtain ⟨w, hw, hwle⟩ := h8 nb hnb hnbv2 hnbu
          exact ⟨w, jc, by rw [hlkO _ hnbu]; exact hw, hvl, hwle⟩
    · obtain ⟨w, jv, hw, hjv, hwle⟩ := inv.de v hv hvend nb hnb
      have hjv' : nlookup stf.distances v = some jv := by
        rw [hlkO _ (hvisnupd v hv)]
        exact hjv
      by_cases hnbu : nb ∈ upd
      · refine ⟨jc + 1, jv, hlkN nb hnbu, hjv', ?_⟩
        rcases (hupd nb hnbu).2.2.2 with h | ⟨old, hold, hlt⟩
        · rw [hw] at h
          cases h
        · rw [hw] at hold
          have : old = w := (Option.some.inj hold).symm
          omega
      · exact ⟨w, jv, by rw [hlkO _ hnbu]; exact hw, hjv', hwle⟩
  · intro pr hpr
    rw [h4] at hpr
    rcases List.mem_append.mp hpr with hpr | hpr
    · rw [List.mem_reverse] at hpr
      rcases List.mem_map.mp hpr with ⟨q, hq, hqpr⟩
      subst hqpr
      refine ⟨(hupd q hq).1, Or.inr ⟨jc, ?_⟩⟩
      rw [hlkO _ hcurnupd]
      exact hjcl
    · obtain ⟨hadj, hk⟩ := inv.prev_all pr hpr
      refine ⟨hadj, ?_⟩
      rcases hk with hk | ⟨v, hv⟩
      · exact Or.inl hk
      · by_cases hpu : pr.2 ∈ upd
        · exact Or.inr ⟨jc + 1, hlkN _ hpu⟩
        · exact Or.inr ⟨v, by rw [hlkO _ hpu]; exact hv⟩
  · intro p c hlk
    by_cases hpu : p ∈ upd
    · have := hplkN p hpu
      rw [hlk] at this
      have hc : c = m.position := Option.some.inj this
      subst hc
      exact ⟨jc + 1, jc, hlkN p hpu, by rw [hlkO _ hcurnupd]; exact hjcl, by omega⟩
    · rw [hplkO p hpu] at hlk
      obtain ⟨vp, vc, hvp, hvc, hlt⟩ := inv.prev_link p c hlk
      refine ⟨vp, ?_⟩
      by_cases hcu : c ∈ upd
      · refine ⟨jc + 1, by rw [hlkO _ hpu]; exact hvp, hlkN c hcu, ?_⟩
        rcases (hupd c hcu).2.2.2 with h | ⟨old, hold, hlt2⟩
        · rw [hvc] at h
          cases h
        · rw [hvc] at hold
          have : old = vc := (Option.some.inj hold).symm
          omega
      · exact ⟨vc, by rw [hlkO _ hpu]; exact hvp, by rw [hlkO _ hcu]; exact hvc, hlt⟩
  · rw [hlkO _ hstartnupd]
    exact inv.start0
  · intro p v hv hps
    rw [h4, List.map_append, map_fst_reverse_pairs upd (fun _ => m.position)]
    by_cases hpu : p ∈ upd
    · exact List.mem_append_left _ (List.mem_reverse.mpr hpu)
    · rw [hlkO _ hpu] at hv
      exact List.mem_append_right _ (inv.keys_prev p v hv hps)
  · rw [hplkO _ hstartnupd]
    exact inv.start_nopar
  · rw [h2, List.mem_cons]
    push_neg
    exact ⟨fun he => hne he.symm, inv.end_nv⟩
  · intro p v hv
    have hK' : (stf.distances.map Prod.fst).dedup.length =
        ((((upd.map (fun q => (q, jc + 1))).reverse).map Prod.fst ++
          st.distances.map Prod.fst)).dedup.length := by
      rw [h5, List.map_append]
    by_cases hpu : p ∈ upd
    · rw [hlkN p hpu] at hv
      have hveq : v = jc + 1 := (Option.some.inj hv).symm
      subst hveq
      rcases (hupd p hpu).2.2.2 with h | ⟨old, hold, hlt⟩
      · have hfresh : p ∉ st.distances.map Prod.fst := nlookup_eq_none_not_key h
        have hp1 : p ∈ ((upd.map (fun q => (q, jc + 1))).reverse).map Prod.fst := by
          rw [map_fst_reverse_pairs upd (fun _ => jc + 1)]
          exact List.mem_reverse.mpr hpu
        have h2b := dedup_length_lt_append hp1 hfresh
        have h3b := inv.vbound _ jc hjcl
        rw [hK']
        omega
      · have h2b := inv.vbound p old hold
        omega
    · rw [hlkO _ hpu] at hv
      have := inv.vbound p v hv
      omega
  · intro p v hv
    by_cases hpu : p ∈ upd
    · have := mem_get_neighbors (hupd p hpu).1
      exact Or.inr ⟨this.2.1, this.2.2.1⟩
    · rw [hlkO _ hpu] at hv
      exact inv.keys_ok p v hv
  · have hheap : stf.heap.length = heap'.length + upd.length := by
      rw [h1, List.length_append, List.length_map]
    have hheap0 : st.heap.length = heap'.length + 1 := extractMin_length hpop
    have hKbound : (st.distances.map Prod.fst).dedup.length ≤
        g.width * g.height + 1 := dist_keys_bound inv.keys_ok
    have hsum := @map_sum_drop (phiVal st.distances (g.width * g.height))
      (phiVal stf.distances (g.width * g.height)) (posList g)
      (posList_nodup g) upd h6 ?_ ?_ ?_
    · unfold dijPhi
      omega
    · intro q hq
      have := mem_get_neighbors (hupd q hq).1
      exact mem_posList.mpr ⟨this.2.1, this.2.2.1⟩
    · intro q hq
      unfold phiVal
      rw [hlkN q hq]
      rcases (hupd q hq).2.2.2 with h | ⟨old, hold, hlt⟩
      · rw [h]
        dsimp only
        have h3b := inv.vbound _ jc hjcl
        omega
      · rw [hold]
        dsimp only
        omega
    · intro p _ hp
      unfold phiVal
      rw [hlkO _ hp]

theorem dij_init_inv (g : Grid) : DijInv g (dijkstra.initState g) := by
  have hlk : ∀ (p : Position) (v : Nat),
      nlookup [(g.start, 0)] p = some v → p = g.start ∧ v = 0 := by
    intro p v hv
    by_cases hp : ((g.start, 0) : Position × Nat).1 = p
    · rw [nlookup_cons_eq hp] at hv
      exact ⟨hp.symm, (Option.some.inj hv).symm⟩
    · rw [nlookup_cons_ne hp] at hv
      cases hv
  unfold dijkstra.initState
  refine ⟨?_, ?_, ?_, ?_, ?_, ?_, ?_, ?_, ?_, rfl, ?_, ?_, ?_⟩
  · intro p v hv
    obtain ⟨hp, hv0⟩ := hlk p v hv
    subst hp
    subst hv0
    exact ⟨0, distIs_start g, le_refl _⟩
  · intro n hn
    rw [List.mem_singleton] at hn
    subst hn
    exact ⟨0, nlookup_cons_eq rfl, le_refl _⟩
  · intro p _ v hv
    obtain ⟨hp, hv0⟩ := hlk p v hv
    subst hp
    subst hv0
    exact ⟨⟨g.start, 0⟩, List.mem_singleton_self _, rfl, rfl⟩
  · intro v hv
    cases hv
  · intro v hv
    cases hv
  · intro pr hpr
    cases hpr
  · intro p c hc
    cases hc
  · exact nlookup_cons_eq rfl
  · intro p v hv hps
    exact absurd (hlk p v hv).1 hps
  · exact List.not_mem_nil _
  · intro p v hv
    obtain ⟨hp, hv0⟩ := hlk p v hv
    subst hp
    subst hv0
    simp
  · intro p v hv
    exact Or.inl (hlk p v hv).1

theorem dijLoop_opt (g : Grid) (k : Nat) (hk : distIs g g.endP k) :
    ∀ (fuel : Nat) (st : dijkstra.DijState), DijInv g st →
      dijPhi g st < fuel →
      ∃ st2 path, dijkstra.dijLoop g fuel st = some (st2, path) ∧
        path.length = k + 1 := by
  intro fuel
  induction fuel with
  | zero =>
    intro st _ hm
    omega
  | succ n ih =>
    intro st inv hm
    rw [dijkstra.dijLoop]
    match hpop : extractMin (fun nd => nd.distance) st.heap with
    | none =>
      exfalso
      obtain ⟨y, jy, hy1, hy2, hy3, hy4⟩ := dij_witness inv k g.start g.endP 0 k
        (distIs_start g) inv.start0 (pathBetween_of_distIs hk) (by omega) hk inv.end_nv
      obtain ⟨ny, hny1, _, _⟩ := inv.dn y hy3 jy hy2
      rw [extractMin_eq_none hpop] at hny1
      exact List.not_mem_nil _ hny1
    | some (m, heap') =>
      rw [hpop]
      dsimp only
      by_cases hv : st.visited.contains m.position
      · rw [if_pos hv]
        have hinv' := dij_skip_inv inv hpop (contains_iff_mem.mp hv)
        refine ih _ hinv' ?_
        have hlen := extractMin_length hpop
        unfold dijPhi at hm ⊢
        dsimp only
        omega
      · rw [if_neg hv]
        have hnv : m.position ∉ st.visited := fun h => hv (contains_iff_mem.mpr h)
        obtain ⟨jc, hjc, hjcl, hjcm⟩ := dij_pop_exact inv hpop hnv
        by_cases hend : m.position = g.endP
        · rw [if_pos hend]
          have hjck : jc = k := distIs_unique (hend ▸ hjc) hk
          have hKb : (st.distances.map Prod.fst).dedup.length ≤
              st.previous.length + 1 := by
            have hsub : ∀ x ∈ (st.distances.map Prod.fst).dedup,
                x ∈ g.start :: st.previous.map Prod.fst := by
              intro x hx
              obtain ⟨v, hxv⟩ := key_has_value (List.mem_dedup.mp hx)
              by_cases hs : x = g.start
              · exact hs ▸ List.mem_cons_self _ _
              · exact List.mem_cons_of_mem _ (inv.keys_prev x v hxv hs)
            have h1 := nodup_subset_length_le_dedup (List.nodup_dedup _) hsub
            have h2 := List.Sublist.length_le
              (List.dedup_sublist (g.start :: st.previous.map Prod.fst))
            simp only [List.length_cons, List.length_map] at h2
            omega
          have hkprev : k ≤ st.previous.length := by
            have := inv.vbound _ jc hjcl
            omega
          obtain ⟨path, hpath, hlen⟩ := dij_reconstruct_le inv.prev_link jc
            m.position [] (st.previous.length + 1) hjcl (by omega)
          have hcf : CFInv g st.previous := dij_cfinv inv
          have hks : KeyedOrStart g st.previous m.position := by
            by_cases hs : m.position = g.start
            · exact Or.inl hs
            · exact Or.inr (inv.keys_prev _ jc hjcl hs)
          have hrp : reconstruct_path st.previous m.position = some path := by
            unfold reconstruct_path
            exact hpath
          have hspec := reconstruct_path_spec hcf hks hrp
          have hwalk : k + 1 ≤ path.length := by
            refine hk.2 path ⟨hspec.1, hspec.2.1, ?_⟩
            rw [hspec.2.2.1, hend]
          have hlen' : path.length = k + 1 := by
            simp only [List.length_nil] at hlen
            omega
          refine ⟨{ st with heap := heap', visited := m.position :: st.visited,
                            counter := st.counter.explore_node,
                            popped := st.popped ++ [m.position] }, path, ?_, hlen'⟩
          rw [hrp, Option.map_some']
        · rw [if_neg hend]
          rw [hjcl]
          obtain ⟨inv', hphi⟩ := dij_expand_inv inv hpop hnv hend hjc hjcl
          exact ih _ inv' (by omega)

/-- Dijkstra returns a path of exactly the shortest length on every grid
whose goal is reachable. -/
theorem dijkstra_optimal (g : Grid) (k : Nat) (hk : distIs g g.endP k) :
    ∃ path counter, dijkstra.find_path g = some (path, counter) ∧
      path.length = k + 1 := by
  have hphi0 : dijPhi g (dijkstra.initState g) <
      5 * (g.width * g.height + 2) * (g.width * g.height + 2) := by
    have hpt : ∀ p ∈ posList g,
        phiVal [(g.start, 0)] (g.width * g.height) p ≤ g.width * g.height + 2 := by
      intro p _
      unfold phiVal
      by_cases hp : ((g.start, 0) : Position × Nat).1 = p
      · rw [nlookup_cons_eq hp]
        dsimp only
        omega
      · rw [nlookup_cons_ne hp]
        exact le_refl _
    have h1 := map_sum_le_of_le (posList g) _ _ hpt
    have h2 := posList_length_le g
    have h3 : (posList g).length * (g.width * g.height + 2) ≤
        (g.width * g.height) * (g.width * g.height + 2) :=
      Nat.mul_le_mul_right _ h2
    have h4 : 1 + (g.width * g.height) * (g.width * g.height + 2) <
        5 * (g.width * g.height + 2) * (g.width * g.height + 2) := by
      nlinarith
    unfold dijPhi dijkstra.initState
    dsimp only
    simp only [List.length_singleton]
    omega
  obtain ⟨st2, path, hrun, hlen⟩ := dijLoop_opt g k hk
    (5 * (g.width * g.height + 2) * (g.width * g.height + 2))
    (dijkstra.initState g) (dij_init_inv g) hphi0
  refine ⟨path, st2.counter, ?_, hlen⟩
  unfold dijkstra.find_path dijkstra.run
  rw [hrun, Option.map_some']

/-! ## The A* loop invariant and optimality -/

/-- Full characterization of one A* expansion when the centre's live
`g_score` is `gcur`: improved neighbours `upd` get score `gcur + 1`, a heap
push carrying `f = g + h` and a parent entry. -/
theorem astar_fold_spec (G : Grid) (cur : Position) (gcur : Nat) :
    ∀ (nbs : List Position) (s : astar.AStarState),
      nlookup s.g_score cur = some gcur → (∀ nb ∈ nbs, nb ≠ cur) →
      ∃ upd : List Position,
        (List.foldl (astar.astarStep G cur) s nbs).open_set =
          s.open_set ++ upd.map (fun q =>
            (⟨q, gcur + 1, gcur + 1 + astar.heuristic q G.endP, some cur⟩ :
              astar.Node)) ∧
        (List.foldl (astar.astarStep G cur) s nbs).popped = s.popped ∧
        (List.foldl (astar.astarStep G cur) s nbs).came_from =
          (upd.map (fun q => (q, cur))).reverse ++ s.came_from ∧
        (List.foldl (astar.astarStep G cur) s nbs).g_score =
          (upd.map (fun q => (q, gcur + 1))).reverse ++ s.g_score ∧
        upd.Nodup ∧
        (∀ q ∈ upd, q ∈ nbs ∧
          (nlookup s.g_score q = none ∨
            ∃ old, nlookup s.g_score q = some old ∧ gcur + 1 < old)) ∧
        (∀ nb ∈ nbs, nb ∉ upd →
          ∃ w, nlookup s.g_score nb = some w ∧ w ≤ gcur + 1) := by
  intro nbs
  induction nbs with
  | nil =>
    intro s _ _
    exact ⟨[], by simp, rfl, by simp, by simp, List.nodup_nil, by simp, by simp⟩
  | cons nb rest ih =>
    intro s hg hne
    have hnbc : nb ≠ cur := hne nb (List.mem_cons_self _ _)
    have hne' : ∀ x ∈ rest, x ≠ cur := fun x hx => hne x (List.mem_cons_of_mem _ hx)
    rw [List.foldl_cons]
    have hpush : ∀ (himp : nlookup s.g_score nb = none ∨
          ∃ old, nlookup s.g_score nb = some old ∧ gcur + 1 < old),
        astar.astarStep G cur s nb =
          { s with came_from := (nb, cur) :: s.came_from,
                   g_score := (nb, gcur + 1) :: s.g_score,
                   f_score := (nb, gcur + 1 + astar.heuristic nb G.endP) :: s.f_score,
                   open_set := s.open_set ++
                     [⟨nb, gcur + 1, gcur + 1 + astar.heuristic nb G.endP, some cur⟩],
                   counter := (s.counter.compare.add_to_frontier).allocate_memory 1 } := by
      intro himp
      unfold astar.astarStep
      rw [hg]
      dsimp only
      rcases himp with himp | ⟨old, hold, hlt⟩
      · rw [himp]
        rfl
      · rw [hold]
        dsimp only
        rw [if_pos (decide_eq_true hlt)]
    match hlk : nlookup s.g_score nb with
    | none =>
      rw [hpush (Or.inl hlk)]
      obtain ⟨upd, h1, h2, h3, h4, h5, h6, h7⟩ := ih
        { s with came_from := (nb, cur) :: s.came_from,
                 g_score := (nb, gcur + 1) :: s.g_score,
                 f_score := (nb, gcur + 1 + astar.heuristic nb G.endP) :: s.f_score,
                 open_set := s.open_set ++
                   [⟨nb, gcur + 1, gcur + 1 + astar.heuristic nb G.endP, some cur⟩],
                 counter := (s.counter.compare.add_to_frontier).allocate_memory 1 }
        (by dsimp only; rw [nlookup_cons_ne hnbc]; exact hg) hne'
      dsimp only at h1 h2 h3 h4 h6 h7
      have hnbupd : nb ∉ upd := by
        intro hmem
        rcases (h6 nb hmem).2 with h | ⟨old, hold, hlt⟩
        · rw [nlookup_cons_eq rfl] at h
          cases h
        · rw [nlookup_cons_eq rfl] at hold
          have : gcur + 1 = old := Option.some.inj hold
          omega
      refine ⟨nb :: upd, ?_, h2, ?_, ?_, List.nodup_cons.mpr ⟨hnbupd, h5⟩, ?_, ?_⟩
      · rw [h1, List.map_cons, List.append_assoc]
        rfl
      · rw [h3, List.map_cons, List.reverse_cons, List.append_assoc]
        rfl
      · rw [h4, List.map_cons, List.reverse_cons, List.append_assoc]
        rfl
      · intro q hq
        rcases List.mem_cons.mp hq with hq | hq
        · subst hq
          exact ⟨List.mem_cons_self _ _, Or.inl hlk⟩
        · obtain ⟨hq1, hq3⟩ := h6 q hq
          have hqnb : q ≠ nb := fun he => hnbupd (he ▸ hq)
          refine ⟨List.mem_cons_of_mem _ hq1, ?_⟩
          rwa [nlookup_cons_ne (fun he => hqnb he.symm)] at hq3
      · intro x hx hxu
        rcases List.mem_cons.mp hx with hx | hx
        · subst hx
          exact absurd (List.mem_cons_self _ _) hxu
        · have hxnb : x ≠ nb := fun he => hxu (he ▸ List.mem_cons_self _ _)
          have hxu' : x ∉ upd := fun hm => hxu (List.mem_cons_of_mem _ hm)
          obtain ⟨w, hw, hwle⟩ := h7 x hx hxu'
          rw [nlookup_cons_ne (fun he => hxnb he.symm)] at hw
          exact ⟨w, hw, hwle⟩
    | some old =>
      by_cases hlt : gcur + 1 < old
      · rw [hpush (Or.inr ⟨old, hlk, hlt⟩)]
        obtain ⟨upd, h1, h2, h3, h4, h5, h6, h7⟩ := ih
          { s with came_from := (nb, cur) :: s.came_from,
                   g_score := (nb, gcur + 1) :: s.g_score,
                   f_score := (nb, gcur + 1 + astar.heuristic nb G.endP) :: s.f_score,
                   open_set := s.open_set ++
                     [⟨nb, gcur + 1, gcur + 1 + astar.heuristic nb G.endP, some cur⟩],
                   counter := (s.counter.compare.add_to_frontier).allocate_memory 1 }
          (by dsimp only; rw [nlookup_cons_ne hnbc]; exact hg) hne'
        dsimp only at h1 h2 h3 h4 h6 h7
        have hnbupd : nb ∉ upd := by
          intro hmem
          rcases (h6 nb hmem).2 with h | ⟨old2, hold2, hlt2⟩
          · rw [nlookup_cons_eq rfl] at h
            cases h
          · rw [nlookup_cons_eq rfl] at hold2
            have : gcur + 1 = old2 := Option.some.inj hold2
            omega
        refine ⟨nb :: upd, ?_, h2, ?_, ?_, List.nodup_cons.mpr ⟨hnbupd, h5⟩, ?_, ?_⟩
        · rw [h1, List.map_cons, List.append_assoc]
          rfl
        · rw [h3, List.map_cons, List.reverse_cons, List.append_assoc]
          rfl
        · rw [h4, List.map_cons, List.reverse_cons, List.append_assoc]
          rfl
        · intro q hq
          rcases List.mem_cons.mp hq with hq | hq
          · subst hq
            exact ⟨List.mem_cons_self _ _, Or.inr ⟨old, hlk, hlt⟩⟩
          · obtain ⟨hq1, hq3⟩ := h6 q hq
            have hqnb : q ≠ nb := fun he => hnbupd (he ▸ hq)
            refine ⟨List.mem_cons_of_mem _ hq1, ?_⟩
            rwa [nlookup_cons_ne (fun he => hqnb he.symm)] at hq3
        · intro x hx hxu
          rcases List.mem_cons.mp hx with hx | hx
          · subst hx
            exact absurd (List.mem_cons_self _ _) hxu
          · have hxnb : x ≠ nb := fun he => hxu (he ▸ List.mem_cons_self _ _)
            have hxu' : x ∉ upd := fun hm => hxu (List.mem_cons_of_mem _ hm)
            obtain ⟨w, hw, hwle⟩ := h7 x hx hxu'
            rw [nlookup_cons_ne (fun he => hxnb he.symm)] at hw
            exact ⟨w, hw, hwle⟩
      · have hstep : astar.astarStep G cur s nb =
            { s with counter := s.counter.compare } := by
          unfold astar.astarStep
          rw [hg]
          dsimp only
          rw [hlk]
          dsimp only
          rw [if_neg (fun h => hlt (of_decide_eq_true h))]
        rw [hstep]
        obtain ⟨upd, h1, h2, h3, h4, h5, h6, h7⟩ := ih
          { s with counter := s.counter.compare } hg hne'
        dsimp only at h1 h2 h3 h4 h6 h7
        refine ⟨upd, h1, h2, h3, h4, h5, ?_, ?_⟩
        · intro q hq
          obtain ⟨hq1, hq3⟩ := h6 q hq
          exact ⟨List.mem_cons_of_mem _ hq1, hq3⟩
        · intro x hx hxu
          rcases List.mem_cons.mp hx with hx | hx
          · subst hx
            exact ⟨old, hlk, by omega⟩
          · exact h7 x hx hxu

theorem heuristic_self (a : Position) : astar.heuristic a a = 0 := by
  unfold astar.heuristic
  omega

/-- The A* state invariant along a fixed tight shortest path
`x 0 = start, …, x k = end`: stored `g_score`s are sound, heap nodes carry
`f = g + h` with `g` at least the live score, the parent map strictly
decreases scores, and the frontier ladder `inv4` guarantees an open node of
`f ≤ k` as long as the goal is unsettled. -/
structure AStarInv (g : Grid) (k : Nat) (x : Nat → Position)
    (st : astar.AStarState) : Prop where
  admiss : ∀ p v, nlookup st.g_score p = some v → ∃ j, distIs g p j ∧ j ≤ v
  heap_ok : ∀ n ∈ st.open_set, ∃ w, nlookup st.g_score n.position = some w ∧
    w ≤ n.g_score ∧ n.f_score = n.g_score + astar.heuristic n.position g.endP
  start0 : nlookup st.g_score g.start = some 0
  cf_all : ∀ pr ∈ st.came_from, pr.1 ∈ get_neighbors g pr.2 ∧
    (pr.2 = g.start ∨ ∃ v, nlookup st.g_score pr.2 = some v)
  cf_link : ∀ p c, alookup st.came_from p = some c → ∃ vp vc,
    nlookup st.g_score p = some vp ∧ nlookup st.g_score c = some vc ∧ vc < vp
  keys_cf : ∀ p v, nlookup st.g_score p = some v → p ≠ g.start →
    p ∈ st.came_from.map Prod.fst
  start_nopar : alookup st.came_from g.start = none
  vbound : ∀ p v, nlookup st.g_score p = some v →
    v + 1 ≤ (st.g_score.map Prod.fst).dedup.length
  keys_ok : ∀ p v, nlookup st.g_score p = some v →
    p = g.start ∨ (p.row < g.height ∧ p.col < g.width)
  inv4 : ∀ j, j ≤ k → nlookup st.g_score (x j) = some j →
    (∃ n ∈ st.open_set, n.position = x j ∧ n.f_score ≤ k) ∨
    (j < k ∧ nlookup st.g_score (x (j + 1)) = some (j + 1))

/-- Climbing the frontier ladder: some open node has `f ≤ k`. -/
theorem astar_good {g : Grid} {k : Nat} {x : Nat → Position}
    {st : astar.AStarState} (inv : AStarInv g k x st) (hx0 : x 0 = g.start) :
    ∃ nd ∈ st.open_set, nd.f_score ≤ k := by
  suffices h : ∀ d j, j + d = k → nlookup st.g_score (x j) = some j →
      ∃ nd ∈ st.open_set, nd.f_score ≤ k by
    refine h k 0 (by omega) ?_
    rw [hx0]
    exact inv.start0
  intro d
  induction d with
  | zero =>
    intro j hj hlk
    rcases inv.inv4 j (by omega) hlk with ⟨nd, hnd1, _, hnd3⟩ | ⟨hjk, _⟩
    · exact ⟨nd, hnd1, hnd3⟩
    · omega
  | succ d ih =>
    intro j hj hlk
    rcases inv.inv4 j (by omega) hlk with ⟨nd, hnd1, _, hnd3⟩ | ⟨hjk, hnext⟩
    · exact ⟨nd, hnd1, hnd3⟩
    · exact ih (j + 1) (by omega) hnext

/-- The loop potential of the A* state. -/
def astarPhi (g : Grid) (st : astar.AStarState) : Nat :=
  st.open_set.length + ((posList g).map
    (phiVal st.g_score (g.width * g.height))).sum

theorem astar_expand_inv {g : Grid} {k : Nat} {x : Nat → Position}
    {st : astar.AStarState} (inv : AStarInv g k x st)
    (hx0 : x 0 = g.start) (hxk : x k = g.endP)
    (hstep : ∀ i, i < k → adjStep g (x i) (x (i + 1)))
    (hdist : ∀ i, i ≤ k → distIs g (x i) i)
    {m : astar.Node} {heap' : List astar.Node}
    (hpop : extractMin (fun n => n.f_score) st.open_set = some (m, heap'))
    (hne : m.position ≠ g.endP)
    {gc : Nat} (hgc : nlookup st.g_score m.position = some gc) :
    AStarInv g k x (List.foldl (astar.astarStep g m.position)
      { st with open_set := heap', counter := st.counter.explore_node,
                popped := st.popped ++ [m.position] }
      (get_neighbors g m.position)) ∧
    astarPhi g (List.foldl (astar.astarStep g m.position)
      { st with open_set := heap', counter := st.counter.explore_node,
                popped := st.popped ++ [m.position] }
      (get_neighbors g m.position)) < astarPhi g st := by
  obtain ⟨upd, h1, h2, h3, h4, h5, h6, h7⟩ :=
    astar_fold_spec g m.position gc (get_neighbors g m.position)
      { st with open_set := heap', counter := st.counter.explore_node,
                popped := st.popped ++ [m.position] }
      (by dsimp only; exact hgc) (fun nb hnb => get_neighbors_ne hnb)
  set stf := List.foldl (astar.astarStep g m.position)
    { st with open_set := heap', counter := st.counter.explore_node,
              popped := st.popped ++ [m.position] }
    (get_neighbors g m.position) with hstf
  dsimp only at h1 h2 h3 h4 h6 h7
  have hupd : ∀ q ∈ upd, q ∈ get_neighbors g m.position ∧
      (nlookup st.g_score q = none ∨
        ∃ old, nlookup st.g_score q = some old ∧ gc + 1 < old) := h6
  have hlkN : ∀ q ∈ upd, nlookup stf.g_score q = some (gc + 1) := by
    intro q hq
    rw [h4, ← List.map_reverse]
    exact nlookup_const_pairs _ _ _ (List.mem_reverse.mpr hq)
  have hlkO : ∀ p, p ∉ upd → nlookup stf.g_score p = nlookup st.g_score p := by
    intro p hp
    rw [h4]
    refine nlookup_append_of_not_key _ _ ?_
    rw [map_fst_reverse_pairs upd (fun _ => gc + 1), List.mem_reverse]
    exact hp
  have hcurnupd : m.position ∉ upd := fun hmem =>
    get_neighbors_ne (hupd _ hmem).1 rfl
  have hstartnupd : g.start ∉ upd := by
    intro hmem
    rcases (hupd _ hmem).2 with h | ⟨old, hold, hlt⟩
    · rw [inv.start0] at h
      cases h
    · rw [inv.start0] at hold
      have : old = 0 := (Option.some.inj hold).symm
      omega
  have hplkN : ∀ q ∈ upd, alookup stf.came_from q = some m.position := by
    intro q hq
    rw [h3, ← List.map_reverse]
    exact alookup_const_pairs _ _ _ (List.mem_reverse.mpr hq)
  have hplkO : ∀ p, p ∉ upd → alookup stf.came_from p = alookup st.came_from p := by
    intro p hp
    rw [h3]
    refine alookup_append_of_not_key _ _ ?_
    rw [map_fst_reverse_pairs upd (fun _ => m.position), List.mem_reverse]
    exact hp
  have hKle : (st.g_score.map Prod.fst).dedup.length ≤
      (stf.g_score.map Prod.fst).dedup.length := by
    rw [h4, List.map_append]
    exact dedup_length_le_append _ _
  refine ⟨⟨?_, ?_, ?_, ?_, ?_, ?_, ?_, ?_, ?_, ?_⟩, ?_⟩
  · intro p v hv
    by_cases hp : p ∈ upd
    · rw [hlkN p hp] at hv
      have hveq : v = gc + 1 := (Option.some.inj hv).symm
      obtain ⟨jm, hjm, hjmle⟩ := inv.admiss _ gc hgc
      obtain ⟨j, hj, hjle⟩ := distIs_le_succ hjm (hupd p hp).1
      exact ⟨j, hj, by omega⟩
    · rw [hlkO p hp] at hv
      exact inv.admiss p v hv
  · intro n hn
    rw [h1] at hn
    rcases List.mem_append.mp hn with hn | hn
    · have hmem : n ∈ st.open_set := (extractMin_mem _ st.open_set m heap' hpop).2 n hn
      obtain ⟨w, hw, hwle, hf⟩ := inv.heap_ok n hmem
      by_cases hp : n.position ∈ upd
      · refine ⟨gc + 1, hlkN _ hp, ?_, hf⟩
        rcases (hupd _ hp).2 with h | ⟨old, hold, hlt⟩
        · rw [hw] at h
          cases h
        · rw [hw] at hold
          have : old = w := (Option.some.inj hold).symm
          omega
      · exact ⟨w, by rw [hlkO _ hp]; exact hw, hwle, hf⟩
    · rcases List.mem_map.mp hn with ⟨q, hq, hqn⟩
      refine ⟨gc + 1, ?_, ?_, ?_⟩
      · rw [← hqn]
        exact hlkN q hq
      · rw [← hqn]
      · rw [← hqn]
  · rw [hlkO _ hstartnupd]
    exact inv.start0
  · intro pr hpr
    rw [h3] at hpr
    rcases List.mem_append.mp hpr with hpr | hpr
    · rw [List.mem_reverse] at hpr
      rcases List.mem_map.mp hpr with ⟨q, hq, hqpr⟩
      subst hqpr
      exact ⟨(hupd q hq).1, Or.inr ⟨gc, by rw [hlkO _ hcurnupd]; exact hgc⟩⟩
    · obtain ⟨hadj, hk2⟩ := inv.cf_all pr hpr
      refine ⟨hadj, ?_⟩
      rcases hk2 with hk2 | ⟨v, hv⟩
      · exact Or.inl hk2
      · by_cases hpu : pr.2 ∈ upd
        · exact Or.inr ⟨gc + 1, hlkN _ hpu⟩
        · exact Or.inr ⟨v, by rw [hlkO _ hpu]; exact hv⟩
  · intro p c hlk
    by_cases hpu : p ∈ upd
    · have := hplkN p hpu
      rw [hlk] at this
      have hc : c = m.position := Option.some.inj this
      subst hc
      exact ⟨gc + 1, gc, hlkN p hpu, by rw [hlkO _ hcurnupd]; exact hgc, by omega⟩
    · rw [hplkO p hpu] at hlk
      obtain ⟨vp, vc, hvp, hvc, hlt⟩ := inv.cf_link p c hlk
      refine ⟨vp, ?_⟩
      by_cases hcu : c ∈ upd
      · refine ⟨gc + 1, by rw [hlkO _ hpu]; exact hvp, hlkN c hcu, ?_⟩
        rcases (hupd c hcu).2 with h | ⟨old, hold, hlt2⟩
        · rw [hvc] at h
          cases h
        · rw [hvc] at hold
          have : old = vc := (Option.some.inj hold).symm
          omega
      · exact ⟨vc, by rw [hlkO _ hpu]; exact hvp, by rw [hlkO _ hcu]; exact hvc, hlt⟩
  · intro p v hv hps
    rw [h3, List.map_append, map_fst_reverse_pairs upd (fun _ => m.position)]
    by_cases hpu : p ∈ upd
    · exact List.mem_append_left _ (List.mem_reverse.mpr hpu)
    · rw [hlkO _ hpu] at hv
      exact List.mem_append_right _ (inv.keys_cf p v hv hps)
  · rw [hplkO _ hstartnupd]
    exact inv.start_nopar
  · intro p v hv
    have hK' : (stf.g_score.map Prod.fst).dedup.length =
        (((upd.map (fun q => (q, gc + 1))).reverse).map Prod.fst ++
          st.g_score.map Prod.fst).dedup.length := by
      rw [h4, List.map_append]
    by_cases hpu : p ∈ upd
    · rw [hlkN p hpu] at hv
      have hveq : v = gc + 1 := (Option.some.inj hv).symm
      subst hveq
      rcases (hupd p hpu).2 with h | ⟨old, hold, hlt⟩
      · have hfresh : p ∉ st.g_score.map Prod.fst := nlookup_eq_none_not_key h
        have hp1 : p ∈ ((upd.map (fun q => (q, gc + 1))).reverse).map Prod.fst := by
          rw [map_fst_reverse_pairs upd (fun _ => gc + 1)]
          exact List.mem_reverse.mpr hpu
        have h2b := dedup_length_lt_append hp1 hfresh
        have h3b := inv.vbound _ gc hgc
        rw [hK']
        omega
      · have h2b := inv.vbound p old hold
        omega
    · rw [hlkO _ hpu] at hv
      have := inv.vbound p v hv
      omega
  · intro p v hv
    by_cases hpu : p ∈ upd
    · have := mem_get_neighbors (hupd p hpu).1
      exact Or.inr ⟨this.2.1, this.2.2.1⟩
    · rw [hlkO _ hpu] at hv
      exact inv.keys_ok p v hv
  · intro j hj hj'
    by_cases hju : x j ∈ upd
    · left
      refine ⟨⟨x j, gc + 1, gc + 1 + astar.heuristic (x j) g.endP, some m.position⟩,
        ?_, rfl, ?_⟩
      · rw [h1]
        exact List.mem_append_right _ (List.mem_map.mpr ⟨x j, hju, rfl⟩)
      · have hval := hlkN _ hju
        rw [hj'] at hval
        have hgj : j = gc + 1 := Option.some.inj hval
        have hheu : astar.heuristic (x j) g.endP ≤ k - j := by
          have := tight_path_tail hstep (k - j) j (by omega)
          rw [hxk] at this
          exact heuristic_le_pathBetween this
        dsimp only
        omega
    · have hjold : nlookup st.g_score (x j) = some j := by
        rw [← hlkO _ hju]
        exact hj'
      rcases inv.inv4 j hj hjold with ⟨nd, hnd1, hnd2, hnd3⟩ | ⟨hjk, hnext⟩
      · by_cases hndm : nd = m
        · subst hndm
          have hjk : j < k := by
            rcases Nat.lt_or_ge j k with h | h
            · exact h
            · exfalso
              have : j = k := by omega
              subst this
              exact hne (hnd2 ▸ hxk ▸ rfl)
          right
          refine ⟨hjk, ?_⟩
          have hgcj : gc = j := by
            rw [hnd2] at hgc
            rw [hjold] at hgc
            exact (Option.some.inj hgc).symm
          have hnbs : x (j + 1) ∈ get_neighbors g nd.position := by
            rw [hnd2]
            exact hstep j hjk
          by_cases hx1u : x (j + 1) ∈ upd
          · rw [hlkN _ hx1u, hgcj]
          · obtain ⟨w, hw, hwle⟩ := h7 _ hnbs hx1u
            obtain ⟨d2, hd2, hd2le⟩ := inv.admiss _ w hw
            have hdx1 : distIs g (x (j + 1)) (j + 1) := hdist (j + 1) (by omega)
            have := distIs_unique hdx1 hd2
            have hwv : w = j + 1 := by omega
            rw [hlkO _ hx1u, hw, hwv]
        · left
          refine ⟨nd, ?_, hnd2, hnd3⟩
          rw [h1]
          refine List.mem_append_left _ ?_
          exact extractMin_mem_rest hpop hnd1 hndm
      · right
        refine ⟨hjk, ?_⟩
        have hx1nu : x (j + 1) ∉ upd := by
          intro hmem
          rcases (hupd _ hmem).2 with h | ⟨old, hold, hlt⟩
          · rw [hnext] at h
            cases h
          · rw [hnext] at hold
            have hov : old = j + 1 := (Option.some.inj hold).symm
            subst hov
            obtain ⟨jm, hjm, hjmle⟩ := inv.admiss _ gc hgc
            obtain ⟨d2, hd2, hd2le⟩ := distIs_le_succ hjm (hupd _ hmem).1
            have hdx1 : distIs g (x (j + 1)) (j + 1) := hdist (j + 1) (by omega)
            have := distIs_unique hdx1 hd2
            omega
        rw [hlkO _ hx1nu]
        exact hnext
  · have hheap : stf.open_set.length = heap'.length + upd.length := by
      rw [h1, List.length_append, List.length_map]
    have hheap0 : st.open_set.length = heap'.length + 1 := extractMin_length hpop
    have hKbound : (st.g_score.map Prod.fst).dedup.length ≤
        g.width * g.height + 1 := dist_keys_bound inv.keys_ok
    have hsum := @map_sum_drop (phiVal st.g_score (g.width * g.height))
      (phiVal stf.g_score (g.width * g.height)) (posList g)
      (posList_nodup g) upd h5 ?_ ?_ ?_
    · unfold astarPhi
      omega
    · intro q hq
      have := mem_get_neighbors (hupd q hq).1
      exact mem_posList.mpr ⟨this.2.1, this.2.2.1⟩
    · intro q hq
      unfold phiVal
      rw [hlkN q hq]
      rcases (hupd q hq).2 with h | ⟨old, hold, hlt⟩
      · rw [h]
        dsimp only
        have h3b := inv.vbound _ gc hgc
        omega
      · rw [hold]
        dsimp only
        omega
    · intro p _ hp
      unfold phiVal
      rw [hlkO _ hp]

theorem astar_init_inv (g : Grid) (k : Nat) (x : Nat → Position)
    (hk : distIs g g.endP k) : AStarInv g k x (astar.initState g) := by
  have hlk : ∀ (p : Position) (v : Nat),
      nlookup [(g.start, 0)] p = some v → p = g.start ∧ v = 0 := by
    intro p v hv
    by_cases hp : ((g.start, 0) : Position × Nat).1 = p
    · rw [nlookup_cons_eq hp] at hv
      exact ⟨hp.symm, (Option.some.inj hv).symm⟩
    · rw [nlookup_cons_ne hp] at hv
      cases hv
  unfold astar.initState
  refine ⟨?_, ?_, ?_, ?_, ?_, ?_, rfl, ?_, ?_, ?_⟩
  · intro p v hv
    obtain ⟨hp, hv0⟩ := hlk p v hv
    subst hp
    subst hv0
    exact ⟨0, distIs_start g, le_refl _⟩
  · intro n hn
    rw [List.mem_singleton] at hn
    subst hn
    exact ⟨0, nlookup_cons_eq rfl, le_refl _, by dsimp only; omega⟩
  · exact nlookup_cons_eq rfl
  · intro pr hpr
    cases hpr
  · intro p c hc
    cases hc
  · intro p v hv hps
    exact absurd (hlk p v hv).1 hps
  · intro p v hv
    obtain ⟨hp, hv0⟩ := hlk p v hv
    subst hp
    subst hv0
    simp
  · intro p v hv
    exact Or.inl (hlk p v hv).1
  · intro j hj hj'
    obtain ⟨hp, hv0⟩ := hlk _ _ hj'
    left
    refine ⟨⟨g.start, 0, astar.heuristic g.start g.endP, none⟩,
      List.mem_singleton_self _, hp.symm, ?_⟩
    have := heuristic_le_pathBetween (pathBetween_of_distIs hk)
    dsimp only
    omega

theorem astarLoop_opt (g : Grid) (k : Nat) (hk : distIs g g.endP k)
    (x : Nat → Position) (hx0 : x 0 = g.start) (hxk : x k = g.endP)
    (hstep : ∀ i, i < k → adjStep g (x i) (x (i + 1)))
    (hdist : ∀ i, i ≤ k → distIs g (x i) i) :
    ∀ (fuel : Nat) (st : astar.AStarState), AStarInv g k x st →
      astarPhi g st < fuel →
      ∃ st2 path, astar.astarLoop g fuel st = some (st2, path) ∧
        path.length = k + 1 := by
  intro fuel
  induction fuel with
  | zero =>
    intro st _ hm
    omega
  | succ n ih =>
    intro st inv hm
    rw [astar.astarLoop]
    match hpop : extractMin (fun nd => nd.f_score) st.open_set with
    | none =>
      exfalso
      obtain ⟨nd, hnd1, _⟩ := astar_good inv hx0
      rw [extractMin_eq_none hpop] at hnd1
      exact List.not_mem_nil _ hnd1
    | some (m, heap') =>
      rw [hpop]
      dsimp only
      obtain ⟨gc, hgc, hgcle, hgf⟩ :=
        inv.heap_ok m (extractMin_mem _ st.open_set m heap' hpop).1
      by_cases hend : m.position = g.endP
      · rw [if_pos hend]
        obtain ⟨nd, hnd1, hnd3⟩ := astar_good inv hx0
        have hmin := extractMin_min _ st.open_set m heap' hpop nd hnd1
        have hmf : m.f_score ≤ k := by omega
        have hh0 : astar.heuristic m.position g.endP = 0 := by
          rw [hend]
          exact heuristic_self _
        rw [hh0] at hgf
        obtain ⟨j, hj1, hj2⟩ := inv.admiss _ gc hgc
        have hjk : j = k := distIs_unique (hend ▸ hj1) hk
        have hgck : gc = k := by omega
        rw [hgck] at hgc
        have hKb : (st.g_score.map Prod.fst).dedup.length ≤
            st.came_from.length + 1 := by
          have hsub : ∀ y ∈ (st.g_score.map Prod.fst).dedup,
              y ∈ g.start :: st.came_from.map Prod.fst := by
            intro y hy
            obtain ⟨v, hyv⟩ := key_has_value (List.mem_dedup.mp hy)
            by_cases hs : y = g.start
            · exact hs ▸ List.mem_cons_self _ _
            · exact List.mem_cons_of_mem _ (inv.keys_cf y v hyv hs)
          have h1 := nodup_subset_length_le_dedup (List.nodup_dedup _) hsub
          have h2 := List.Sublist.length_le
            (List.dedup_sublist (g.start :: st.came_from.map Prod.fst))
          simp only [List.length_cons, List.length_map] at h2
          omega
        have hkcf : k ≤ st.came_from.length := by
          have := inv.vbound _ k hgc
          omega
        obtain ⟨path, hpath, hlen⟩ := dij_reconstruct_le inv.cf_link k
          m.position [] (st.came_from.length + 1) hgc (by omega)
        have hcf : CFInv g st.came_from := by
          intro pr hpr
          obtain ⟨hadj, hk2⟩ := inv.cf_all pr hpr
          refine ⟨hadj, ?_⟩
          rcases hk2 with hk2 | ⟨v, hv⟩
          · exact Or.inl hk2
          · by_cases hs : pr.2 = g.start
            · exact Or.inl hs
            · exact Or.inr (inv.keys_cf pr.2 v hv hs)
        have hks : KeyedOrStart g st.came_from m.position := by
          by_cases hs : m.position = g.start
          · exact Or.inl hs
          · exact Or.inr (inv.keys_cf _ k hgc hs)
        have hrp : reconstruct_path st.came_from m.position = some path := by
          unfold reconstruct_path
          exact hpath
        have hspec := reconstruct_path_spec hcf hks hrp
        have hwalk : k + 1 ≤ path.length := by
          refine hk.2 path ⟨hspec.1, hspec.2.1, ?_⟩
          rw [hspec.2.2.1, hend]
        have hlen' : path.length = k + 1 := by
          simp only [List.length_nil] at hlen
          omega
        refine ⟨{ st with open_set := heap',
                          counter := st.counter.explore_node,
                          popped := st.popped ++ [m.position] }, path, ?_, hlen'⟩
        rw [hrp, Option.map_some']
      · rw [if_neg hend]
        obtain ⟨inv', hphi⟩ := astar_expand_inv inv hx0 hxk hstep hdist hpop hend hgc
        exact ih _ inv' (by omega)

/-- A* returns a path of exactly the shortest length on every grid whose
goal is reachable. -/
theorem astar_optimal (g : Grid) (k : Nat) (hk : distIs g g.endP k) :
    ∃ path counter, astar.find_path g = some (path, counter) ∧
      path.length = k + 1 := by
  obtain ⟨x, hx0, hxk, hstep, hdist⟩ := exists_tight_path hk
  have hphi0 : astarPhi g (astar.initState g) <
      (g.width * g.height + 2) * (g.width * g.height + 2) * 5 := by
    have hpt : ∀ p ∈ posList g,
        phiVal [(g.start, 0)] (g.width * g.height) p ≤ g.width * g.height + 2 := by
      intro p _
      unfold phiVal
      by_cases hp : ((g.start, 0) : Position × Nat).1 = p
      · rw [nlookup_cons_eq hp]
        dsimp only
        omega
      · rw [nlookup_cons_ne hp]
        exact le_refl _
    have h1 := map_sum_le_of_le (posList g) _ _ hpt
    have h2 := posList_length_le g
    have h3 : (posList g).length * (g.width * g.height + 2) ≤
        (g.width * g.height) * (g.width * g.height + 2) :=
      Nat.mul_le_mul_right _ h2
    have h4 : 1 + (g.width * g.height) * (g.width * g.height + 2) <
        (g.width * g.height + 2) * (g.width * g.height + 2) * 5 := by
      nlinarith
    unfold astarPhi astar.initState
    dsimp only
    simp only [List.length_singleton]
    omega
  obtain ⟨st2, path, hrun, hlen⟩ := astarLoop_opt g k hk x hx0 hxk hstep hdist
    ((g.width * g.height + 2) * (g.width * g.height + 2) * 5)
    (astar.initState g) (astar_init_inv g k x hk) hphi0
  refine ⟨path, st2.counter, ?_, hlen⟩
  unfold astar.find_path astar.run
  rw [hrun, Option.map_some']

instance adjStep.decidable (g : Grid) (a b : Position) : Decidable (adjStep g a b) :=
  inferInstanceAs (Decidable (b ∈ get_neighbors g a))

/-- C3.  On every connected grid — one with a `get_neighbors` walk from
`start` to `end` — BFS and Dijkstra return paths of equal length, and A*
returns a path of that same length; that common length is the minimal
walk length (shortest distance `k`, as `k + 1` nodes). -/
theorem optimal_path_length_equality (g : Grid)
    (hconn : ∃ l, walkTo g g.endP l) :
    ∃ k, distIs g g.endP k ∧
      ∃ p1 c1 p2 c2 p3 c3,
        breadth_first.find_path g = some (p1, c1) ∧
        dijkstra.find_path g = some (p2, c2) ∧
        astar.find_path g = some (p3, c3) ∧
        p1.length = p2.length ∧ p2.length = p3.length ∧
        p1.length = k + 1 ∧
        ∀ l, walkTo g g.endP l → p1.length ≤ l.length := by
  obtain ⟨k, hk⟩ := distIs_exists_of_reach hconn
  obtain ⟨p1, c1, h1, hl1⟩ := breadth_first_optimal g k hk
  obtain ⟨p2, c2, h2, hl2⟩ := dijkstra_optimal g k hk
  obtain ⟨p3, c3, h3, hl3⟩ := astar_optimal g k hk
  refine ⟨k, hk, p1, c1, p2, c2, p3, c3, h1, h2, h3, by omega, by omega, hl1, ?_⟩
  intro l hl
  have := hk.2 l hl
  omega

/-- Witness for C3 on the empty 3×3 grid. -/
theorem optimal_path_length_equality_witness :
    (∃ l, walkTo grid3x3 grid3x3.endP l) ∧
      (∃ k, distIs grid3x3 grid3x3.endP k ∧
        ∃ p1 c1 p2 c2 p3 c3,
          breadth_first.find_path grid3x3 = some (p1, c1) ∧
          dijkstra.find_path grid3x3 = some (p2, c2) ∧
          astar.find_path grid3x3 = some (p3, c3) ∧
          p1.length = p2.length ∧ p2.length = p3.length ∧
          p1.length = k + 1 ∧
          ∀ l, walkTo grid3x3 grid3x3.endP l → p1.length ≤ l.length) :=
  ⟨⟨[⟨0, 0⟩, ⟨0, 1⟩, ⟨0, 2⟩, ⟨1, 2⟩, ⟨2, 2⟩], rfl,
      by
        simp only [List.chain'_cons, List.chain'_singleton, and_true]
        exact ⟨by decide, by decide, by decide, by decide⟩, rfl⟩,
    optimal_path_length_equality grid3x3
      ⟨[⟨0, 0⟩, ⟨0, 1⟩, ⟨0, 2⟩, ⟨1, 2⟩, ⟨2, 2⟩], rfl,
        by
          simp only [List.chain'_cons, List.chain'_singleton, and_true]
          exact ⟨by decide, by decide, by decide, by decide⟩, rfl⟩⟩

end Pathfinder
